import Mathlib

/-!
Verification model of the duplicate-query finder (src/main.go).

Go strings are modelled as `List Char`.  The regex-based rewriting steps of
`normalizeQuery` are modelled as the equivalent left-to-right scanners
(each Go regex in the source replaces non-overlapping leftmost matches,
which for these particular patterns is exactly a single scan).  The SQL
extraction regex of `findSQLQueries` is modelled by a small backtracking
regex engine with Go's leftmost-first match preference.
-/

namespace DQF

/-- Character strings (Go `string` as a list of runes). -/
abbrev Cs := List Char

/-- The character class of Go's RE2 `\s` (also of the source's `[\s\n\r\t]`):
space, tab, newline, form feed, carriage return. -/
def ws5 (c : Char) : Bool :=
  c = ' ' || c = '\t' || c = '\n' || c = '\x0c' || c = '\r'

/-- The whitespace characters named by the spec's equivalence clause:
spaces, tabs, newlines, carriage returns. -/
def ws4 (c : Char) : Bool :=
  c = ' ' || c = '\t' || c = '\n' || c = '\r'

/-- Go `unicode.IsSpace` (the class trimmed by `strings.TrimSpace`). -/
def goIsSpace (c : Char) : Bool :=
  ws5 c || c = '\x0b' || c = '\x85' || c = '\xa0' || c.val = 0x1680 ||
  (0x2000 ≤ c.val && c.val ≤ 0x200a) || c.val = 0x2028 || c.val = 0x2029 ||
  c.val = 0x202f || c.val = 0x205f || c.val = 0x3000

/-- Go RE2 `\d`. -/
def isDigitA (c : Char) : Bool := '0' ≤ c && c ≤ '9'

/-- Go RE2 `\w`. -/
def isWordCh (c : Char) : Bool :=
  isDigitA c || ('a' ≤ c && c ≤ 'z') || ('A' ≤ c && c ≤ 'Z') || c = '_'

/-- Lower-casing of one character (`strings.ToLower`, ASCII part). -/
def goLower (c : Char) : Char :=
  if 'A' ≤ c ∧ c ≤ 'Z' then Char.ofNat (c.toNat + 32) else c

/-- Upper-casing of one character (`strings.ToUpper`, ASCII part). -/
def goUpper (c : Char) : Char :=
  if 'a' ≤ c ∧ c ≤ 'z' then Char.ofNat (c.toNat - 32) else c

/-- `strings.ToLower`. -/
def toLowerStr (s : Cs) : Cs := s.map goLower

/-- `strings.ToUpper`. -/
def toUpperStr (s : Cs) : Cs := s.map goUpper

theorem length_dropWhile_le' {α : Type} (p : α → Bool) (l : List α) :
    (l.dropWhile p).length ≤ l.length :=
  (List.dropWhile_sublist p).length_le

/-- Fuelled form of the whitespace-collapsing scanner (structural recursion
on the fuel, which the published function instantiates with the string
length; `collapseWS_cons` below recovers the natural recursion). -/
def collapseF : Nat → Cs → Cs
  | _, [] => []
  | 0, s => s
  | n + 1, c :: t =>
    if ws5 c then ' ' :: collapseF n (t.dropWhile ws5) else c :: collapseF n t

theorem collapseF_congr : ∀ n m s, s.length ≤ n → s.length ≤ m →
    collapseF n s = collapseF m s := by
  intro n
  induction n with
  | zero =>
    intro m s h1 h2
    cases s with
    | nil => cases m <;> rfl
    | cons c t => simp at h1
  | succ n ih =>
    intro m s h1 h2
    cases s with
    | nil => cases m <;> rfl
    | cons c t =>
      cases m with
      | zero => simp at h2
      | succ m =>
        simp only [List.length_cons] at h1 h2
        have hd : (t.dropWhile ws5).length ≤ t.length :=
          length_dropWhile_le' ws5 t
        simp only [collapseF]
        by_cases hw : ws5 c = true
        · rw [if_pos hw, if_pos hw, ih m _ (by omega) (by omega)]
        · rw [if_neg hw, if_neg hw, ih m t (by omega) (by omega)]

/-- `regexp.MustCompile('[\s\n\r\t]+').ReplaceAllString(s, " ")` (and likewise
the later `\s+ → " "` step, whose character class is the same):
every maximal run of `ws5` characters becomes one space. -/
def collapseWS (s : Cs) : Cs := collapseF s.length s

theorem collapseWS_cons (c : Char) (t : Cs) :
    collapseWS (c :: t) =
      if ws5 c then ' ' :: collapseWS (t.dropWhile ws5)
      else c :: collapseWS t := by
  unfold collapseWS
  simp only [List.length_cons, collapseF]
  by_cases hw : ws5 c = true
  · rw [if_pos hw, if_pos hw,
      collapseF_congr t.length (t.dropWhile ws5).length _
        (length_dropWhile_le' ws5 t) (le_refl _)]
  · rw [if_neg hw, if_neg hw]

/-- `strings.TrimSpace`, left part. -/
def trimL (s : Cs) : Cs := s.dropWhile goIsSpace

/-- `strings.TrimSpace`. -/
def trimStr (s : Cs) : Cs := ((trimL s).reverse.dropWhile goIsSpace).reverse

/-- `regexp.MustCompile('\s*X\s*').ReplaceAllString(s, r)` for a single
non-whitespace anchor character `X` and replacement string `r`
(the `=`, `,`, `(`, `)` steps of `normalizeQuery`, with replacements
`" = "`, `", "`, `" ( "`, `" ) "`).  A leftmost-first match of `\s*X\s*`
starts at the earliest position from which optional whitespace reaches an
`X`; the match greedily takes the whitespace runs on both sides of that
`X`. -/
def replAroundF (x : Char) (r : Cs) : Nat → Cs → Cs
  | _, [] => []
  | 0, s => s
  | n + 1, c :: t =>
    if c = x then r ++ replAroundF x r n (t.dropWhile ws5)
    else if ws5 c then
      match t.dropWhile ws5 with
      | y :: t' =>
        if y = x then r ++ replAroundF x r n (t'.dropWhile ws5)
        else (c :: t.takeWhile ws5) ++ replAroundF x r n (y :: t')
      | [] => c :: t.takeWhile ws5
    else c :: replAroundF x r n t

theorem replAroundF_congr (x : Char) (r : Cs) : ∀ n m s, s.length ≤ n →
    s.length ≤ m → replAroundF x r n s = replAroundF x r m s := by
  intro n
  induction n with
  | zero =>
    intro m s h1 h2
    cases s with
    | nil => cases m <;> rfl
    | cons c t => simp at h1
  | succ n ih =>
    intro m s h1 h2
    cases s with
    | nil => cases m <;> rfl
    | cons c t =>
      cases m with
      | zero => simp at h2
      | succ m =>
        simp only [List.length_cons] at h1 h2
        have hd : (t.dropWhile ws5).length ≤ t.length :=
          length_dropWhile_le' ws5 t
        simp only [replAroundF]
        by_cases hx : c = x
        · rw [if_pos hx, if_pos hx, ih m _ (by omega) (by omega)]
        · rw [if_neg hx, if_neg hx]
          by_cases hw : ws5 c = true
          · rw [if_pos hw, if_pos hw]
            rcases hdw : t.dropWhile ws5 with _ | ⟨y, t'⟩
            · rfl
            · dsimp only
              have hlt : t'.length + 1 ≤ t.length := by
                rw [hdw] at hd
                simpa using hd
              have hd' : (t'.dropWhile ws5).length ≤ t'.length :=
                length_dropWhile_le' ws5 t'
              by_cases hy : y = x
              · rw [if_pos hy, if_pos hy, ih m _ (by omega) (by omega)]
              · rw [if_neg hy, if_neg hy,
                  ih m (y :: t') (by simp; omega) (by simp; omega)]
          · rw [if_neg hw, if_neg hw, ih m t (by omega) (by omega)]

/-- `regexp.MustCompile('\s*X\s*').ReplaceAllString(s, r)` for a single
non-whitespace anchor character `X` and replacement string `r`
(the `=`, `,`, `(`, `)` steps of `normalizeQuery`, with replacements
`" = "`, `", "`, `" ( "`, `" ) "`).  A leftmost-first match of `\s*X\s*`
starts at the earliest position from which optional whitespace reaches an
`X`; the match greedily takes the whitespace runs on both sides of that
`X`. -/
def replAround (x : Char) (r : Cs) (s : Cs) : Cs := replAroundF x r s.length s

theorem replAround_cons (x : Char) (r : Cs) (c : Char) (t : Cs) :
    replAround x r (c :: t) =
      if c = x then r ++ replAround x r (t.dropWhile ws5)
      else if ws5 c then
        match t.dropWhile ws5 with
        | y :: t' =>
          if y = x then r ++ replAround x r (t'.dropWhile ws5)
          else (c :: t.takeWhile ws5) ++ replAround x r (y :: t')
        | [] => c :: t.takeWhile ws5
      else c :: replAround x r t := by
  have hd : (t.dropWhile ws5).length ≤ t.length := length_dropWhile_le' ws5 t
  have e0 : replAround x r (c :: t) = replAroundF x r (t.length + 1) (c :: t) :=
    rfl
  rw [e0]
  simp only [replAroundF]
  by_cases hx : c = x
  · rw [if_pos hx, if_pos hx,
      replAroundF_congr x r t.length (t.dropWhile ws5).length _ hd (le_refl _)]
    rfl
  · rw [if_neg hx, if_neg hx]
    by_cases hw : ws5 c = true
    · rw [if_pos hw, if_pos hw]
      rcases hdw : t.dropWhile ws5 with _ | ⟨y, t'⟩
      · rfl
      · dsimp only
        have hlt : t'.length + 1 ≤ t.length := by
          rw [hdw] at hd
          simpa using hd
        have hd' : (t'.dropWhile ws5).length ≤ t'.length :=
          length_dropWhile_le' ws5 t'
        by_cases hy : y = x
        · rw [if_pos hy, if_pos hy,
            replAroundF_congr x r t.length (t'.dropWhile ws5).length _
              (by omega) (le_refl _)]
          rfl
        · rw [if_neg hy, if_neg hy,
            replAroundF_congr x r t.length (y :: t').length (y :: t')
              (by simp; omega) (le_refl _)]
          rfl
    · rw [if_neg hw, if_neg hw,
        replAroundF_congr x r t.length t.length t (le_refl _) (le_refl _)]
      rfl

def replDigitsF : Nat → Cs → Cs
  | _, [] => []
  | 0, s => s
  | n + 1, c :: t =>
    if isDigitA c then 'N' :: replDigitsF n (t.dropWhile isDigitA)
    else c :: replDigitsF n t

theorem replDigitsF_congr : ∀ n m s, s.length ≤ n → s.length ≤ m →
    replDigitsF n s = replDigitsF m s := by
  intro n
  induction n with
  | zero =>
    intro m s h1 h2
    cases s with
    | nil => cases m <;> rfl
    | cons c t => simp at h1
  | succ n ih =>
    intro m s h1 h2
    cases s with
    | nil => cases m <;> rfl
    | cons c t =>
      cases m with
      | zero => simp at h2
      | succ m =>
        simp only [List.length_cons] at h1 h2
        have hd : (t.dropWhile isDigitA).length ≤ t.length :=
          length_dropWhile_le' isDigitA t
        simp only [replDigitsF]
        by_cases hw : isDigitA c = true
        · rw [if_pos hw, if_pos hw, ih m _ (by omega) (by omega)]
        · rw [if_neg hw, if_neg hw, ih m t (by omega) (by omega)]

/-- `regexp.MustCompile('\d+').ReplaceAllString(s, "N")`. -/
def replDigits (s : Cs) : Cs := replDigitsF s.length s

theorem replDigits_cons (c : Char) (t : Cs) :
    replDigits (c :: t) =
      if isDigitA c then 'N' :: replDigits (t.dropWhile isDigitA)
      else c :: replDigits t := by
  have hd : (t.dropWhile isDigitA).length ≤ t.length :=
    length_dropWhile_le' isDigitA t
  have e0 : replDigits (c :: t) = replDigitsF (t.length + 1) (c :: t) := rfl
  rw [e0]
  simp only [replDigitsF]
  by_cases hw : isDigitA c = true
  · rw [if_pos hw, if_pos hw,
      replDigitsF_congr t.length (t.dropWhile isDigitA).length _ hd (le_refl _)]
    rfl
  · rw [if_neg hw, if_neg hw,
      replDigitsF_congr t.length t.length t (le_refl _) (le_refl _)]
    rfl

def replQuoteF (q : Char) : Nat → Cs → Cs
  | _, [] => []
  | 0, s => s
  | n + 1, c :: t =>
    if c = q then
      match t.dropWhile (fun d => !(d = q)) with
      | _ :: rest => 'S' :: replQuoteF q n rest
      | [] => c :: t
    else c :: replQuoteF q n t

theorem replQuoteF_congr (q : Char) : ∀ n m s, s.length ≤ n → s.length ≤ m →
    replQuoteF q n s = replQuoteF q m s := by
  intro n
  induction n with
  | zero =>
    intro m s h1 h2
    cases s with
    | nil => cases m <;> rfl
    | cons c t => simp at h1
  | succ n ih =>
    intro m s h1 h2
    cases s with
    | nil => cases m <;> rfl
    | cons c t =>
      cases m with
      | zero => simp at h2
      | succ m =>
        simp only [List.length_cons] at h1 h2
        have hd : (t.dropWhile (fun d => !(d = q))).length ≤ t.length :=
          length_dropWhile_le' _ t
        simp only [replQuoteF]
        by_cases hq : c = q
        · rw [if_pos hq, if_pos hq]
          rcases hdw : t.dropWhile (fun d => !(d = q)) with _ | ⟨y, rest⟩
          · rfl
          · dsimp only
            have hlt : rest.length + 1 ≤ t.length := by
              rw [hdw] at hd
              simpa using hd
            rw [ih m rest (by omega) (by omega)]
        · rw [if_neg hq, if_neg hq, ih m t (by omega) (by omega)]

/-- `regexp.MustCompile(q[^q]*q).ReplaceAllString(s, "S")` for a quote
character `q`: each leftmost pair of `q`s (with interior free of `q`)
becomes `S`; a `q` with no later `q` matches nothing. -/
def replQuote (q : Char) (s : Cs) : Cs := replQuoteF q s.length s

theorem replQuote_cons (q c : Char) (t : Cs) :
    replQuote q (c :: t) =
      if c = q then
        match t.dropWhile (fun d => !(d = q)) with
        | _ :: rest => 'S' :: replQuote q rest
        | [] => c :: t
      else c :: replQuote q t := by
  have hd : (t.dropWhile (fun d => !(d = q))).length ≤ t.length :=
    length_dropWhile_le' _ t
  have e0 : replQuote q (c :: t) = replQuoteF q (t.length + 1) (c :: t) := rfl
  rw [e0]
  simp only [replQuoteF]
  by_cases hq : c = q
  · rw [if_pos hq, if_pos hq]
    rcases hdw : t.dropWhile (fun d => !(d = q)) with _ | ⟨y, rest⟩
    · rfl
    · dsimp only
      have hlt : rest.length + 1 ≤ t.length := by
        rw [hdw] at hd
        simpa using hd
      rw [replQuoteF_congr q t.length rest.length rest (by omega) (le_refl _)]
      rfl
  · rw [if_neg hq, if_neg hq,
      replQuoteF_congr q t.length t.length t (le_refl _) (le_refl _)]
    rfl

/-- Step 4 of `normalizeQuery`: `\s*=\s*` → `" = "`. -/
def replEq : Cs → Cs := replAround '=' [' ', '=', ' ']

/-- Step 5 of `normalizeQuery`: `\s*,\s*` → `", "`. -/
def replComma : Cs → Cs := replAround ',' [',', ' ']

/-- Step 10 of `normalizeQuery`: `\s*\(\s*` → `" ( "`. -/
def replLpar : Cs → Cs := replAround '(' [' ', '(', ' ']

/-- Step 11 of `normalizeQuery`: `\s*\)\s*` → `" ) "`. -/
def replRpar : Cs → Cs := replAround ')' [' ', ')', ' ']

/-- `normalizeQuery` from src/main.go: collapse whitespace, trim, lower-case,
then the ordered replacement list (`=`, `,`, `\s+`, digits, single quotes,
double quotes, `(`, `)`). -/
def normalizeQuery (query : Cs) : Cs :=
  replRpar <| replLpar <|
  replQuote '"' <| replQuote '\'' <|
  replDigits <| collapseWS <|
  replComma <| replEq <|
  toLowerStr <| trimStr <| collapseWS query

/-! ### The SQL-extraction regex of `findSQLQueries` -/

/-- Regex AST covering the constructs of the SQL-extraction pattern:
character classes, concatenation, ordered alternation, greedy option,
greedy `+` and lazy `+?` over a character class, and the `$` anchor. -/
inductive RE where
  | cls (p : Char → Bool)
  | eps
  | eos
  | cat (a b : RE)
  | alt (a b : RE)
  | opt (a : RE)
  | plusG (p : Char → Bool)
  | plusL (p : Char → Bool)

/-- All candidate match lengths of `r` against the text suffix `s`, in the
preference order of a Perl-style backtracking search (Go's regexp package
chooses, among matches at the leftmost start, the first one in this
order).  `eos` matches only when the remaining text is empty.  Greedy `+`
on a character class prefers the longest run, lazy `+?` the shortest. -/
def ends : RE → Cs → List Nat
  | .cls p, [] => []
  | .cls p, c :: _ => if p c then [1] else []
  | .eps, _ => [0]
  | .eos, s => if s.isEmpty then [0] else []
  | .cat a b, s => (ends a s).flatMap (fun n => (ends b (s.drop n)).map (n + ·))
  | .alt a b, s => ends a s ++ ends b s
  | .opt a, s => ends a s ++ [0]
  | .plusG p, s =>
    (List.range (s.takeWhile p).length).map (fun i => (s.takeWhile p).length - i)
  | .plusL p, s => (List.range (s.takeWhile p).length).map (· + 1)

/-- One case-insensitive literal character (the pattern has flag `(?i)`). -/
def chCI (c : Char) : RE := .cls (fun d => goLower d = goLower c)

/-- A case-insensitive literal word. -/
def litCI (w : Cs) : RE := w.foldr (fun c r => .cat (chCI c) r) .eps

/-- `[\s\S]+?`. -/
def anyL : RE := .plusL (fun _ => true)

/-- `\s+`. -/
def spP : RE := .plusG ws5

/-- `SELECT\s+[\s\S]+?(?:FROM[\s\S]+?)?`. -/
def brSelect : RE :=
  .cat (litCI "SELECT".toList)
    (.cat spP (.cat anyL (.opt (.cat (litCI "FROM".toList) anyL))))

/-- `INSERT\s+INTO[\s\S]+?`. -/
def brInsert : RE :=
  .cat (litCI "INSERT".toList) (.cat spP (.cat (litCI "INTO".toList) anyL))

/-- `UPDATE\s+\w+\s+SET[\s\S]+?`. -/
def brUpdate : RE :=
  .cat (litCI "UPDATE".toList)
    (.cat spP (.cat (.plusG isWordCh) (.cat spP (.cat (litCI "SET".toList) anyL))))

/-- `DELETE\s+FROM[\s\S]+?`. -/
def brDelete : RE :=
  .cat (litCI "DELETE".toList) (.cat spP (.cat (litCI "FROM".toList) anyL))

/-- `CREATE\s+(?:TABLE|DATABASE|INDEX)[\s\S]+?`. -/
def brCreate : RE :=
  .cat (litCI "CREATE".toList)
    (.cat spP (.cat (.alt (litCI "TABLE".toList)
      (.alt (litCI "DATABASE".toList) (litCI "INDEX".toList))) anyL))

/-- `ALTER\s+TABLE[\s\S]+?`. -/
def brAlter : RE :=
  .cat (litCI "ALTER".toList) (.cat spP (.cat (litCI "TABLE".toList) anyL))

/-- `DROP\s+(?:TABLE|DATABASE)[\s\S]+?`. -/
def brDrop : RE :=
  .cat (litCI "DROP".toList)
    (.cat spP (.cat (.alt (litCI "TABLE".toList) (litCI "DATABASE".toList)) anyL))

/-- `TRUNCATE\s+TABLE[\s\S]+?`. -/
def brTruncate : RE :=
  .cat (litCI "TRUNCATE".toList) (.cat spP (.cat (litCI "TABLE".toList) anyL))

/-- The full pattern of `findSQLQueries`:
eight keyword-anchored branches followed by `(?:;|$)`. -/
def sqlRE : RE :=
  .cat (.alt brSelect (.alt brInsert (.alt brUpdate (.alt brDelete
    (.alt brCreate (.alt brAlter (.alt brDrop brTruncate)))))))
    (.alt (.cls (fun c => c = ';')) .eos)

def findAllF (r : RE) : Nat → Cs → List Cs
  | _, [] =>
    match (ends r []).head? with
    | some _ => [[]]
    | none => []
  | 0, _ :: _ => []
  | n + 1, c :: t =>
    match (ends r (c :: t)).head? with
    | some k =>
      if k = 0 then [] :: findAllF r n t
      else ((c :: t).take k) :: findAllF r n ((c :: t).drop k)
    | none => findAllF r n t

theorem findAllF_congr (r : RE) : ∀ n m s, s.length ≤ n → s.length ≤ m →
    findAllF r n s = findAllF r m s := by
  intro n
  induction n with
  | zero =>
    intro m s h1 h2
    cases s with
    | nil => cases m <;> rfl
    | cons c t => simp at h1
  | succ n ih =>
    intro m s h1 h2
    cases s with
    | nil => cases m <;> rfl
    | cons c t =>
      cases m with
      | zero => simp at h2
      | succ m =>
        simp only [List.length_cons] at h1 h2
        simp only [findAllF]
        rcases (ends r (c :: t)).head? with _ | k
        · exact ih m t (by omega) (by omega)
        · dsimp only
          by_cases hk : k = 0
          · rw [if_pos hk, if_pos hk, ih m t (by omega) (by omega)]
          · rw [if_neg hk, if_neg hk,
              ih m ((c :: t).drop k) (by simp; omega) (by simp; omega)]

/-- `re.FindAllString(text, -1)`: repeatedly take the leftmost-first match
and continue after its end (advancing one character after an empty match). -/
def findAll (r : RE) (s : Cs) : List Cs := findAllF r s.length s

theorem findAll_nil (r : RE) :
    findAll r [] =
      match (ends r []).head? with
      | some _ => [[]]
      | none => [] := rfl

theorem findAll_cons (r : RE) (c : Char) (t : Cs) :
    findAll r (c :: t) =
      match (ends r (c :: t)).head? with
      | some k =>
        if k = 0 then [] :: findAll r t
        else ((c :: t).take k) :: findAll r ((c :: t).drop k)
      | none => findAll r t := by
  have e0 : findAll r (c :: t) = findAllF r (t.length + 1) (c :: t) := rfl
  rw [e0]
  simp only [findAllF]
  rcases (ends r (c :: t)).head? with _ | k
  · rw [findAllF_congr r t.length t.length t (le_refl _) (le_refl _)]
    rfl
  · dsimp only
    by_cases hk : k = 0
    · rw [if_pos hk, if_pos hk,
        findAllF_congr r t.length t.length t (le_refl _) (le_refl _)]
      rfl
    · rw [if_neg hk, if_neg hk,
        findAllF_congr r t.length ((c :: t).drop k).length ((c :: t).drop k)
          (by simp; omega) (le_refl _)]
      rfl

/-- `strings.HasSuffix(s, ";")`. -/
def endsSemi (s : Cs) : Bool := s.getLast? = some ';'

/-- `strings.Contains(s, pat)`. -/
def strHas (pat : Cs) : Cs → Bool
  | [] => pat.isEmpty
  | s@(_ :: t) => pat.isPrefixOf s || strHas pat t

/-- The acceptance filter applied to each (whitespace-trimmed) regex match
inside `findSQLQueries`. -/
def acceptQuery (cleaned : Cs) : Bool :=
  decide (0 < cleaned.length) &&
    (endsSemi cleaned || strHas "SELECT".toList (toUpperStr cleaned) ||
     strHas "INSERT".toList (toUpperStr cleaned) ||
     strHas "UPDATE".toList (toUpperStr cleaned))

/-- `findSQLQueries` from src/main.go: all regex matches, trimmed, kept when
they pass the acceptance filter. -/
def findSQLQueries (text : Cs) : List Cs :=
  (findAll sqlRE text).foldr
    (fun m acc => if acceptQuery (trimStr m) then trimStr m :: acc else acc) []

/-! ### Aggregation and presentation -/

/-- The `QueryResult` record of src/main.go. -/
structure QueryResult where
  filePath : Cs
  query : Cs
  normalized : Cs
deriving DecidableEq

/-- One insertion into the ordered association list modelling the Go map
`map[string][]QueryResult`: appends `q` to the list at key `k`, creating
the key at the end if absent.  Per-key lists are in append order; the
ordering of keys in the association list models one possible (unobservable)
map layout, and the presentation theorems quantify over its permutations. -/
def upsert (m : List (Cs × List QueryResult)) (k : Cs) (q : QueryResult) :
    List (Cs × List QueryResult) :=
  match m with
  | [] => [(k, [q])]
  | (k', v) :: rest =>
    if k' = k then (k', v ++ [q]) :: rest else (k', v) :: upsert rest k q

/-- `findDuplicates` from src/main.go: group the results by normalized form,
then delete every group with exactly one member. -/
def findDuplicates (queries : List QueryResult) : List (Cs × List QueryResult) :=
  (queries.foldl (fun m q => upsert m q.normalized q) []).filter
    (fun g => !(g.2.length = 1))

/-- Go string `<` on UTF-8 strings (byte order coincides with rune order). -/
def strLt : Cs → Cs → Bool
  | [], [] => false
  | [], _ :: _ => true
  | _ :: _, [] => false
  | c :: s, d :: t => if c < d then true else if d < c then false else strLt s t

/-- The comparator passed to `sort.Slice` in `printResults`: larger groups
first, ties broken by ascending key. -/
def grpLess (a b : Cs × List QueryResult) : Bool :=
  if a.2.length = b.2.length then strLt a.1 b.1 else b.2.length < a.2.length

/-- Insertion into a list sorted by `grpLess`. -/
def insGrp (a : Cs × List QueryResult) :
    List (Cs × List QueryResult) → List (Cs × List QueryResult)
  | [] => [a]
  | b :: l => if grpLess a b then a :: b :: l else b :: insGrp a l

/-- Sorting by `grpLess` (with pairwise-distinct keys the comparator is a
strict total order, so any sorting algorithm — including Go's unstable
`sort.Slice` — produces this unique result). -/
def sortGroups (l : List (Cs × List QueryResult)) :
    List (Cs × List QueryResult) :=
  l.foldr insGrp []

/-- Decimal rendering of `%d`. -/
def natStr (n : Nat) : Cs := (Nat.repr n).toList

/-- The report printed by `printResults`, one entry per line. -/
def printResults (duplicates : List (Cs × List QueryResult)) : List Cs :=
  if duplicates.isEmpty then ["No duplicate queries found".toList]
  else
    ("Found ".toList ++ natStr duplicates.length ++ " duplicate queries".toList) ::
    (sortGroups duplicates).map (fun g =>
      "Count: ".toList ++ natStr g.2.length ++ " -- Normalized Query:\t ".toList ++ g.1)

/-! ### Aggregation lemmas -/

/-- The grouping fold of `findDuplicates`, before singleton groups are
dropped. -/
def buildMap (queries : List QueryResult) : List (Cs × List QueryResult) :=
  queries.foldl (fun m q => upsert m q.normalized q) []

theorem findDuplicates_eq (qs : List QueryResult) :
    findDuplicates qs = (buildMap qs).filter (fun g => !(g.2.length = 1)) := rfl

theorem upsert_not_mem (m : List (Cs × List QueryResult)) (k : Cs)
    (q : QueryResult) (h : k ∉ m.map Prod.fst) :
    upsert m k q = m ++ [(k, [q])] := by
  induction m with
  | nil => rfl
  | cons g rest ih =>
    obtain ⟨k', v⟩ := g
    simp only [List.map_cons, List.mem_cons, not_or] at h
    simp only [upsert]
    rw [if_neg (fun hk => h.1 hk.symm), ih h.2, List.cons_append]

theorem upsert_keys_of_mem (m : List (Cs × List QueryResult)) (k : Cs)
    (q : QueryResult) (h : k ∈ m.map Prod.fst) :
    (upsert m k q).map Prod.fst = m.map Prod.fst := by
  induction m with
  | nil => simp at h
  | cons g rest ih =>
    obtain ⟨k', v⟩ := g
    by_cases hk : k' = k
    · simp [upsert, hk]
    · simp only [List.map_cons, List.mem_cons] at h
      rcases h with h | h

      · exact absurd h.symm hk
      · simp [upsert, hk, ih h]

theorem mem_upsert_of_mem (m : List (Cs × List QueryResult)) (k : Cs)
    (q : QueryResult) (hn : (m.map Prod.fst).Nodup) (h : k ∈ m.map Prod.fst)
    (k' : Cs) (v' : List QueryResult) :
    ((k', v') ∈ upsert m k q ↔
      (k' ≠ k ∧ (k', v') ∈ m) ∨
      (k' = k ∧ ∃ v0, (k, v0) ∈ m ∧ v' = v0 ++ [q])) := by
  induction m with
  | nil => simp at h
  | cons g rest ih =>
    obtain ⟨k1, v1⟩ := g
    simp only [List.map_cons, List.nodup_cons] at hn
    by_cases hk : k1 = k
    · have hup : upsert ((k1, v1) :: rest) k q = (k1, v1 ++ [q]) :: rest := by
        simp [upsert, hk]
      have hn1 : k ∉ rest.map Prod.fst := hk ▸ hn.1
      have hnotin : ∀ w, (k, w) ∉ rest := fun w hw =>
        hn1 (List.mem_map.mpr ⟨(k, w), hw, rfl⟩)
      rw [hup]
      constructor
      · intro h1
        rcases List.mem_cons.mp h1 with h2 | h2
        · have e1 : k' = k1 := congrArg Prod.fst h2
          have e2 : v' = v1 ++ [q] := congrArg Prod.snd h2
          refine Or.inr ⟨e1.trans hk, v1, ?_, e2⟩
          rw [← hk]
          exact List.mem_cons_self _ _
        · exact Or.inl ⟨fun hkk => hnotin v' (hkk ▸ h2),
            List.mem_cons_of_mem _ h2⟩
      · rintro (⟨hne, h2⟩ | ⟨hkk, v0, h0, hv⟩)
        · rcases List.mem_cons.mp h2 with h3 | h3
          · exact absurd ((congrArg Prod.fst h3).trans hk) hne
          · exact List.mem_cons_of_mem _ h3
        · rcases List.mem_cons.mp h0 with h3 | h3
          · have e2 : v0 = v1 := congrArg Prod.snd h3
            apply List.mem_cons.mpr
            left
            rw [hkk, hv, e2, ← hk]
          · exact absurd h3 (hnotin v0)
    · have hup : upsert ((k1, v1) :: rest) k q = (k1, v1) :: upsert rest k q := by
        simp [upsert, hk]
      have hrest : k ∈ rest.map Prod.fst := by
        simp only [List.map_cons, List.mem_cons] at h
        exact h.resolve_left (fun e => hk e.symm)
      rw [hup]
      constructor
      · intro h1
        rcases List.mem_cons.mp h1 with h2 | h2
        · have e1 : k' = k1 := congrArg Prod.fst h2
          exact Or.inl ⟨fun hkk => hk (e1.symm.trans hkk),
            List.mem_cons.mpr (Or.inl h2)⟩
        · rcases (ih hn.2 hrest).mp h2 with ⟨hne, h3⟩ | ⟨hkk, v0, h3, hv⟩
          · exact Or.inl ⟨hne, List.mem_cons_of_mem _ h3⟩
          · exact Or.inr ⟨hkk, v0, List.mem_cons_of_mem _ h3, hv⟩
      · rintro (⟨hne, h2⟩ | ⟨hkk, v0, h0, hv⟩)
        · rcases List.mem_cons.mp h2 with h3 | h3
          · exact List.mem_cons.mpr (Or.inl h3)
          · exact List.mem_cons_of_mem _ ((ih hn.2 hrest).mpr (Or.inl ⟨hne, h3⟩))
        · rcases List.mem_cons.mp h0 with h3 | h3
          · exact absurd ((congrArg Prod.fst h3).symm) hk
          · exact List.mem_cons_of_mem _
              ((ih hn.2 hrest).mpr (Or.inr ⟨hkk, v0, h3, hv⟩))

/-- Invariant tying the association list built by the grouping fold to the
already-processed prefix of the query list. -/
def MapInv (l : List QueryResult) (m : List (Cs × List QueryResult)) : Prop :=
  (m.map Prod.fst).Nodup ∧
  ∀ k v, ((k, v) ∈ m ↔ (k ∈ l.map QueryResult.normalized ∧
    v = l.filter (fun r => r.normalized = k)))

theorem mapInv_step (l : List QueryResult) (m : List (Cs × List QueryResult))
    (q : QueryResult) (h : MapInv l m) :
    MapInv (l ++ [q]) (upsert m q.normalized q) := by
  obtain ⟨hn, hm⟩ := h
  by_cases hk0 : q.normalized ∈ m.map Prod.fst
  · refine ⟨by rw [upsert_keys_of_mem m _ q hk0]; exact hn, fun k v => ?_⟩
    rw [mem_upsert_of_mem m _ q hn hk0]
    by_cases hk : k = q.normalized
    · subst hk
      simp only [ne_eq, not_true_eq_false, false_and, false_or, true_and]
      constructor
      · rintro ⟨v0, h0, rfl⟩
        rcases (hm _ _).mp h0 with ⟨hmem, rfl⟩
        refine ⟨by simp, ?_⟩
        rw [List.filter_append]
        simp
      · rintro ⟨hmem, rfl⟩
        have hmem' : q.normalized ∈ l.map QueryResult.normalized := by
          rcases List.mem_map.mp hk0 with ⟨g, hg, hfst⟩
          obtain ⟨gk, gv⟩ := g
          rcases (hm gk gv).mp hg with ⟨h1, h2⟩
          exact hfst ▸ h1
        refine ⟨l.filter (fun r => r.normalized = q.normalized),
          (hm _ _).mpr ⟨hmem', rfl⟩, ?_⟩
        rw [List.filter_append]
        simp
    · simp only [hk, false_and, or_false, ne_eq, not_false_eq_true, true_and]
      rw [hm k v]
      have hq : ¬(q.normalized = k) := fun hh => hk hh.symm
      constructor
      · rintro ⟨h1, rfl⟩
        refine ⟨by simp [h1], ?_⟩
        rw [List.filter_append]
        simp [hq]
      · rintro ⟨h1, rfl⟩
        have h1' : k ∈ l.map QueryResult.normalized := by
          simpa [hk] using h1
        refine ⟨h1', ?_⟩
        rw [List.filter_append]
        simp [hq]
  · rw [upsert_not_mem m _ q hk0]
    have hl0 : q.normalized ∉ l.map QueryResult.normalized := by
      intro hc
      exact hk0 (List.mem_map.mpr
        ⟨(q.normalized, l.filter (fun r => r.normalized = q.normalized)),
          (hm _ _).mpr ⟨hc, rfl⟩, rfl⟩)
    have hfil0 : l.filter (fun r => r.normalized = q.normalized) = [] := by
      rw [List.filter_eq_nil_iff]
      intro r hr hc
      exact hl0 (List.mem_map.mpr ⟨r, hr, by simpa using hc⟩)
    constructor
    · rw [List.map_append]
      refine List.Nodup.append hn (by simp) ?_
      intro a ha hb
      simp only [List.map_cons, List.map_nil, List.mem_singleton] at hb
      subst hb
      exact hk0 ha
    · intro k v
      rw [List.mem_append]
      by_cases hk : k = q.normalized
      · subst hk
        constructor
        · rintro (h1 | h1)
          · exact absurd (List.mem_map.mpr ⟨(q.normalized, v), h1, rfl⟩) hk0
          · simp only [List.mem_singleton, Prod.mk.injEq] at h1
            refine ⟨by simp, ?_⟩
            rw [List.filter_append, hfil0]
            simp [h1.2]
        · rintro ⟨h1, rfl⟩
          right
          rw [List.filter_append, hfil0]
          simp
      · have hq : ¬(q.normalized = k) := fun hh => hk hh.symm
        constructor
        · rintro (h1 | h1)
          · rcases (hm k v).mp h1 with ⟨h2, rfl⟩
            refine ⟨by simp [h2], ?_⟩
            rw [List.filter_append]
            simp [hq]
          · simp only [List.mem_singleton, Prod.mk.injEq] at h1
            exact absurd h1.1 hk
        · rintro ⟨h1, rfl⟩
          have h1' : k ∈ l.map QueryResult.normalized := by
            simpa [hk] using h1
          left
          have hfeq : (l ++ [q]).filter (fun r => r.normalized = k) =
              l.filter (fun r => r.normalized = k) := by
            rw [List.filter_append]
            simp [hq]
          rw [hfeq]
          exact (hm k _).mpr ⟨h1', rfl⟩

theorem buildMap_inv (l : List QueryResult) : MapInv l (buildMap l) := by
  induction l using List.reverseRecOn with
  | nil => exact ⟨by simp [buildMap], by simp [buildMap]⟩
  | append_singleton l q ih =>
    have : buildMap (l ++ [q]) = upsert (buildMap l) q.normalized q := by
      simp [buildMap, List.foldl_append]
    rw [this]
    exact mapInv_step l (buildMap l) q ih

theorem buildMap_keys_nodup (qs : List QueryResult) :
    ((buildMap qs).map Prod.fst).Nodup := (buildMap_inv qs).1

theorem mem_buildMap (qs : List QueryResult) (k : Cs) (v : List QueryResult) :
    ((k, v) ∈ buildMap qs ↔ (k ∈ qs.map QueryResult.normalized ∧
      v = qs.filter (fun r => r.normalized = k))) := (buildMap_inv qs).2 k v

theorem findDuplicates_keys_nodup (qs : List QueryResult) :
    ((findDuplicates qs).map Prod.fst).Nodup := by
  rw [findDuplicates_eq]
  exact List.Nodup.sublist ((List.filter_sublist _).map Prod.fst)
    (buildMap_keys_nodup qs)

theorem mem_findDuplicates (qs : List QueryResult) (k : Cs)
    (v : List QueryResult) :
    ((k, v) ∈ findDuplicates qs ↔
      v = qs.filter (fun r => r.normalized = k) ∧
      2 ≤ (qs.filter (fun r => r.normalized = k)).length) := by
  rw [findDuplicates_eq, List.mem_filter, mem_buildMap]
  constructor
  · rintro ⟨⟨hmem, rfl⟩, hlen⟩
    have hpos : 0 < (qs.filter (fun r => r.normalized = k)).length := by
      rcases List.mem_map.mp hmem with ⟨r, hr, hnorm⟩
      have hrf : r ∈ qs.filter (fun r => r.normalized = k) :=
        List.mem_filter.mpr ⟨hr, by simpa using hnorm⟩
      exact List.length_pos.mpr (fun he => by rw [he] at hrf; simp at hrf)
    simp only [Bool.not_eq_true', decide_eq_false_iff_not] at hlen
    exact ⟨rfl, by omega⟩
  · rintro ⟨rfl, hlen⟩
    have hne : qs.filter (fun r => r.normalized = k) ≠ [] := by
      intro he
      rw [he] at hlen
      simp at hlen
    rcases List.exists_mem_of_ne_nil _ hne with ⟨r, hr⟩
    rcases List.mem_filter.mp hr with ⟨hrq, hrk⟩
    refine ⟨⟨List.mem_map.mpr ⟨r, hrq, by simpa using hrk⟩, rfl⟩, ?_⟩
    simp only [Bool.not_eq_true', decide_eq_false_iff_not]
    omega

/-! ### Presentation lemmas -/

theorem strLt_asymm : ∀ a b : Cs, strLt a b = true → strLt b a = false := by
  intro a
  induction a with
  | nil =>
    intro b h
    cases b with
    | nil => simpa [strLt] using h
    | cons d t => simp [strLt]
  | cons c s ih =>
    intro b h
    cases b with
    | nil => simpa [strLt] using h
    | cons d t =>
      simp only [strLt] at h ⊢
      rcases lt_trichotomy c d with h1 | h1 | h1
      · rw [if_neg (lt_asymm h1), if_pos h1]
      · subst h1
        rw [if_neg (lt_irrefl c), if_neg (lt_irrefl c)]
        rw [if_neg (lt_irrefl c), if_neg (lt_irrefl c)] at h
        exact ih t h
      · rw [if_neg (lt_asymm h1), if_pos h1] at h
        simp at h

theorem strLt_conn : ∀ a b : Cs, strLt a b = false → strLt b a = false → a = b := by
  intro a
  induction a with
  | nil =>
    intro b h1 h2
    cases b with
    | nil => rfl
    | cons d t => simp [strLt] at h1
  | cons c s ih =>
    intro b h1 h2
    cases b with
    | nil => simp [strLt] at h2
    | cons d t =>
      simp only [strLt] at h1 h2
      rcases lt_trichotomy c d with h3 | h3 | h3
      · rw [if_pos h3] at h1
        simp at h1
      · subst h3
        rw [if_neg (lt_irrefl c), if_neg (lt_irrefl c)] at h1 h2
        rw [ih t h1 h2]
      · rw [if_pos h3] at h2
        simp at h2

theorem strLt_trans :
    ∀ a b c : Cs, strLt a b = true → strLt b c = true → strLt a c = true := by
  intro a
  induction a with
  | nil =>
    intro b c h1 h2
    cases b with
    | nil => simpa [strLt] using h1
    | cons d t =>
      cases c with
      | nil => simpa [strLt] using h2
      | cons e u => simp [strLt]
  | cons x s ih =>
    intro b c h1 h2
    cases b with
    | nil => simpa [strLt] using h1
    | cons d t =>
      cases c with
      | nil => simpa [strLt] using h2
      | cons e u =>
        simp only [strLt] at h1 h2 ⊢
        rcases lt_trichotomy x d with hxd | hxd | hxd
        · rcases lt_trichotomy d e with hde | hde | hde
          · rw [if_pos (lt_trans hxd hde)]
          · subst hde
            rw [if_pos hxd]
          · rw [if_neg (lt_asymm hde), if_pos hde] at h2
            simp at h2
        · subst hxd
          rw [if_neg (lt_irrefl x), if_neg (lt_irrefl x)] at h1
          rcases lt_trichotomy x e with hxe | hxe | hxe
          · rw [if_pos hxe]
          · subst hxe
            rw [if_neg (lt_irrefl x), if_neg (lt_irrefl x)] at h2 ⊢
            exact ih t u h1 h2
          · rw [if_neg (lt_asymm hxe), if_pos hxe] at h2
            simp at h2
        · rw [if_neg (lt_asymm hxd), if_pos hxd] at h1
          simp at h1

/-- The display data of one group: its key and its occurrence count
(everything `printResults` shows about a group). -/
def dispPair (g : Cs × List QueryResult) : Cs × Nat := (g.1, g.2.length)

/-- The `printResults` comparator at the level of display data. -/
def pLess (a b : Cs × Nat) : Bool :=
  if a.2 = b.2 then strLt a.1 b.1 else decide (b.2 < a.2)

theorem grpLess_eq_pLess (a b : Cs × List QueryResult) :
    grpLess a b = pLess (dispPair a) (dispPair b) := rfl

/-- Insertion into a display-data list sorted by `pLess`. -/
def ins2 (a : Cs × Nat) : List (Cs × Nat) → List (Cs × Nat)
  | [] => [a]
  | b :: l => if pLess a b then a :: b :: l else b :: ins2 a l

/-- Sorting display data by `pLess`. -/
def sort2 (l : List (Cs × Nat)) : List (Cs × Nat) := l.foldr ins2 []

theorem map_insGrp (a : Cs × List QueryResult)
    (l : List (Cs × List QueryResult)) :
    (insGrp a l).map dispPair = ins2 (dispPair a) (l.map dispPair) := by
  induction l with
  | nil => rfl
  | cons b l ih =>
    simp only [insGrp, ins2, ← grpLess_eq_pLess]
    by_cases h : grpLess a b = true
    · rw [if_pos h, if_pos h]
      simp
    · rw [if_neg h, if_neg h]
      simp only [List.map_cons, ih]

theorem map_sortGroups (l : List (Cs × List QueryResult)) :
    (sortGroups l).map dispPair = sort2 (l.map dispPair) := by
  induction l with
  | nil => rfl
  | cons a l ih =>
    simp only [sortGroups, sort2, List.foldr_cons, List.map_cons] at *
    rw [map_insGrp, ih]

theorem pLess_asymm (a b : Cs × Nat) (h : pLess a b = true) :
    pLess b a = false := by
  simp only [pLess] at h ⊢
  by_cases h1 : a.2 = b.2
  · rw [if_pos h1] at h
    rw [if_pos h1.symm]
    exact strLt_asymm _ _ h
  · rw [if_neg h1] at h
    rw [if_neg (fun e => h1 e.symm)]
    simp only [decide_eq_true_eq] at h
    simp only [decide_eq_false_iff_not]
    omega

theorem pLess_antisymm_neg (a b : Cs × Nat) (h1 : pLess a b = false)
    (h2 : pLess b a = false) : a = b := by
  simp only [pLess] at h1 h2
  by_cases he : a.2 = b.2
  · rw [if_pos he] at h1
    rw [if_pos he.symm] at h2
    have := strLt_conn _ _ h1 h2
    obtain ⟨a1, a2⟩ := a
    obtain ⟨b1, b2⟩ := b
    simp only at he this
    rw [he, this]
  · rw [if_neg he] at h1
    rw [if_neg (fun e => he e.symm)] at h2
    simp only [decide_eq_false_iff_not] at h1 h2
    omega

theorem pLess_trans (a b c : Cs × Nat) (h1 : pLess a b = true)
    (h2 : pLess b c = true) : pLess a c = true := by
  simp only [pLess] at h1 h2 ⊢
  by_cases hab : a.2 = b.2 <;> by_cases hbc : b.2 = c.2
  · rw [if_pos hab] at h1
    rw [if_pos hbc] at h2
    rw [if_pos (hab.trans hbc)]
    exact strLt_trans _ _ _ h1 h2
  · rw [if_neg hbc] at h2
    simp only [decide_eq_true_eq] at h2
    rw [if_neg (by omega), decide_eq_true_eq]
    omega
  · rw [if_neg hab] at h1
    simp only [decide_eq_true_eq] at h1
    rw [if_neg (by omega), decide_eq_true_eq]
    omega
  · rw [if_neg hab] at h1
    rw [if_neg hbc] at h2
    simp only [decide_eq_true_eq] at h1 h2
    by_cases hac : a.2 = c.2
    · omega
    · rw [if_neg hac, decide_eq_true_eq]
      omega

/-- The non-strict order in which `printResults` emits groups. -/
def pOrd (a b : Cs × Nat) : Prop := pLess b a = false

theorem pOrd_total (a b : Cs × Nat) : pOrd a b ∨ pOrd b a := by
  by_cases h : pLess b a = true
  · exact Or.inr (pLess_asymm _ _ h)
  · exact Or.inl (by simpa using h)

theorem mem_ins2 (x a : Cs × Nat) (l : List (Cs × Nat)) :
    x ∈ ins2 a l ↔ x = a ∨ x ∈ l := by
  induction l with
  | nil => simp [ins2]
  | cons b l ih =>
    simp only [ins2]
    by_cases h : pLess a b = true
    · rw [if_pos h]
      simp [List.mem_cons]
    · rw [if_neg h]
      simp only [List.mem_cons, ih]
      tauto

theorem ins2_perm (a : Cs × Nat) (l : List (Cs × Nat)) :
    (ins2 a l).Perm (a :: l) := by
  induction l with
  | nil => exact List.Perm.refl _
  | cons b l ih =>
    simp only [ins2]
    by_cases h : pLess a b = true
    · rw [if_pos h]
    · rw [if_neg h]
      exact ((ih.cons b).trans (List.Perm.swap a b l)).symm.symm

theorem ins2_sorted (a : Cs × Nat) (l : List (Cs × Nat))
    (h : List.Sorted pOrd l) : List.Sorted pOrd (ins2 a l) := by
  induction l with
  | nil => simp [ins2]
  | cons b l ih =>
    rcases List.sorted_cons.mp h with ⟨hb, hl⟩
    simp only [ins2]
    by_cases hab : pLess a b = true
    · rw [if_pos hab]
      refine List.sorted_cons.mpr ⟨?_, h⟩
      intro x hx
      rcases List.mem_cons.mp hx with rfl | hx
      · exact pLess_asymm _ _ hab
      · have hbx := hb x hx
        unfold pOrd at *
        by_cases hxa : pLess x a = true
        · exact absurd (pLess_trans _ _ _ hxa hab) (by simp [hbx])
        · simpa using hxa
    · rw [if_neg hab]
      refine List.sorted_cons.mpr ⟨?_, ih hl⟩
      intro x hx
      rcases (mem_ins2 x a l).mp hx with rfl | hx
      · exact (by simpa using hab : pLess x b = false)
      · exact hb x hx

theorem sort2_perm (l : List (Cs × Nat)) : (sort2 l).Perm l := by
  induction l with
  | nil => exact List.Perm.refl _
  | cons a l ih =>
    exact (ins2_perm a (sort2 l)).trans (ih.cons a)

theorem sort2_sorted (l : List (Cs × Nat)) : List.Sorted pOrd (sort2 l) := by
  induction l with
  | nil => simp [sort2]
  | cons a l ih => exact ins2_sorted a (sort2 l) ih

theorem sort2_eq_of_perm (l l' : List (Cs × Nat)) (h : l.Perm l') :
    sort2 l = sort2 l' := by
  letI : IsAntisymm (Cs × Nat) pOrd :=
    ⟨fun a b h1 h2 => pLess_antisymm_neg a b h2 h1⟩
  exact List.eq_of_perm_of_sorted
    ((sort2_perm l).trans (h.trans (sort2_perm l').symm))
    (sort2_sorted l) (sort2_sorted l')

/-- One printed group line, as a function of the display data. -/
def lineOf (p : Cs × Nat) : Cs :=
  "Count: ".toList ++ natStr p.2 ++ " -- Normalized Query:\t ".toList ++ p.1

theorem printResults_disp (d : List (Cs × List QueryResult)) :
    printResults d =
      if d.isEmpty then ["No duplicate queries found".toList]
      else ("Found ".toList ++ natStr d.length ++ " duplicate queries".toList) ::
        (sort2 (d.map dispPair)).map lineOf := by
  unfold printResults
  by_cases h : d.isEmpty
  · rw [if_pos h, if_pos h]
  · rw [if_neg h, if_neg h]
    rw [← map_sortGroups, List.map_map]
    rfl

/-- `printResults` depends only on the multiset of (key, count) display
pairs: any two group lists with permuted display data print identically. -/
theorem printResults_ext (d d' : List (Cs × List QueryResult))
    (h : (d.map dispPair).Perm (d'.map dispPair)) :
    printResults d = printResults d' := by
  have hlen : d.length = d'.length := by
    have := h.length_eq
    simpa using this
  have hemp : d.isEmpty = d'.isEmpty := by
    cases d <;> cases d' <;> simp_all
  rw [printResults_disp, printResults_disp, sort2_eq_of_perm _ _ h, hlen, hemp]

/-! ### Claims C2, C8 -/

/-- C2: `findDuplicates` returns exactly the normalized forms occurring at
least twice among the input occurrences; each such form is mapped to its
full occurrence list in input (insertion) order, and no form occurring
exactly once is present.  Keys are pairwise distinct. -/
theorem claim_C2 (qs : List QueryResult) :
    (∀ k v, ((k, v) ∈ findDuplicates qs ↔
      v = qs.filter (fun r => r.normalized = k) ∧
      2 ≤ (qs.filter (fun r => r.normalized = k)).length)) ∧
    ((findDuplicates qs).map Prod.fst).Nodup :=
  ⟨fun k v => mem_findDuplicates qs k v, findDuplicates_keys_nodup qs⟩

/-- C8: with an empty duplicates map, the report is exactly the single line
"No duplicate queries found" — no count line and no group lines. -/
theorem claim_C8 : printResults [] = ["No duplicate queries found".toList] := rfl

/-! ### Claims C3, C7, C9 -/

theorem findDuplicates_disp_nodup (u : List QueryResult) :
    ((findDuplicates u).map dispPair).Nodup := by
  refine List.Nodup.of_map Prod.fst ?_
  rw [List.map_map]
  have he : (findDuplicates u).map (Prod.fst ∘ dispPair) =
      (findDuplicates u).map Prod.fst :=
    List.map_congr_left (fun a _ => rfl)
  rw [he]
  exact findDuplicates_keys_nodup u

theorem findDuplicates_disp_mono (u u' : List QueryResult) (hu : u.Perm u')
    (p : Cs × Nat) (hp : p ∈ (findDuplicates u).map dispPair) :
    p ∈ (findDuplicates u').map dispPair := by
  rcases List.mem_map.mp hp with ⟨⟨k, v⟩, hkv, hdisp⟩
  rcases (mem_findDuplicates u k v).mp hkv with ⟨hv, hlen⟩
  have hcnt : (u.filter (fun r => r.normalized = k)).length =
      (u'.filter (fun r => r.normalized = k)).length := by
    rw [← List.countP_eq_length_filter, ← List.countP_eq_length_filter]
    exact hu.countP_eq _
  apply List.mem_map.mpr
  refine ⟨(k, u'.filter (fun r => r.normalized = k)), ?_, ?_⟩
  · exact (mem_findDuplicates u' k _).mpr ⟨rfl, by omega⟩
  · rw [← hdisp]
    simp [dispPair, hv, hcnt]

/-- C7: the final report is independent of the order in which the
occurrences were collected — any permutation of the occurrence sequence
yields byte-identical report text. -/
theorem claim_C7 (qs qs' : List QueryResult) (h : qs.Perm qs') :
    printResults (findDuplicates qs) = printResults (findDuplicates qs') := by
  apply printResults_ext
  exact (List.perm_ext_iff_of_nodup (findDuplicates_disp_nodup qs)
      (findDuplicates_disp_nodup qs')).mpr
    (fun p => ⟨findDuplicates_disp_mono qs qs' h p,
      findDuplicates_disp_mono qs' qs h.symm p⟩)

/-- Closed instance discharging C7's permutation hypothesis. -/
theorem claim_C7_witness :
    ([⟨"a".toList, "x".toList, "n".toList⟩,
      (⟨"b".toList, "y".toList, "n".toList⟩ : QueryResult)] :
        List QueryResult).Perm
      [⟨"b".toList, "y".toList, "n".toList⟩,
       ⟨"a".toList, "x".toList, "n".toList⟩] ∧
    printResults (findDuplicates
      [⟨"a".toList, "x".toList, "n".toList⟩,
       ⟨"b".toList, "y".toList, "n".toList⟩]) =
    printResults (findDuplicates
      [⟨"b".toList, "y".toList, "n".toList⟩,
       ⟨"a".toList, "x".toList, "n".toList⟩]) := by
  constructor
  · exact List.Perm.swap _ _ _
  · exact claim_C7 _ _ (List.Perm.swap _ _ _)

theorem insGrp_perm (b : Cs × List QueryResult)
    (m : List (Cs × List QueryResult)) : (insGrp b m).Perm (b :: m) := by
  induction m with
  | nil => exact List.Perm.refl _
  | cons c m ihm =>
    simp only [insGrp]
    by_cases hc : grpLess b c = true
    · rw [if_pos hc]
    · rw [if_neg hc]
      exact (ihm.cons c).trans (List.Perm.swap b c m)

theorem sortGroups_perm (l : List (Cs × List QueryResult)) :
    (sortGroups l).Perm l := by
  induction l with
  | nil => exact List.Perm.refl _
  | cons a l ih => exact (insGrp_perm a (sortGroups l)).trans (ih.cons a)

/-- C3: for a non-empty duplicates map with pairwise-distinct keys the
report is the count header followed by one line per group, the groups
appearing in strictly descending occurrence count with ties broken by
ascending lexicographic key order; and the output is byte-identical for
any permutation of the map's entries (hence across repeated runs, whose
map iteration order may differ). -/
theorem claim_C3 (d : List (Cs × List QueryResult)) (hne : d ≠ [])
    (hkeys : (d.map Prod.fst).Nodup) :
    (printResults d =
      ("Found ".toList ++ natStr d.length ++ " duplicate queries".toList) ::
        (sortGroups d).map (fun g =>
          "Count: ".toList ++ natStr g.2.length ++
          " -- Normalized Query:\t ".toList ++ g.1)) ∧
    List.Pairwise (fun a b => b.2.length < a.2.length ∨
      (a.2.length = b.2.length ∧ strLt a.1 b.1 = true)) (sortGroups d) ∧
    (∀ d', d.Perm d' → printResults d = printResults d') := by
  refine ⟨?_, ?_, ?_⟩
  · unfold printResults
    rw [if_neg (by simpa [List.isEmpty_iff] using hne)]
  · have hsorted : List.Pairwise (fun a b => pOrd (dispPair a) (dispPair b))
        (sortGroups d) := by
      have h1 := sort2_sorted (d.map dispPair)
      rw [← map_sortGroups] at h1
      exact (List.pairwise_map).mp h1
    have hnodup : List.Pairwise (fun a b => a.1 ≠ b.1) (sortGroups d) := by
      have h2 : ((sortGroups d).map Prod.fst).Nodup :=
        (((sortGroups_perm d).map Prod.fst).nodup_iff).mpr hkeys
      exact (List.pairwise_map).mp h2
    refine (hsorted.and hnodup).imp ?_
    intro a b hab
    obtain ⟨hord, hne'⟩ := hab
    simp only [pOrd, pLess, dispPair] at hord
    by_cases hl : b.2.length = a.2.length
    · rw [if_pos hl] at hord
      right
      refine ⟨hl.symm, ?_⟩
      by_cases hab2 : strLt a.1 b.1 = true
      · exact hab2
      · exact absurd (strLt_conn _ _ (by simpa using hab2) hord) hne'
    · rw [if_neg hl] at hord
      simp only [decide_eq_false_iff_not] at hord
      left
      omega
  · intro d' hperm
    exact printResults_ext d d' (hperm.map dispPair)

/-- The number of distinct normalized forms with at least two occurrences
among `qs` (independent counting of "duplicate groups"). -/
def dupFormCount (qs : List QueryResult) : Nat :=
  ((qs.map QueryResult.normalized).dedup.filter
    (fun k => 2 ≤ (qs.filter (fun r => r.normalized = k)).length)).length

theorem findDuplicates_length (qs : List QueryResult) :
    (findDuplicates qs).length = dupFormCount qs := by
  have h1 : ((findDuplicates qs).map Prod.fst).Nodup :=
    findDuplicates_keys_nodup qs
  have h2 : ((qs.map QueryResult.normalized).dedup.filter
      (fun k => 2 ≤ (qs.filter (fun r => r.normalized = k)).length)).Nodup :=
    (List.nodup_dedup _).filter _
  have hperm : ((findDuplicates qs).map Prod.fst).Perm
      ((qs.map QueryResult.normalized).dedup.filter
        (fun k => 2 ≤ (qs.filter (fun r => r.normalized = k)).length)) := by
    refine (List.perm_ext_iff_of_nodup h1 h2).mpr (fun k => ?_)
    constructor
    · intro hk
      rcases List.mem_map.mp hk with ⟨⟨k', v⟩, hkv, he⟩
      obtain rfl : k' = k := he
      rcases (mem_findDuplicates qs k' v).mp hkv with ⟨hv, hlen⟩
      refine List.mem_filter.mpr ⟨List.mem_dedup.mpr ?_, by simpa using hlen⟩
      have hne2 : qs.filter (fun r => r.normalized = k') ≠ [] := by
        intro he2
        rw [he2] at hlen
        simp at hlen
      rcases List.exists_mem_of_ne_nil _ hne2 with ⟨r, hr⟩
      rcases List.mem_filter.mp hr with ⟨hrq, hrk⟩
      exact List.mem_map.mpr ⟨r, hrq, by simpa using hrk⟩
    · intro hk
      rcases List.mem_filter.mp hk with ⟨hdedup, hlen⟩
      simp only [decide_eq_true_eq] at hlen
      exact List.mem_map.mpr ⟨(k, qs.filter (fun r => r.normalized = k)),
        (mem_findDuplicates qs k _).mpr ⟨rfl, hlen⟩, rfl⟩
  have hlen := hperm.length_eq
  simpa [dupFormCount] using hlen

/-- C9: in a non-empty report, the K of the "Found K duplicate queries"
header is the number of distinct duplicate groups — normalized forms with
at least two occurrences — not the total number of occurrences. -/
theorem claim_C9 (qs : List QueryResult) (h : findDuplicates qs ≠ []) :
    (printResults (findDuplicates qs)).head? =
      some ("Found ".toList ++ natStr (dupFormCount qs) ++
        " duplicate queries".toList) := by
  rw [printResults_disp, if_neg (by simpa [List.isEmpty_iff] using h)]
  simp [findDuplicates_length]

/-- Closed instance of C9: two occurrences of one form; the header counts
1 group (not 2 occurrences). -/
theorem claim_C9_witness :
    (findDuplicates [(⟨"a".toList, "x".toList, "n".toList⟩ : QueryResult),
      ⟨"b".toList, "y".toList, "n".toList⟩] ≠ []) ∧
    (printResults (findDuplicates
        [(⟨"a".toList, "x".toList, "n".toList⟩ : QueryResult),
         ⟨"b".toList, "y".toList, "n".toList⟩])).head? =
      some ("Found ".toList ++
        natStr (dupFormCount
          [(⟨"a".toList, "x".toList, "n".toList⟩ : QueryResult),
           ⟨"b".toList, "y".toList, "n".toList⟩]) ++
        " duplicate queries".toList) :=
  ⟨by decide, claim_C9 _ (by decide)⟩

/-- A concrete two-group map used to instantiate the presentation claims. -/
def exampleGroups : List (Cs × List QueryResult) :=
  [("k1".toList, [⟨"f".toList, "q".toList, "k1".toList⟩,
                  ⟨"g".toList, "q".toList, "k1".toList⟩]),
   ("k2".toList, [⟨"f".toList, "r".toList, "k2".toList⟩,
                  ⟨"g".toList, "r".toList, "k2".toList⟩,
                  ⟨"h".toList, "r".toList, "k2".toList⟩])]

/-- Closed instance of C3: both hypotheses hold for `exampleGroups` and the
theorem applies there. -/
theorem claim_C3_witness :
    (exampleGroups ≠ [] ∧ ((exampleGroups.map Prod.fst).Nodup)) ∧
    (∀ d', exampleGroups.Perm d' →
      printResults exampleGroups = printResults d') :=
  ⟨⟨by decide, by decide⟩,
    (claim_C3 exampleGroups (by decide) (by decide)).2.2⟩

/-! ### Claim C6 -/

theorem findSQLQueries_filter (text : Cs) :
    findSQLQueries text =
      ((findAll sqlRE text).map trimStr).filter acceptQuery := by
  unfold findSQLQueries
  induction findAll sqlRE text with
  | nil => rfl
  | cons m ms ih => simp only [List.foldr_cons, List.map_cons, List.filter_cons, ih]

/-- C6: the extractor's output is exactly the whitespace-trimmed regex
matches that pass the acceptance filter, and hence every returned string
is non-empty and either ends with `;` or upper-cases to a string
containing SELECT, INSERT, or UPDATE. -/
theorem claim_C6 (text : Cs) :
    (findSQLQueries text =
      ((findAll sqlRE text).map trimStr).filter acceptQuery) ∧
    (∀ s ∈ findSQLQueries text, 0 < s.length ∧
      (endsSemi s = true ∨ strHas "SELECT".toList (toUpperStr s) = true ∨
       strHas "INSERT".toList (toUpperStr s) = true ∨
       strHas "UPDATE".toList (toUpperStr s) = true)) := by
  refine ⟨findSQLQueries_filter text, fun s hs => ?_⟩
  rw [findSQLQueries_filter] at hs
  have hacc := (List.mem_filter.mp hs).2
  unfold acceptQuery at hacc
  simp only [Bool.and_eq_true, Bool.or_eq_true, decide_eq_true_eq] at hacc
  tauto

/-- Closed instance of C6 at a concrete text and extracted statement. -/
theorem claim_C6_witness :
    ("SELECT 1;".toList ∈ findSQLQueries "SELECT 1;".toList) ∧
    (0 < "SELECT 1;".toList.length ∧
      (endsSemi "SELECT 1;".toList = true ∨
       strHas "SELECT".toList (toUpperStr "SELECT 1;".toList) = true ∨
       strHas "INSERT".toList (toUpperStr "SELECT 1;".toList) = true ∨
       strHas "UPDATE".toList (toUpperStr "SELECT 1;".toList) = true)) :=
  ⟨by decide, (claim_C6 "SELECT 1;".toList).2 _ (by decide)⟩

/-! ### Claim C10 -/

/-- ASCII uppercase letter. -/
def isUpperA (c : Char) : Bool := decide ('A' ≤ c) && decide (c ≤ 'Z')

theorem charLe_toNat {a b : Char} : a ≤ b ↔ a.toNat ≤ b.toNat := Iff.rfl

theorem toNat_ofNat_of_lt {n : Nat} (h : n < 0xd800) :
    (Char.ofNat n).toNat = n := by
  rw [Char.ofNat, dif_pos (Or.inl h)]
  rfl

theorem goLower_not_upper (c : Char) : isUpperA (goLower c) = false := by
  unfold goLower isUpperA
  by_cases h : 'A' ≤ c ∧ c ≤ 'Z'
  · rw [if_pos h]
    have h1 : c.toNat ≤ 90 := charLe_toNat.mp h.2
    have h2 : 65 ≤ c.toNat := charLe_toNat.mp h.1
    have h3 : (Char.ofNat (c.toNat + 32)).toNat = c.toNat + 32 :=
      toNat_ofNat_of_lt (by omega)
    have h4 : ¬(Char.ofNat (c.toNat + 32) ≤ 'Z') := by
      rw [charLe_toNat, h3]
      have hz : ('Z').toNat = 90 := rfl
      rw [hz]
      omega
    simp [h4]
  · rw [if_neg h]
    rcases not_and_or.mp h with h1 | h1 <;> simp [h1]

theorem mem_collapseWS (s : Cs) : ∀ c ∈ collapseWS s, c ∈ s ∨ c = ' ' := by
  generalize hn : s.length = n
  induction n using Nat.strong_induction_on generalizing s with
  | _ n ih =>
    cases s with
    | nil =>
      intro c hc
      exact absurd hc (by simp [collapseWS, collapseF])
    | cons d t =>
      intro c hc
      rw [collapseWS_cons] at hc
      subst hn
      by_cases hw : ws5 d = true
      · rw [if_pos hw] at hc
        rcases List.mem_cons.mp hc with rfl | hc
        · exact Or.inr rfl
        · rcases ih (t.dropWhile ws5).length
            (by have := length_dropWhile_le' ws5 t; simp; omega)
            (t.dropWhile ws5) rfl c hc with h | h
          · exact Or.inl (List.mem_cons_of_mem _
              ((List.dropWhile_sublist ws5).subset h))
          · exact Or.inr h
      · rw [if_neg hw] at hc
        rcases List.mem_cons.mp hc with rfl | hc
        · exact Or.inl (List.mem_cons_self _ _)
        · rcases ih t.length (by simp) t rfl c hc with h | h
          · exact Or.inl (List.mem_cons_of_mem _ h)
          · exact Or.inr h

theorem mem_replAround (x : Char) (r : Cs) (s : Cs) :
    ∀ c ∈ replAround x r s, c ∈ s ∨ c ∈ r := by
  generalize hn : s.length = n
  induction n using Nat.strong_induction_on generalizing s with
  | _ n ih =>
    cases s with
    | nil =>
      intro c hc
      exact absurd hc (by simp [replAround, replAroundF])
    | cons d t =>
      intro c hc
      rw [replAround_cons] at hc
      subst hn
      have hdle : (t.dropWhile ws5).length ≤ t.length :=
        length_dropWhile_le' ws5 t
      by_cases hx : d = x
      · rw [if_pos hx] at hc
        rcases List.mem_append.mp hc with hc | hc
        · exact Or.inr hc
        · rcases ih (t.dropWhile ws5).length (by simp; omega)
            (t.dropWhile ws5) rfl c hc with h | h
          · exact Or.inl (List.mem_cons_of_mem _
              ((List.dropWhile_sublist ws5).subset h))
          · exact Or.inr h
      · rw [if_neg hx] at hc
        by_cases hw : ws5 d = true
        · rw [if_pos hw] at hc
          rcases hdw : t.dropWhile ws5 with _ | ⟨y, t'⟩
          · rw [hdw] at hc
            simp only [] at hc
            rcases List.mem_cons.mp hc with rfl | hc
            · exact Or.inl (List.mem_cons_self _ _)
            · exact Or.inl (List.mem_cons_of_mem _
                ((List.takeWhile_sublist ws5).subset hc))
          · rw [hdw] at hc
            simp only [] at hc
            have hlen' : t'.length + 1 ≤ t.length := by
              rw [hdw] at hdle
              simpa using hdle
            by_cases hy : y = x
            · rw [if_pos hy] at hc
              rcases List.mem_append.mp hc with hc | hc
              · exact Or.inr hc
              · have hd' : (t'.dropWhile ws5).length ≤ t'.length :=
                  length_dropWhile_le' ws5 t'
                rcases ih (t'.dropWhile ws5).length (by simp; omega)
                  (t'.dropWhile ws5) rfl c hc with h | h
                · refine Or.inl (List.mem_cons_of_mem _ ?_)
                  have hsub : List.Sublist (t'.dropWhile ws5) t := by
                    refine List.Sublist.trans (List.dropWhile_sublist ws5) ?_
                    have hyt : List.Sublist (y :: t') t :=
                      hdw ▸ List.dropWhile_sublist ws5
                    exact (List.sublist_cons_self y t').trans hyt
                  exact hsub.subset h
                · exact Or.inr h
            · rw [if_neg hy] at hc
              rcases List.mem_append.mp hc with hc | hc
              · rcases List.mem_cons.mp hc with rfl | hc
                · exact Or.inl (List.mem_cons_self _ _)
                · exact Or.inl (List.mem_cons_of_mem _
                    ((List.takeWhile_sublist ws5).subset hc))
              · rcases ih (y :: t').length (by simp; omega)
                  (y :: t') rfl c hc with h | h
                · refine Or.inl (List.mem_cons_of_mem _ ?_)
                  have hsub : List.Sublist (y :: t') t :=
                    hdw ▸ List.dropWhile_sublist ws5
                  exact hsub.subset h
                · exact Or.inr h
        · rw [if_neg hw] at hc
          rcases List.mem_cons.mp hc with rfl | hc
          · exact Or.inl (List.mem_cons_self _ _)
          · rcases ih t.length (by simp) t rfl c hc with h | h
            · exact Or.inl (List.mem_cons_of_mem _ h)
            · exact Or.inr h

theorem mem_replDigits (s : Cs) :
    ∀ c ∈ replDigits s, c ∈ s ∨ c = 'N' := by
  generalize hn : s.length = n
  induction n using Nat.strong_induction_on generalizing s with
  | _ n ih =>
    cases s with
    | nil =>
      intro c hc
      exact absurd hc (by simp [replDigits, replDigitsF])
    | cons d t =>
      intro c hc
      rw [replDigits_cons] at hc
      subst hn
      by_cases hw : isDigitA d = true
      · rw [if_pos hw] at hc
        rcases List.mem_cons.mp hc with rfl | hc
        · exact Or.inr rfl
        · rcases ih (t.dropWhile isDigitA).length
            (by have := length_dropWhile_le' isDigitA t; simp; omega)
            (t.dropWhile isDigitA) rfl c hc with h | h
          · exact Or.inl (List.mem_cons_of_mem _
              ((List.dropWhile_sublist isDigitA).subset h))
          · exact Or.inr h
      · rw [if_neg hw] at hc
        rcases List.mem_cons.mp hc with rfl | hc
        · exact Or.inl (List.mem_cons_self _ _)
        · rcases ih t.length (by simp) t rfl c hc with h | h
          · exact Or.inl (List.mem_cons_of_mem _ h)
          · exact Or.inr h

theorem mem_replQuote (q : Char) (s : Cs) :
    ∀ c ∈ replQuote q s, c ∈ s ∨ c = 'S' := by
  generalize hn : s.length = n
  induction n using Nat.strong_induction_on generalizing s with
  | _ n ih =>
    cases s with
    | nil =>
      intro c hc
      exact absurd hc (by simp [replQuote, replQuoteF])
    | cons d t =>
      intro c hc
      rw [replQuote_cons] at hc
      subst hn
      by_cases hq : d = q
      · rw [if_pos hq] at hc
        rcases hdw : t.dropWhile (fun d => !(d = q)) with _ | ⟨y, rest⟩
        · rw [hdw] at hc
          simp only [] at hc
          exact Or.inl hc
        · rw [hdw] at hc
          simp only [] at hc
          rcases List.mem_cons.mp hc with rfl | hc
          · exact Or.inr rfl
          · have hlen' : rest.length + 1 ≤ t.length := by
              have h0 := length_dropWhile_le' (fun d => !(d = q)) t
              rw [hdw] at h0
              simpa using h0
            rcases ih rest.length (by simp; omega) rest rfl c hc with h | h
            · refine Or.inl (List.mem_cons_of_mem _ ?_)
              have hsub : List.Sublist (y :: rest) t :=
                hdw ▸ List.dropWhile_sublist (fun d => !(d = q))
              exact hsub.subset (List.mem_cons_of_mem y h)
            · exact Or.inr h
      · rw [if_neg hq] at hc
        rcases List.mem_cons.mp hc with rfl | hc
        · exact Or.inl (List.mem_cons_self _ _)
        · rcases ih t.length (by simp) t rfl c hc with h | h
          · exact Or.inl (List.mem_cons_of_mem _ h)
          · exact Or.inr h

theorem mem_trimStr (s : Cs) : ∀ c ∈ trimStr s, c ∈ s := by
  intro c hc
  unfold trimStr trimL at hc
  rw [List.mem_reverse] at hc
  have h1 := (List.dropWhile_sublist goIsSpace).subset hc
  rw [List.mem_reverse] at h1
  exact (List.dropWhile_sublist goIsSpace).subset h1

theorem no_upper_insert {c : Char} {l : Cs} (h : c ∈ l)
    (hl : ∀ d ∈ l, isUpperA d = false) (hup : isUpperA c = true) : False := by
  rw [hl c h] at hup
  exact Bool.false_ne_true hup

/-- C10: every character of a `normalizeQuery` output that is an ASCII
uppercase letter is one of the substitution tokens `N` (digit runs) or
`S` (quoted literals); all characters carried over from the input have
been lower-cased. -/
theorem claim_C10 (x : Cs) :
    ∀ c ∈ normalizeQuery x, isUpperA c = true → c = 'N' ∨ c = 'S' := by
  intro c hc hup
  unfold normalizeQuery replRpar replLpar replComma replEq at hc
  rcases mem_replAround _ _ _ c hc with hc | hcr
  swap
  · exact (no_upper_insert hcr (by decide) hup).elim
  rcases mem_replAround _ _ _ c hc with hc | hcr
  swap
  · exact (no_upper_insert hcr (by decide) hup).elim
  rcases mem_replQuote _ _ c hc with hc | rfl
  swap
  · exact Or.inr rfl
  rcases mem_replQuote _ _ c hc with hc | rfl
  swap
  · exact Or.inr rfl
  rcases mem_replDigits _ c hc with hc | rfl
  swap
  · exact Or.inl rfl
  rcases mem_collapseWS _ c hc with hc | rfl
  swap
  · exact absurd hup (by decide)
  rcases mem_replAround _ _ _ c hc with hc | hcr
  swap
  · exact (no_upper_insert hcr (by decide) hup).elim
  rcases mem_replAround _ _ _ c hc with hc | hcr
  swap
  · exact (no_upper_insert hcr (by decide) hup).elim
  rcases List.mem_map.mp hc with ⟨d, _, rfl⟩
  rw [goLower_not_upper d] at hup
  exact absurd hup (by simp)

/-- Closed instance of C10: the normalization of `"A5"` is `"aN"`, whose
only uppercase character is the digit token `N`. -/
theorem claim_C10_witness :
    ('N' ∈ normalizeQuery "A5".toList) ∧ (isUpperA 'N' = true) ∧
      ('N' = 'N' ∨ 'N' = 'S') :=
  ⟨by decide, by decide, claim_C10 "A5".toList 'N' (by decide) (by decide)⟩

/-! ### Claim C5 -/

theorem mem_ends_cat {a b : RE} {s : Cs} {k : Nat} :
    k ∈ ends (.cat a b) s ↔
      ∃ n1 n2, n1 ∈ ends a s ∧ n2 ∈ ends b (s.drop n1) ∧ k = n1 + n2 := by
  simp only [ends, List.mem_flatMap, List.mem_map]
  constructor
  · rintro ⟨n1, h1, n2, h2, rfl⟩
    exact ⟨n1, n2, h1, h2, rfl⟩
  · rintro ⟨n1, n2, h1, h2, rfl⟩
    exact ⟨n1, h1, n2, h2, rfl⟩

/-- Kernel fact about the SQL pattern: every candidate match either ends at
a semicolon or runs to the end of the searched suffix (the `(?:;|$)` tail
applies to all eight branches alike). -/
theorem sqlRE_match_shape (s' : Cs) (k : Nat) (hk : k ∈ ends sqlRE s') :
    endsSemi (s'.take k) = true ∨ s'.take k = s' := by
  rcases mem_ends_cat.mp hk with ⟨n1, n2, h1, h2, rfl⟩
  have h2' : n2 ∈ ends (.cls (fun c => c = ';')) (s'.drop n1) ∨
      n2 ∈ ends .eos (s'.drop n1) := by
    have h3 : ends (RE.alt (.cls (fun c => c = ';')) .eos) (s'.drop n1) =
        ends (.cls (fun c => c = ';')) (s'.drop n1) ++
        ends .eos (s'.drop n1) := rfl
    rw [h3] at h2
    exact List.mem_append.mp h2
  rcases h2' with hcl | heos
  · left
    rcases hd : s'.drop n1 with _ | ⟨c, rest⟩
    · rw [hd] at hcl
      simp [ends] at hcl
    · rw [hd] at hcl
      simp only [ends] at hcl
      by_cases hc : (c = ';' : Bool) = true
      · rw [if_pos hc] at hcl
        simp only [List.mem_singleton] at hcl
        subst hcl
        have hc' : s'[n1]? = some ';' := by
          rw [← List.head?_drop, hd]
          simpa using hc
        rw [List.take_succ, hc']
        unfold endsSemi
        simp [Option.toList, List.getLast?_concat]
      · rw [if_neg hc] at hcl
        simp at hcl
  · right
    have hn : s'.drop n1 = [] ∧ n2 = 0 := by
      rcases hd : s'.drop n1 with _ | ⟨c, rest⟩ <;> rw [hd] at heos
      · simp [ends] at heos
        exact ⟨rfl, heos⟩
      · simp [ends] at heos
    obtain ⟨hnil, rfl⟩ := hn
    rw [List.drop_eq_nil_iff] at hnil
    exact List.take_of_length_le (by omega)

theorem findAll_matches_shape (text : Cs) : ∀ (n : Nat) (s' : Cs),
    List.IsSuffix s' text → ∀ m ∈ findAllF sqlRE n s',
      endsSemi m = true ∨ List.IsSuffix m text := by
  have hnilcase : ∀ (n : Nat) (m : Cs), m ∈ findAllF sqlRE n [] →
      endsSemi m = true ∨ List.IsSuffix m text := by
    intro n m hm
    have he : findAllF sqlRE n [] =
        match (ends sqlRE []).head? with
        | some _ => [[]]
        | none => [] := by
      cases n <;> rfl
    rw [he] at hm
    rcases hE : (ends sqlRE []).head? with _ | k <;> rw [hE] at hm
    · simp at hm
    · simp only [List.mem_singleton] at hm
      subst hm
      exact Or.inr List.nil_suffix
  intro n
  induction n with
  | zero =>
    intro s' hsuf m hm
    cases s' with
    | nil => exact hnilcase 0 m hm
    | cons c t => simp [findAllF] at hm
  | succ n ih =>
    intro s' hsuf m hm
    cases s' with
    | nil => exact hnilcase (n + 1) m hm
    | cons c t =>
      have htsuf : List.IsSuffix t text :=
        (List.suffix_cons c t).trans hsuf
      simp only [findAllF] at hm
      rcases hE : (ends sqlRE (c :: t)).head? with _ | k <;> rw [hE] at hm
      · exact ih t htsuf m hm
      · dsimp only at hm
        have hkmem : k ∈ ends sqlRE (c :: t) := by
          rcases hEl : ends sqlRE (c :: t) with _ | ⟨a, l⟩ <;> rw [hEl] at hE
          · simp at hE
          · simp only [List.head?_cons, Option.some.injEq] at hE
            subst hE
            exact List.mem_cons_self _ _
        by_cases hk : k = 0
        · rw [if_pos hk] at hm
          rcases List.mem_cons.mp hm with rfl | hm
          · exact Or.inr List.nil_suffix
          · exact ih t htsuf m hm
        · rw [if_neg hk] at hm
          rcases List.mem_cons.mp hm with rfl | hm
          · rcases sqlRE_match_shape (c :: t) k hkmem with h | h
            · exact Or.inl h
            · refine Or.inr ?_
              rw [h]
              exact hsuf
          · exact ih ((c :: t).drop k)
              ((List.drop_suffix k (c :: t)).trans hsuf) m hm

theorem getLast?_dropWhile_keep {p : Char → Bool} {l : Cs} {c : Char}
    (hl : l.getLast? = some c) (hc : p c = false) :
    (l.dropWhile p).getLast? = some c := by
  have hmem : c ∈ l := List.mem_of_getLast?_eq_some hl
  have hnil : l.dropWhile p ≠ [] := by
    intro he
    rw [List.dropWhile_eq_nil_iff] at he
    rw [he c hmem] at hc
    simp at hc
  conv_lhs =>
    rw [show l.dropWhile p = l.dropWhile p from rfl]
  have hsplit : l = l.takeWhile p ++ l.dropWhile p :=
    (List.takeWhile_append_dropWhile p l).symm
  rw [hsplit, List.getLast?_append_of_ne_nil _ hnil] at hl
  exact hl

theorem endsSemi_trimStr {m : Cs} (h : endsSemi m = true) :
    endsSemi (trimStr m) = true := by
  unfold endsSemi at h ⊢
  simp only [decide_eq_true_eq] at h ⊢
  have h1 : (trimL m).getLast? = some ';' :=
    getLast?_dropWhile_keep h (by decide)
  have h2 : (trimL m).reverse.head? = some ';' := by
    rw [List.head?_reverse]
    exact h1
  unfold trimStr
  rcases hu : (trimL m).reverse with _ | ⟨c, u'⟩
  · rw [hu] at h2
    simp at h2
  · rw [hu] at h2
    simp only [List.head?_cons, Option.some.injEq] at h2
    subst h2
    rw [List.dropWhile_cons_of_neg (by decide), List.getLast?_reverse]
    rfl

theorem trimStr_decomp (m : Cs) :
    ∃ lead tail, m = lead ++ (trimStr m ++ tail) ∧
      (∀ c ∈ lead, goIsSpace c = true) ∧ (∀ c ∈ tail, goIsSpace c = true) := by
  refine ⟨m.takeWhile goIsSpace, ((trimL m).reverse.takeWhile goIsSpace).reverse,
    ?_, fun c hc => List.mem_takeWhile_imp hc, fun c hc => ?_⟩
  · have h1 : trimL m =
        trimStr m ++ ((trimL m).reverse.takeWhile goIsSpace).reverse := by
      unfold trimStr
      rw [← List.reverse_append, ← List.reverse_reverse (trimL m)]
      rw [List.reverse_reverse ((trimL m).reverse)]
      congr 1
      exact (List.takeWhile_append_dropWhile goIsSpace _).symm
    conv_lhs => rw [← List.takeWhile_append_dropWhile goIsSpace m]
    rw [← h1]
    rfl
  · rw [List.mem_reverse] at hc
    exact List.mem_takeWhile_imp hc

/-- C5 amended: not only `SELECT` — a statement produced by `findSQLQueries`
that does not end with a semicolon can come from any anchor branch; what
holds is that such a statement (followed only by trimmed whitespace)
extends to the very end of the searched text, because the pattern's
`(?:;|$)` tail is shared by all branches. -/
theorem claim_C5 (text s : Cs) (hs : s ∈ findSQLQueries text) :
    endsSemi s = true ∨
      ∃ w, (∀ c ∈ w, goIsSpace c = true) ∧ List.IsSuffix (s ++ w) text := by
  rw [findSQLQueries_filter] at hs
  have hs' := (List.mem_filter.mp hs).1
  rcases List.mem_map.mp hs' with ⟨m, hm, rfl⟩
  rcases findAll_matches_shape text text.length text (List.suffix_refl _) m
    (by exact hm) with h | h
  · exact Or.inl (endsSemi_trimStr h)
  · right
    rcases trimStr_decomp m with ⟨lead, tail, hdec, _, htail⟩
    refine ⟨tail, htail, ?_⟩
    have h2 : List.IsSuffix (trimStr m ++ tail) m := ⟨lead, hdec.symm⟩
    exact h2.trans h

/-- C5 counterexample: an `INSERT` statement at end of text is extracted
without a terminating semicolon, so `SELECT` is not the only anchor that
permits a missing `;`. -/
theorem claim_C5_counterexample :
    ("INSERT INTO t VALUES (2)".toList ∈
      findSQLQueries "INSERT INTO t VALUES (2)".toList) ∧
    endsSemi "INSERT INTO t VALUES (2)".toList = false ∧
    ¬("SELECT".toList.isPrefixOf
        (toUpperStr "INSERT INTO t VALUES (2)".toList) = true) := by
  refine ⟨by decide, by decide, by decide⟩

/-- Closed instance of C5 (amended) at the counterexample input. -/
theorem claim_C5_witness :
    ("INSERT INTO t VALUES (2)".toList ∈
      findSQLQueries "INSERT INTO t VALUES (2)".toList) ∧
    (endsSemi "INSERT INTO t VALUES (2)".toList = true ∨
      ∃ w, (∀ c ∈ w, goIsSpace c = true) ∧
        List.IsSuffix ("INSERT INTO t VALUES (2)".toList ++ w)
          "INSERT INTO t VALUES (2)".toList) :=
  ⟨by decide, claim_C5 _ _ (by decide)⟩

/-! ### Character-class arithmetic -/

theorem charEq_toNat {a b : Char} : a = b ↔ a.toNat = b.toNat :=
  ⟨fun h => congrArg Char.toNat h,
   fun h => Char.eq_of_val_eq (UInt32.ext h)⟩

theorem goLower_toNat_of_upper {c : Char} (h : 'A' ≤ c ∧ c ≤ 'Z') :
    (goLower c).toNat = c.toNat + 32 := by
  unfold goLower
  rw [if_pos h]
  refine toNat_ofNat_of_lt ?_
  have h2 := charLe_toNat.mp h.2
  have hz : ('Z' : Char).toNat = 90 := rfl
  omega

theorem goLower_eq_self {c : Char} (h : ¬('A' ≤ c ∧ c ≤ 'Z')) :
    goLower c = c := by
  unfold goLower
  rw [if_neg h]

theorem upper_toNat {c : Char} : ('A' ≤ c ∧ c ≤ 'Z') ↔
    (65 ≤ c.toNat ∧ c.toNat ≤ 90) :=
  ⟨fun h => ⟨charLe_toNat.mp h.1, charLe_toNat.mp h.2⟩,
   fun h => ⟨charLe_toNat.mpr h.1, charLe_toNat.mpr h.2⟩⟩

theorem valEq_toNat {d : Char} {n : UInt32} : d.val = n ↔ d.toNat = n.toNat :=
  ⟨fun h => congrArg UInt32.toNat h, fun h => UInt32.ext h⟩

theorem valLe_toNat {n : UInt32} {d : Char} : n ≤ d.val ↔ n.toNat ≤ d.toNat :=
  Iff.rfl

theorem valLe_toNat2 {n : UInt32} {d : Char} : d.val ≤ n ↔ d.toNat ≤ n.toNat :=
  Iff.rfl

theorem ws5_toNat (d : Char) : ws5 d = true ↔
    (d.toNat = 32 ∨ d.toNat = 9 ∨ d.toNat = 10 ∨ d.toNat = 12 ∨
      d.toNat = 13) := by
  unfold ws5
  simp only [Bool.or_eq_true, decide_eq_true_eq]
  rw [@charEq_toNat d ' ', @charEq_toNat d '\t', @charEq_toNat d '\n',
    @charEq_toNat d '\x0c', @charEq_toNat d '\r']
  have e1 : (' ' : Char).toNat = 32 := rfl
  have e2 : ('\t' : Char).toNat = 9 := rfl
  have e3 : ('\n' : Char).toNat = 10 := rfl
  have e4 : ('\x0c' : Char).toNat = 12 := rfl
  have e5 : ('\r' : Char).toNat = 13 := rfl
  rw [e1, e2, e3, e4, e5]
  tauto

theorem goLower_toNat_cases (c : Char) :
    (goLower c).toNat = c.toNat + 32 ∧ 65 ≤ c.toNat ∧ c.toNat ≤ 90 ∨
    (goLower c = c ∧ ¬(65 ≤ c.toNat ∧ c.toNat ≤ 90)) := by
  by_cases h : 'A' ≤ c ∧ c ≤ 'Z'
  · exact Or.inl ⟨goLower_toNat_of_upper h, upper_toNat.mp h⟩
  · exact Or.inr ⟨goLower_eq_self h, fun hc => h (upper_toNat.mpr hc)⟩

theorem ws5_goLower (c : Char) : ws5 (goLower c) = ws5 c := by
  rcases goLower_toNat_cases c with ⟨h1, h2, h3⟩ | ⟨h1, h2⟩
  · have hl : ws5 (goLower c) = false := by
      rw [← Bool.not_eq_true, ws5_toNat]
      omega
    have hr : ws5 c = false := by
      rw [← Bool.not_eq_true, ws5_toNat]
      omega
    rw [hl, hr]
  · rw [h1]

theorem goIsSpace_toNat (d : Char) : goIsSpace d = true ↔
    (d.toNat = 32 ∨ d.toNat = 9 ∨ d.toNat = 10 ∨ d.toNat = 12 ∨
     d.toNat = 13 ∨ d.toNat = 11 ∨ d.toNat = 0x85 ∨ d.toNat = 0xa0 ∨
     d.toNat = 0x1680 ∨ (0x2000 ≤ d.toNat ∧ d.toNat ≤ 0x200a) ∨
     d.toNat = 0x2028 ∨ d.toNat = 0x2029 ∨ d.toNat = 0x202f ∨
     d.toNat = 0x205f ∨ d.toNat = 0x3000) := by
  unfold goIsSpace
  simp only [Bool.or_eq_true, Bool.and_eq_true, decide_eq_true_eq, ws5_toNat]
  rw [@charEq_toNat d '\x0b', @charEq_toNat d '\x85', @charEq_toNat d '\xa0',
    @valEq_toNat d 0x1680, @valLe_toNat 0x2000 d, @valLe_toNat2 0x200a d,
    @valEq_toNat d 0x2028, @valEq_toNat d 0x2029, @valEq_toNat d 0x202f,
    @valEq_toNat d 0x205f, @valEq_toNat d 0x3000]
  have e1 : ('\x0b' : Char).toNat = 11 := rfl
  have e2 : ('\x85' : Char).toNat = 0x85 := rfl
  have e3 : ('\xa0' : Char).toNat = 0xa0 := rfl
  have f1 : (0x1680 : UInt32).toNat = 0x1680 := rfl
  have f2 : (0x2000 : UInt32).toNat = 0x2000 := rfl
  have f3 : (0x200a : UInt32).toNat = 0x200a := rfl
  have f4 : (0x2028 : UInt32).toNat = 0x2028 := rfl
  have f5 : (0x2029 : UInt32).toNat = 0x2029 := rfl
  have f6 : (0x202f : UInt32).toNat = 0x202f := rfl
  have f7 : (0x205f : UInt32).toNat = 0x205f := rfl
  have f8 : (0x3000 : UInt32).toNat = 0x3000 := rfl
  rw [e1, e2, e3, f1, f2, f3, f4, f5, f6, f7, f8]
  omega

theorem goIsSpace_goLower (c : Char) : goIsSpace (goLower c) = goIsSpace c := by
  rcases goLower_toNat_cases c with ⟨h1, h2, h3⟩ | ⟨h1, h2⟩
  · have hl : goIsSpace (goLower c) = false := by
      rw [← Bool.not_eq_true, goIsSpace_toNat]
      omega
    have hr : goIsSpace c = false := by
      rw [← Bool.not_eq_true, goIsSpace_toNat]
      omega
    rw [hl, hr]
  · rw [h1]

theorem goLower_goLower (c : Char) : goLower (goLower c) = goLower c := by
  rcases goLower_toNat_cases c with ⟨h1, h2, h3⟩ | ⟨h1, h2⟩
  · apply goLower_eq_self
    rw [upper_toNat, h1]
    omega
  · rw [h1, h1]

/-! ### Scanner locality toolkit -/

/-- The head of `v`, if any, fails `p` (vacuously true for `[]`). -/
def hdNot (p : Char → Bool) (v : Cs) : Prop :=
  ∀ h, v.head? = some h → p h = false

theorem hdNot_nil (p : Char → Bool) : hdNot p [] := by
  intro h hh
  simp at hh

theorem hdNot_cons {p : Char → Bool} {c : Char} {t : Cs} (hc : p c = false) :
    hdNot p (c :: t) := by
  intro h hh
  simp only [List.head?_cons, Option.some.injEq] at hh
  rw [← hh]
  exact hc

theorem hdNot_of_cons {p : Char → Bool} {c : Char} {t : Cs}
    (h : hdNot p (c :: t)) : p c = false := h c rfl

theorem dropWhile_eq_self_of_hdNot {p : Char → Bool} {v : Cs}
    (hv : hdNot p v) : v.dropWhile p = v := by
  cases v with
  | nil => rfl
  | cons c t => simp [List.dropWhile_cons, hv c rfl]

theorem takeWhile_eq_nil_of_hdNot {p : Char → Bool} {v : Cs}
    (hv : hdNot p v) : v.takeWhile p = [] := by
  cases v with
  | nil => rfl
  | cons c t => simp [List.takeWhile_cons, hv c rfl]

theorem dropWhile_append_of_all {p : Char → Bool} {u v : Cs}
    (hu : ∀ c ∈ u, p c = true) : (u ++ v).dropWhile p = v.dropWhile p := by
  induction u with
  | nil => rfl
  | cons c t ih =>
    rw [List.cons_append, List.dropWhile_cons,
      if_pos (hu c (List.mem_cons_self _ _)),
      ih (fun c hc => hu c (List.mem_cons_of_mem _ hc))]

theorem takeWhile_append_of_all {p : Char → Bool} {u v : Cs}
    (hu : ∀ c ∈ u, p c = true) : (u ++ v).takeWhile p = u ++ v.takeWhile p := by
  induction u with
  | nil => rfl
  | cons c t ih =>
    rw [List.cons_append, List.takeWhile_cons,
      if_pos (hu c (List.mem_cons_self _ _)),
      ih (fun c hc => hu c (List.mem_cons_of_mem _ hc)), List.cons_append]

theorem dropWhile_append_of_ne_nil {p : Char → Bool} {u v : Cs}
    (h : u.dropWhile p ≠ []) : (u ++ v).dropWhile p = u.dropWhile p ++ v := by
  rw [List.dropWhile_append]
  simp [List.isEmpty_iff, h]

theorem takeWhile_append_of_ne_nil {p : Char → Bool} {u v : Cs}
    (h : u.dropWhile p ≠ []) : (u ++ v).takeWhile p = u.takeWhile p := by
  rw [List.takeWhile_append]
  have hlen := congrArg List.length (List.takeWhile_append_dropWhile p u)
  simp only [List.length_append] at hlen
  have hpos : 0 < (u.dropWhile p).length := List.length_pos.mpr h
  rw [if_neg (by omega)]

theorem all_of_dropWhile_eq_nil {p : Char → Bool} {u : Cs}
    (h : u.dropWhile p = []) : ∀ c ∈ u, p c = true := by
  intro c hc
  exact List.dropWhile_eq_nil_iff.mp h c hc

theorem dropWhile_congr2 {p q : Char → Bool} (h : ∀ c, p c = q c) :
    ∀ l : Cs, l.dropWhile p = l.dropWhile q := by
  intro l
  induction l with
  | nil => rfl
  | cons c t ih =>
    rw [List.dropWhile_cons, List.dropWhile_cons, h c, ih]

theorem takeWhile_congr2 {p q : Char → Bool} (h : ∀ c, p c = q c) :
    ∀ l : Cs, l.takeWhile p = l.takeWhile q := by
  intro l
  induction l with
  | nil => rfl
  | cons c t ih =>
    rw [List.takeWhile_cons, List.takeWhile_cons, h c, ih]

/-! #### Locality of the whitespace-collapsing scanner -/

theorem collapseWS_nil : collapseWS [] = [] := rfl

theorem collapseWS_append_hd {v : Cs} (hv : hdNot ws5 v) (u : Cs) :
    collapseWS (u ++ v) = collapseWS u ++ collapseWS v := by
  generalize hn : u.length = n
  induction n using Nat.strong_induction_on generalizing u with
  | _ n ih =>
    cases u with
    | nil => rw [List.nil_append, collapseWS_nil, List.nil_append]
    | cons c t =>
      subst hn
      rw [List.cons_append, collapseWS_cons, collapseWS_cons]
      by_cases hw : ws5 c = true
      · rw [if_pos hw, if_pos hw]
        by_cases hdt : t.dropWhile ws5 = []
        · rw [dropWhile_append_of_all (all_of_dropWhile_eq_nil hdt),
            dropWhile_eq_self_of_hdNot hv, hdt, collapseWS_nil,
            List.cons_append, List.nil_append]
        · rw [dropWhile_append_of_ne_nil hdt,
            ih (t.dropWhile ws5).length
              (by have := length_dropWhile_le' ws5 t; simp; omega)
              (t.dropWhile ws5) rfl, List.cons_append]
      · rw [if_neg hw, if_neg hw, ih t.length (by simp) t rfl,
          List.cons_append]

theorem collapseWS_id_of_no_ws {s : Cs} (hs : ∀ c ∈ s, ws5 c = false) :
    collapseWS s = s := by
  induction s with
  | nil => rfl
  | cons c t ih =>
    rw [collapseWS_cons, if_neg (by simp [hs c (List.mem_cons_self _ _)]),
      ih (fun c hc => hs c (List.mem_cons_of_mem _ hc))]

theorem collapseWS_head (s : Cs) :
    (collapseWS s).head? = s.head?.map (fun c => if ws5 c then ' ' else c) := by
  cases s with
  | nil => rfl
  | cons c t =>
    rw [collapseWS_cons]
    by_cases hw : ws5 c = true
    · rw [if_pos hw]
      simp [hw]
    · rw [if_neg hw]
      simp [hw]

/-! ### The case-equivalence direction of C1 -/

theorem toLowerStr_toLowerStr (s : Cs) :
    toLowerStr (toLowerStr s) = toLowerStr s := by
  unfold toLowerStr
  rw [List.map_map]
  exact List.map_congr_left (fun c _ => goLower_goLower c)

theorem collapseWS_toLowerStr (s : Cs) :
    collapseWS (toLowerStr s) = toLowerStr (collapseWS s) := by
  generalize hn : s.length = n
  induction n using Nat.strong_induction_on generalizing s with
  | _ n ih =>
    cases s with
    | nil => rfl
    | cons c t =>
      subst hn
      have hm : toLowerStr (c :: t) = goLower c :: toLowerStr t := rfl
      rw [hm, collapseWS_cons, collapseWS_cons, ws5_goLower]
      by_cases hw : ws5 c = true
      · rw [if_pos hw, if_pos hw]
        have hdw : (toLowerStr t).dropWhile ws5 =
            toLowerStr (t.dropWhile ws5) := by
          unfold toLowerStr
          rw [List.dropWhile_map]
          congr 1
          exact dropWhile_congr2 (fun c => by
            simp only [Function.comp_apply, ws5_goLower]) t
        rw [hdw, ih (t.dropWhile ws5).length
          (by have := length_dropWhile_le' ws5 t; simp; omega)
          (t.dropWhile ws5) rfl]
        rfl
      · rw [if_neg hw, if_neg hw, ih t.length (by simp) t rfl]
        rfl

theorem trimL_toLowerStr (s : Cs) :
    trimL (toLowerStr s) = toLowerStr (trimL s) := by
  unfold trimL toLowerStr
  rw [List.dropWhile_map]
  congr 1
  exact dropWhile_congr2 (fun c => by
    simp only [Function.comp_apply, goIsSpace_goLower]) s

theorem trimStr_toLowerStr (s : Cs) :
    trimStr (toLowerStr s) = toLowerStr (trimStr s) := by
  unfold trimStr
  rw [trimL_toLowerStr]
  unfold toLowerStr
  rw [← List.map_reverse, List.dropWhile_map, ← List.map_reverse]
  congr 2
  exact dropWhile_congr2 (fun c => by
    simp only [Function.comp_apply, goIsSpace_goLower]) _

/-- Lower-casing first does not change the normalized form: the pipeline's
own lower-casing step absorbs it. -/
theorem normalizeQuery_toLowerStr (s : Cs) :
    normalizeQuery (toLowerStr s) = normalizeQuery s := by
  unfold normalizeQuery
  rw [collapseWS_toLowerStr, trimStr_toLowerStr, toLowerStr_toLowerStr]

/-! ### Splitting into whitespace-separated words (C1, whitespace clause) -/

/-- Fuelled splitter: the maximal separator-free words of a string, in
order (`p` is the separator class). -/
def wordsByF (p : Char → Bool) : Nat → Cs → List Cs
  | _, [] => []
  | 0, _ :: _ => []
  | n + 1, c :: t =>
    if p c then wordsByF p n t
    else (c :: t.takeWhile (fun d => !p d)) ::
      wordsByF p n (t.dropWhile (fun d => !p d))

theorem wordsByF_congr (p : Char → Bool) : ∀ n m s, s.length ≤ n →
    s.length ≤ m → wordsByF p n s = wordsByF p m s := by
  intro n
  induction n with
  | zero =>
    intro m s h1 h2
    cases s with
    | nil => cases m <;> rfl
    | cons c t => simp at h1
  | succ n ih =>
    intro m s h1 h2
    cases s with
    | nil => cases m <;> rfl
    | cons c t =>
      cases m with
      | zero => simp at h2
      | succ m =>
        simp only [List.length_cons] at h1 h2
        have hd : (t.dropWhile (fun d => !p d)).length ≤ t.length :=
          length_dropWhile_le' _ t
        simp only [wordsByF]
        by_cases hc : p c = true
        · rw [if_pos hc, if_pos hc, ih m t (by omega) (by omega)]
        · rw [if_neg hc, if_neg hc, ih m _ (by omega) (by omega)]

/-- The maximal `p`-free words of a string, in order. -/
def wordsBy (p : Char → Bool) (s : Cs) : List Cs := wordsByF p s.length s

theorem wordsBy_cons (p : Char → Bool) (c : Char) (t : Cs) :
    wordsBy p (c :: t) =
      if p c then wordsBy p t
      else (c :: t.takeWhile (fun d => !p d)) ::
        wordsBy p (t.dropWhile (fun d => !p d)) := by
  have e0 : wordsBy p (c :: t) = wordsByF p (t.length + 1) (c :: t) := rfl
  rw [e0]
  simp only [wordsByF]
  by_cases hc : p c = true
  · rw [if_pos hc, if_pos hc]
    rfl
  · rw [if_neg hc, if_neg hc,
      wordsByF_congr p t.length _ _ (length_dropWhile_le' _ t) (le_refl _)]
    rfl

/-- Words joined by single spaces. -/
def joinW : List Cs → Cs
  | [] => []
  | [w] => w
  | w :: u :: ws => w ++ ' ' :: joinW (u :: ws)

theorem joinW_cons2 (w u : Cs) (ws : List Cs) :
    joinW (w :: u :: ws) = w ++ ' ' :: joinW (u :: ws) := rfl

/-- Does the string start with a `ws5` character? -/
def headWS : Cs → Bool
  | [] => false
  | c :: _ => ws5 c

theorem headWS_dropWhile (t : Cs) : headWS (t.dropWhile ws5) = false := by
  induction t with
  | nil => rfl
  | cons c t ih =>
    rw [List.dropWhile_cons]
    by_cases hc : ws5 c = true
    · rw [if_pos hc]
      exact ih
    · rw [if_neg hc]
      exact Bool.eq_false_iff.mpr hc

theorem takeWhile_eq_self_of_all {p : Char → Bool} {t : Cs}
    (h : ∀ c ∈ t, p c = true) : t.takeWhile p = t := by
  induction t with
  | nil => rfl
  | cons c t ih =>
    rw [List.takeWhile_cons, if_pos (h c (List.mem_cons_self _ _)),
      ih (fun c hc => h c (List.mem_cons_of_mem _ hc))]

theorem wordsBy_dropWhile (p : Char → Bool) (t : Cs) :
    wordsBy p (t.dropWhile p) = wordsBy p t := by
  induction t with
  | nil => rfl
  | cons c t ih =>
    rw [List.dropWhile_cons, wordsBy_cons]
    by_cases hc : p c = true
    · rw [if_pos hc, if_pos hc]
      exact ih
    · rw [if_neg hc, if_neg hc, wordsBy_cons, if_neg hc]

/-- Words of a concatenation split at a separator-headed right part. -/
theorem wordsBy_append_brk {v : Cs}
    (hv : ∀ h, v.head? = some h → ws5 h = true) (u : Cs) :
    wordsBy ws5 (u ++ v) = wordsBy ws5 u ++ wordsBy ws5 v := by
  generalize hn : u.length = n
  induction n using Nat.strong_induction_on generalizing u with
  | _ n ih =>
    cases u with
    | nil => simp [wordsBy, wordsByF]
    | cons c t =>
      subst hn
      rw [List.cons_append, wordsBy_cons, wordsBy_cons]
      by_cases hc : ws5 c = true
      · rw [if_pos hc, if_pos hc]
        exact ih t.length (by simp) t rfl
      · rw [if_neg hc, if_neg hc]
        by_cases hdt : t.dropWhile (fun d => !ws5 d) = []
        · have hall := all_of_dropWhile_eq_nil hdt
          have htk : (t ++ v).takeWhile (fun d => !ws5 d) = t := by
            rw [takeWhile_append_of_all hall,
              takeWhile_eq_nil_of_hdNot (fun h hh => by
                simp only [hv h hh, Bool.not_true]), List.append_nil]
          have hdr : (t ++ v).dropWhile (fun d => !ws5 d) = v := by
            rw [dropWhile_append_of_all hall,
              dropWhile_eq_self_of_hdNot (fun h hh => by
                simp only [hv h hh, Bool.not_true])]
          rw [htk, hdr, hdt, takeWhile_eq_self_of_all hall]
          rfl
        · rw [takeWhile_append_of_ne_nil hdt, dropWhile_append_of_ne_nil hdt,
            ih (t.dropWhile (fun d => !ws5 d)).length
              (by have := length_dropWhile_le' (fun d => !ws5 d) t
                  simp
                  omega)
              _ rfl, List.cons_append]

/-- Extending a word on the left commutes with joining. -/
theorem joinW_cons_word {c : Char} {t : Cs} (hc : ws5 c = false)
    (ht : headWS t = false) :
    joinW (wordsBy ws5 (c :: t)) = c :: joinW (wordsBy ws5 t) := by
  rw [wordsBy_cons, if_neg (by simp [hc])]
  cases t with
  | nil =>
    rfl
  | cons d t2 =>
    have hd : ws5 d = false := ht
    rw [List.takeWhile_cons, if_pos (by simp [hd]), List.dropWhile_cons,
      if_pos (by simp [hd]), wordsBy_cons, if_neg (by simp [hd])]
    cases hw : wordsBy ws5 (t2.dropWhile (fun d => !ws5 d)) with
    | nil => rfl
    | cons u ws => rfl

/-- The whitespace-collapsing pass produces the single-space joining of
the words, with at most one space at either end. -/
theorem collapseWS_form (x : Cs) : ∃ b : Bool,
    collapseWS x = (cond (headWS x) [' '] []) ++ joinW (wordsBy ws5 x) ++
      (cond b [' '] []) ∧ (wordsBy ws5 x = [] → b = false) := by
  generalize hn : x.length = n
  induction n using Nat.strong_induction_on generalizing x with
  | _ n ih =>
    cases x with
    | nil => exact ⟨false, rfl, fun _ => rfl⟩
    | cons c t =>
      subst hn
      have e1 : headWS (c :: t) = ws5 c := rfl
      by_cases hc : ws5 c = true
      · obtain ⟨b, hb1, hb2⟩ := ih (t.dropWhile ws5).length
          (by have := length_dropWhile_le' ws5 t; simp; omega)
          (t.dropWhile ws5) rfl
        refine ⟨b, ?_, ?_⟩
        · rw [collapseWS_cons, if_pos hc, hb1, headWS_dropWhile,
            wordsBy_dropWhile, wordsBy_cons, if_pos hc, e1, hc]
          rfl
        · intro hw
          rw [wordsBy_cons, if_pos hc, ← wordsBy_dropWhile ws5 t] at hw
          exact hb2 hw
      · obtain ⟨b, hb1, hb2⟩ := ih t.length (by simp) t rfl
        have hcf : ws5 c = false := Bool.eq_false_iff.mpr hc
        by_cases hht : headWS t = true
        · have htne : t ≠ [] := by
            intro he
            rw [he] at hht
            exact absurd hht (by simp [headWS])
          obtain ⟨d, t2, rfl⟩ := List.exists_cons_of_ne_nil htne
          have hd : ws5 d = true := hht
          have hwx : wordsBy ws5 (c :: d :: t2) =
              [c] :: wordsBy ws5 (d :: t2) := by
            rw [wordsBy_cons, if_neg hc, List.takeWhile_cons,
              if_neg (by simp [hd]), List.dropWhile_cons, if_neg (by simp [hd])]
          cases hw : wordsBy ws5 (d :: t2) with
          | nil =>
            refine ⟨true, ?_, ?_⟩
            · rw [collapseWS_cons, if_neg hc, hb1, hht, hwx, hw, hb2 hw, e1,
                hcf]
              rfl
            · intro he
              rw [hwx, hw] at he
              exact absurd he (by simp)
          | cons u ws =>
            refine ⟨b, ?_, ?_⟩
            · rw [collapseWS_cons, if_neg hc, hb1, hht, hwx, hw, e1, hcf,
                joinW_cons2]
              rfl
            · intro he
              rw [hwx] at he
              exact absurd he (by simp)
        · have hhtf : headWS t = false := Bool.eq_false_iff.mpr hht
          refine ⟨b, ?_, ?_⟩
          · rw [collapseWS_cons, if_neg hc, hb1, hhtf, e1, hcf,
              joinW_cons_word hcf hhtf]
            rfl
          · intro hw
            rw [wordsBy_cons, if_neg hc] at hw
            exact absurd hw (by simp)

theorem trimStr_append_left {a : Cs} (ha : ∀ c ∈ a, goIsSpace c = true)
    (u : Cs) : trimStr (a ++ u) = trimStr u := by
  unfold trimStr trimL
  rw [dropWhile_append_of_all ha]

theorem trimStr_append_right {b : Cs} (hb : ∀ c ∈ b, goIsSpace c = true)
    (u : Cs) : trimStr (u ++ b) = trimStr u := by
  unfold trimStr trimL
  by_cases h : u.dropWhile goIsSpace = []
  · rw [dropWhile_append_of_all (all_of_dropWhile_eq_nil h), h,
      List.dropWhile_eq_nil_iff.mpr (fun c hc => hb c hc)]
  · rw [dropWhile_append_of_ne_nil h, List.reverse_append,
      dropWhile_append_of_all (fun c hc => hb c (List.mem_reverse.mp hc))]

theorem cond_space (f : Bool) : ∀ c ∈ (cond f [' '] ([] : Cs)),
    goIsSpace c = true := by
  cases f with
  | false => intro c hc; exact absurd hc (by simp)
  | true =>
    intro c hc
    rw [List.mem_singleton.mp hc]
    rfl

theorem ws4_ws5 {c : Char} (h : ws4 c = true) : ws5 c = true := by
  simp only [ws4, Bool.or_eq_true] at h
  simp only [ws5, Bool.or_eq_true]
  tauto

/-- The `ws5` words refine the `ws4` words: each `ws4` word splits further
at its form-feed characters. -/
theorem wordsBy5_eq_flatMap (x : Cs) :
    wordsBy ws5 x = (wordsBy ws4 x).flatMap (wordsBy ws5) := by
  generalize hn : x.length = n
  induction n using Nat.strong_induction_on generalizing x with
  | _ n ih =>
    cases x with
    | nil => rfl
    | cons c t =>
      subst hn
      by_cases h4 : ws4 c = true
      · rw [wordsBy_cons ws5, if_pos (ws4_ws5 h4), wordsBy_cons ws4,
          if_pos h4]
        exact ih t.length (by simp) t rfl
      · set tk4 := t.takeWhile (fun d => !ws4 d) with htk4
        set dr4 := t.dropWhile (fun d => !ws4 d) with hdr4
        have hsplit : t = tk4 ++ dr4 := (List.takeWhile_append_dropWhile _ _).symm
        have hdr4hd : ∀ h, dr4.head? = some h → ws5 h = true := by
          intro h hh
          cases hd : dr4 with
          | nil => rw [hd] at hh; exact absurd hh (by simp)
          | cons e r =>
            rw [hd] at hh
            simp only [List.head?_cons, Option.some.injEq] at hh
            have he : (fun d => !ws4 d) e = false := by
              have := List.head?_dropWhile_not (fun d => !ws4 d) t
              rw [← hdr4, hd] at this
              simpa using this
            rw [← hh]
            simp only [Bool.not_eq_false'] at he
            exact ws4_ws5 he
        have hdr4len : dr4.length ≤ t.length := by
          rw [hdr4]
          exact length_dropWhile_le' _ t
        have htk4all : ∀ d ∈ tk4, (!ws4 d) = true := by
          intro d hd
          rw [htk4] at hd
          have h2 := List.mem_takeWhile_imp hd
          exact h2
        by_cases h5 : ws5 c = true
        · -- c is a form feed: a ws5 separator but not a ws4 one
          rw [wordsBy_cons ws5, if_pos h5, wordsBy_cons ws4, if_neg h4]
          have e0 : ((c :: tk4) :: wordsBy ws4 dr4).flatMap (wordsBy ws5) =
              wordsBy ws5 (c :: tk4) ++
                (wordsBy ws4 dr4).flatMap (wordsBy ws5) := by
            simp [List.flatMap_cons]
          rw [e0, wordsBy_cons ws5, if_pos h5]
          conv_lhs => rw [hsplit]
          rw [wordsBy_append_brk hdr4hd tk4,
            ← ih dr4.length (by simp only [List.length_cons]; omega) dr4 rfl]
        · rw [wordsBy_cons ws5, if_neg h5, wordsBy_cons ws4, if_neg h4]
          have e0 : ((c :: tk4) :: wordsBy ws4 dr4).flatMap (wordsBy ws5) =
              wordsBy ws5 (c :: tk4) ++
                (wordsBy ws4 dr4).flatMap (wordsBy ws5) := by
            simp [List.flatMap_cons]
          rw [e0, wordsBy_cons ws5, if_neg h5,
            ← ih dr4.length (by simp only [List.length_cons]; omega) dr4 rfl]
          have hdr4hd5 : hdNot (fun d => !ws5 d) dr4 := by
            intro h hh
            simp only [Bool.not_eq_false']
            exact hdr4hd h hh
          by_cases hqk : tk4.dropWhile (fun d => !ws5 d) = []
          · have hallnw5 := all_of_dropWhile_eq_nil hqk
            have htkeq : t.takeWhile (fun d => !ws5 d) = tk4 := by
              conv_lhs => rw [hsplit]
              rw [takeWhile_append_of_all hallnw5,
                takeWhile_eq_nil_of_hdNot hdr4hd5, List.append_nil]
            have hdreq : t.dropWhile (fun d => !ws5 d) = dr4 := by
              conv_lhs => rw [hsplit]
              rw [dropWhile_append_of_all hallnw5,
                dropWhile_eq_self_of_hdNot hdr4hd5]
            rw [htkeq, hdreq, takeWhile_eq_self_of_all hallnw5, hqk]
            rfl
          · have htkeq : t.takeWhile (fun d => !ws5 d) =
                tk4.takeWhile (fun d => !ws5 d) := by
              conv_lhs => rw [hsplit]
              exact takeWhile_append_of_ne_nil hqk
            have hdreq : t.dropWhile (fun d => !ws5 d) =
                tk4.dropWhile (fun d => !ws5 d) ++ dr4 := by
              conv_lhs => rw [hsplit]
              exact dropWhile_append_of_ne_nil hqk
            rw [htkeq, hdreq, wordsBy_append_brk hdr4hd _]
            rfl

/-- Two strings with the same spec-level words (split at spaces, tabs,
newlines, carriage returns) collapse and trim identically. -/
theorem trimCollapse_of_words4 {x y : Cs}
    (h : wordsBy ws4 x = wordsBy ws4 y) :
    trimStr (collapseWS x) = trimStr (collapseWS y) := by
  obtain ⟨b1, hb1, _⟩ := collapseWS_form x
  obtain ⟨b2, hb2, _⟩ := collapseWS_form y
  rw [hb1, hb2, trimStr_append_right (cond_space _) _,
    trimStr_append_right (cond_space _) _,
    trimStr_append_left (cond_space _) _, trimStr_append_left (cond_space _) _,
    wordsBy5_eq_flatMap x, wordsBy5_eq_flatMap y, h]

/-- Two strings with the same whitespace-separated words normalize
identically: incidental whitespace differences do not matter. -/
theorem normalizeQuery_of_words4 {x y : Cs}
    (h : wordsBy ws4 x = wordsBy ws4 y) :
    normalizeQuery x = normalizeQuery y := by
  unfold normalizeQuery
  rw [trimCollapse_of_words4 h]

/-! ### Digit-run canonicalization (C1, numeric-literal clause) -/

theorem isDigitA_toNat (c : Char) : isDigitA c = true ↔
    48 ≤ c.toNat ∧ c.toNat ≤ 57 := by
  unfold isDigitA
  simp only [Bool.and_eq_true, decide_eq_true_eq]
  constructor
  · intro ⟨h1, h2⟩
    exact ⟨charLe_toNat.mp h1, charLe_toNat.mp h2⟩
  · intro ⟨h1, h2⟩
    exact ⟨charLe_toNat.mpr h1, charLe_toNat.mpr h2⟩

theorem ws5_of_digit {c : Char} (h : isDigitA c = true) : ws5 c = false := by
  have h1 := (isDigitA_toNat c).mp h
  rw [← Bool.not_eq_true, ws5_toNat]
  omega

theorem goIsSpace_of_digit {c : Char} (h : isDigitA c = true) :
    goIsSpace c = false := by
  have h1 := (isDigitA_toNat c).mp h
  rw [← Bool.not_eq_true, goIsSpace_toNat]
  omega

theorem goLower_digit {c : Char} (h : isDigitA c = true) : goLower c = c := by
  have h1 := (isDigitA_toNat c).mp h
  apply goLower_eq_self
  rw [upper_toNat]
  omega

theorem isDigitA_goLower (c : Char) : isDigitA (goLower c) = isDigitA c := by
  rcases goLower_toNat_cases c with ⟨h1, h2, h3⟩ | ⟨h1, h2⟩
  · have hl : isDigitA (goLower c) = false := by
      rw [← Bool.not_eq_true, isDigitA_toNat]
      omega
    have hr : isDigitA c = false := by
      rw [← Bool.not_eq_true, isDigitA_toNat]
      omega
    rw [hl, hr]
  · rw [h1]

/-- Fuelled form of the digit-value canonicalizer: every maximal run of
decimal digits becomes the single digit `0`. -/
def dzF : Nat → Cs → Cs
  | _, [] => []
  | 0, s => s
  | n + 1, c :: t =>
    if isDigitA c then '0' :: dzF n (t.dropWhile isDigitA)
    else c :: dzF n t

theorem dzF_congr : ∀ n m s, s.length ≤ n → s.length ≤ m →
    dzF n s = dzF m s := by
  intro n
  induction n with
  | zero =>
    intro m s h1 h2
    cases s with
    | nil => cases m <;> rfl
    | cons c t => simp at h1
  | succ n ih =>
    intro m s h1 h2
    cases s with
    | nil => cases m <;> rfl
    | cons c t =>
      cases m with
      | zero => simp at h2
      | succ m =>
        simp only [List.length_cons] at h1 h2
        have hd : (t.dropWhile isDigitA).length ≤ t.length :=
          length_dropWhile_le' isDigitA t
        simp only [dzF]
        by_cases hw : isDigitA c = true
        · rw [if_pos hw, if_pos hw, ih m _ (by omega) (by omega)]
        · rw [if_neg hw, if_neg hw, ih m t (by omega) (by omega)]

/-- Digit-value canonical representative: every maximal digit run is
replaced by `0`.  Two strings differ only in the values of their numeric
literals exactly when they have the same `dz` image. -/
def dz (s : Cs) : Cs := dzF s.length s

theorem dz_cons (c : Char) (t : Cs) :
    dz (c :: t) =
      if isDigitA c then '0' :: dz (t.dropWhile isDigitA)
      else c :: dz t := by
  have hd : (t.dropWhile isDigitA).length ≤ t.length :=
    length_dropWhile_le' isDigitA t
  have e0 : dz (c :: t) = dzF (t.length + 1) (c :: t) := rfl
  rw [e0]
  simp only [dzF]
  by_cases hw : isDigitA c = true
  · rw [if_pos hw, if_pos hw,
      dzF_congr t.length (t.dropWhile isDigitA).length _ hd (le_refl _)]
    rfl
  · rw [if_neg hw, if_neg hw,
      dzF_congr t.length t.length t (le_refl _) (le_refl _)]
    rfl

theorem dz_append_nd {u : Cs} (hu : ∀ c ∈ u, isDigitA c = false) (v : Cs) :
    dz (u ++ v) = u ++ dz v := by
  induction u with
  | nil => rfl
  | cons c t ih =>
    rw [List.cons_append, dz_cons,
      if_neg (by simp [hu c (List.mem_cons_self _ _)]),
      ih (fun c hc => hu c (List.mem_cons_of_mem _ hc)), List.cons_append]

theorem dz_id_of_nd {u : Cs} (hu : ∀ c ∈ u, isDigitA c = false) : dz u = u := by
  have h := dz_append_nd hu []
  have e : dz ([] : Cs) = [] := rfl
  rw [List.append_nil, e, List.append_nil] at h
  exact h

theorem dz_append_brk {v : Cs} (hv : hdNot isDigitA v) (u : Cs) :
    dz (u ++ v) = dz u ++ dz v := by
  generalize hn : u.length = n
  induction n using Nat.strong_induction_on generalizing u with
  | _ n ih =>
    cases u with
    | nil => simp [dz, dzF]
    | cons c t =>
      subst hn
      rw [List.cons_append, dz_cons, dz_cons]
      by_cases hc : isDigitA c = true
      · rw [if_pos hc, if_pos hc]
        by_cases hdt : t.dropWhile isDigitA = []
        · rw [dropWhile_append_of_all (all_of_dropWhile_eq_nil hdt),
            dropWhile_eq_self_of_hdNot hv, hdt]
          rfl
        · rw [dropWhile_append_of_ne_nil hdt,
            ih (t.dropWhile isDigitA).length
              (by have := length_dropWhile_le' isDigitA t; simp; omega)
              _ rfl, List.cons_append]
      · rw [if_neg hc, if_neg hc, ih t.length (by simp) t rfl,
          List.cons_append]

theorem dz_head (v : Cs) : (dz v).head? =
    v.head?.map (fun c => if isDigitA c then '0' else c) := by
  cases v with
  | nil => rfl
  | cons c t =>
    rw [dz_cons]
    by_cases hc : isDigitA c = true
    · rw [if_pos hc]
      simp [hc]
    · rw [if_neg hc]
      simp [hc]

theorem dz_ne_nil {v : Cs} (hv : v ≠ []) : dz v ≠ [] := by
  cases v with
  | nil => exact absurd rfl hv
  | cons c t =>
    rw [dz_cons]
    by_cases hc : isDigitA c = true
    · rw [if_pos hc]
      simp
    · rw [if_neg hc]
      simp

theorem getLast?_cons_of_ne_nil {c : Char} {t : Cs} (h : t ≠ []) :
    (c :: t).getLast? = t.getLast? := by
  have e0 : c :: t = [c] ++ t := rfl
  rw [e0, List.getLast?_append_of_ne_nil _ h]

theorem dz_getLast (v : Cs) : (dz v).getLast? =
    v.getLast?.map (fun c => if isDigitA c then '0' else c) := by
  generalize hn : v.length = n
  induction n using Nat.strong_induction_on generalizing v with
  | _ n ih =>
    cases v with
    | nil => rfl
    | cons c t =>
      subst hn
      rw [dz_cons]
      by_cases hc : isDigitA c = true
      · rw [if_pos hc]
        cases h3 : t.dropWhile isDigitA with
        | nil =>
          have hall : ∀ d ∈ c :: t, isDigitA d = true := by
            intro d hd
            rcases List.mem_cons.mp hd with rfl | hd
            · exact hc
            · exact all_of_dropWhile_eq_nil h3 d hd
          obtain ⟨l, hl⟩ : ∃ l, (c :: t).getLast? = some l := by
            cases e : (c :: t).getLast? with
            | none =>
              rw [List.getLast?_eq_none_iff] at e
              exact absurd e (by simp)
            | some l => exact ⟨l, rfl⟩
          rw [hl]
          have hld : isDigitA l = true :=
            hall l (List.mem_of_getLast?_eq_some hl)
          have e : dz ([] : Cs) = [] := rfl
          rw [e]
          simp [hld]
        | cons y t4 =>
          have hne : dz (y :: t4) ≠ [] := dz_ne_nil (by simp)
          rw [getLast?_cons_of_ne_nil hne,
            ih (y :: t4).length
              (by have := length_dropWhile_le' isDigitA t
                  rw [h3] at this
                  simp at this ⊢
                  omega)
              (y :: t4) rfl]

          have hsp : t = t.takeWhile isDigitA ++ (y :: t4) := by
            rw [← h3]
            exact (List.takeWhile_append_dropWhile _ _).symm
          have e1 : (c :: t).getLast? = (y :: t4).getLast? := by
            rw [getLast?_cons_of_ne_nil (by
              intro he
              rw [he] at hsp
              exact absurd hsp.symm (by simp)), ]
            conv_lhs => rw [hsp]
            exact List.getLast?_append_of_ne_nil _ (by simp)
          rw [e1]
      · rw [if_neg hc]
        cases ht : t with
        | nil =>
          have e : dz ([] : Cs) = [] := rfl
          rw [e]
          simp [hc]
        | cons y t2 =>
          have hne : dz (y :: t2) ≠ [] := dz_ne_nil (by simp)
          rw [getLast?_cons_of_ne_nil hne, getLast?_cons_of_ne_nil (by simp),
            ih (y :: t2).length
              (by rw [ht]; simp only [List.length_cons]; omega) (y :: t2) rfl]

/-! #### Branch equations for the anchor-spacing scanner -/

theorem replAround_anchor (x : Char) (r : Cs) (t : Cs) :
    replAround x r (x :: t) = r ++ replAround x r (t.dropWhile ws5) := by
  rw [replAround_cons, if_pos rfl]

theorem replAround_pass {x c : Char} (r : Cs) {t : Cs} (hw : ws5 c = false)
    (hx : c ≠ x) : replAround x r (c :: t) = c :: replAround x r t := by
  rw [replAround_cons, if_neg hx, if_neg (by simp [hw])]

theorem replAround_ws_nil {x c : Char} (r : Cs) {t : Cs} (hw : ws5 c = true)
    (hx : c ≠ x) (h : t.dropWhile ws5 = []) :
    replAround x r (c :: t) = c :: t.takeWhile ws5 := by
  rw [replAround_cons, if_neg hx, if_pos hw, h]

theorem replAround_ws_anchor {x c : Char} (r : Cs) {t t' : Cs}
    (hw : ws5 c = true) (hx : c ≠ x) (h : t.dropWhile ws5 = x :: t') :
    replAround x r (c :: t) = r ++ replAround x r (t'.dropWhile ws5) := by
  rw [replAround_cons, if_neg hx, if_pos hw, h]
  dsimp only
  rw [if_pos rfl]

theorem replAround_ws_other {x c y : Char} (r : Cs) {t t' : Cs}
    (hw : ws5 c = true) (hx : c ≠ x) (h : t.dropWhile ws5 = y :: t')
    (hy : y ≠ x) : replAround x r (c :: t) =
      (c :: t.takeWhile ws5) ++ replAround x r (y :: t') := by
  rw [replAround_cons, if_neg hx, if_pos hw, h]
  dsimp only
  rw [if_neg hy]

theorem mem_dz (v : Cs) : ∀ c ∈ dz v, c ∈ v ∨ c = '0' := by
  generalize hn : v.length = n
  induction n using Nat.strong_induction_on generalizing v with
  | _ n ih =>
    cases v with
    | nil =>
      intro c hc
      exact absurd hc (by simp [dz, dzF])
    | cons d t =>
      subst hn
      intro c hc
      rw [dz_cons] at hc
      by_cases hd : isDigitA d = true
      · rw [if_pos hd] at hc
        rcases List.mem_cons.mp hc with rfl | hc
        · exact Or.inr rfl
        · rcases ih (t.dropWhile isDigitA).length
            (by have := length_dropWhile_le' isDigitA t; simp; omega)
            _ rfl c hc with h | h
          · exact Or.inl (List.mem_cons_of_mem _
              ((List.dropWhile_sublist isDigitA).subset h))
          · exact Or.inr h
      · rw [if_neg hd] at hc
        rcases List.mem_cons.mp hc with rfl | hc
        · exact Or.inl (List.mem_cons_self _ _)
        · rcases ih t.length (by simp) t rfl c hc with h | h
          · exact Or.inl (List.mem_cons_of_mem _ h)
          · exact Or.inr h

/-! #### Digit canonicalization commutes with the earlier pipeline steps -/

theorem ws5_not_digit {c : Char} (h : ws5 c = true) : isDigitA c = false := by
  have h1 := (ws5_toNat c).mp h
  rw [← Bool.not_eq_true, isDigitA_toNat]
  omega

theorem goIsSpace_not_digit {c : Char} (h : goIsSpace c = true) :
    isDigitA c = false := by
  have h1 := (goIsSpace_toNat c).mp h
  rw [← Bool.not_eq_true, isDigitA_toNat]
  omega

theorem mem_of_head2 {v : Cs} {g : Char} (h : v.head? = some g) : g ∈ v := by
  cases v with
  | nil => simp at h
  | cons c t =>
    simp only [List.head?_cons, Option.some.injEq] at h
    rw [← h]
    exact List.mem_cons_self _ _

theorem hdNot_dropWhile (p : Char → Bool) (t : Cs) : hdNot p (t.dropWhile p) := by
  intro g hg
  have h2 := List.head?_dropWhile_not p t
  rw [hg] at h2
  simp at h2
  simpa using h2

theorem hdNot_dz_of {p : Char → Bool} (hp0 : p '0' = false) {v : Cs}
    (hv : hdNot p v) : hdNot p (dz v) := by
  intro g hg
  rw [dz_head] at hg
  cases e : v.head? with
  | none =>
    rw [e] at hg
    simp at hg
  | some h =>
    rw [e] at hg
    have hg2 : (if isDigitA h = true then '0' else h) = g := by
      simpa using hg
    by_cases hd : isDigitA h = true
    · rw [if_pos hd] at hg2
      rw [← hg2]
      exact hp0
    · rw [if_neg hd] at hg2
      rw [← hg2]
      exact hv h e

theorem hdNot_dz_digit {v : Cs} (hv : hdNot isDigitA v) :
    hdNot isDigitA (dz v) := by
  intro g hg
  rw [dz_head] at hg
  cases e : v.head? with
  | none =>
    rw [e] at hg
    simp at hg
  | some h =>
    rw [e] at hg
    have hg2 : (if isDigitA h = true then '0' else h) = g := by
      simpa using hg
    have hh : isDigitA h = false := hv h e
    rw [if_neg (by simp [hh])] at hg2
    rw [← hg2]
    exact hh

theorem dropWhile_ws_dz (t : Cs) :
    (dz t).dropWhile ws5 = dz (t.dropWhile ws5) := by
  induction t with
  | nil => rfl
  | cons c t ih =>
    rw [dz_cons]
    by_cases hd : isDigitA c = true
    · rw [if_pos hd, List.dropWhile_cons, List.dropWhile_cons,
        if_neg (by decide), if_neg (by simp [ws5_of_digit hd]), dz_cons,
        if_pos hd]
    · rw [if_neg hd, List.dropWhile_cons, List.dropWhile_cons]
      by_cases hw : ws5 c = true
      · rw [if_pos hw, if_pos hw]
        exact ih
      · rw [if_neg hw, if_neg hw, dz_cons, if_neg hd]

theorem takeWhile_ws_dz (t : Cs) :
    (dz t).takeWhile ws5 = t.takeWhile ws5 := by
  induction t with
  | nil => rfl
  | cons c t ih =>
    rw [dz_cons]
    by_cases hd : isDigitA c = true
    · rw [if_pos hd, List.takeWhile_cons, List.takeWhile_cons,
        if_neg (by decide), if_neg (by simp [ws5_of_digit hd])]
    · rw [if_neg hd, List.takeWhile_cons, List.takeWhile_cons]
      by_cases hw : ws5 c = true
      · rw [if_pos hw, if_pos hw, ih]
      · rw [if_neg hw, if_neg hw]

theorem dropWhile_digit_collapseWS (t : Cs) :
    (collapseWS t).dropWhile isDigitA = collapseWS (t.dropWhile isDigitA) := by
  induction t with
  | nil => rfl
  | cons c t ih =>
    rw [collapseWS_cons]
    by_cases hw : ws5 c = true
    · rw [if_pos hw, List.dropWhile_cons, List.dropWhile_cons,
        if_neg (by decide), if_neg (by simp [ws5_not_digit hw]),
        collapseWS_cons, if_pos hw]
    · rw [if_neg hw, List.dropWhile_cons, List.dropWhile_cons]
      by_cases hd : isDigitA c = true
      · rw [if_pos hd, if_pos hd]
        exact ih
      · rw [if_neg hd, if_neg hd, collapseWS_cons, if_neg hw]

theorem collapseWS_dz (x : Cs) : collapseWS (dz x) = dz (collapseWS x) := by
  generalize hn : x.length = n
  induction n using Nat.strong_induction_on generalizing x with
  | _ n ih =>
    cases x with
    | nil => rfl
    | cons c t =>
      subst hn
      rw [dz_cons]
      by_cases hd : isDigitA c = true
      · rw [if_pos hd, collapseWS_cons, if_neg (by decide), collapseWS_cons,
          if_neg (by simp [ws5_of_digit hd]), dz_cons, if_pos hd,
          dropWhile_digit_collapseWS,
          ih (t.dropWhile isDigitA).length
            (by have := length_dropWhile_le' isDigitA t; simp; omega)
            _ rfl]
      · rw [if_neg hd, collapseWS_cons, collapseWS_cons]
        by_cases hw : ws5 c = true
        · rw [if_pos hw, if_pos hw, dropWhile_ws_dz,
            ih (t.dropWhile ws5).length
              (by have := length_dropWhile_le' ws5 t; simp; omega)
              _ rfl, dz_cons, if_neg (by decide)]
        · rw [if_neg hw, if_neg hw, ih t.length (by simp) t rfl, dz_cons,
            if_neg hd]

theorem toLowerStr_dz (x : Cs) : toLowerStr (dz x) = dz (toLowerStr x) := by
  generalize hn : x.length = n
  induction n using Nat.strong_induction_on generalizing x with
  | _ n ih =>
    cases x with
    | nil => rfl
    | cons c t =>
      subst hn
      have hmap : toLowerStr (c :: t) = goLower c :: toLowerStr t := rfl
      rw [dz_cons, hmap, dz_cons, isDigitA_goLower]
      have hdwm : (toLowerStr t).dropWhile isDigitA =
          toLowerStr (t.dropWhile isDigitA) := by
        unfold toLowerStr
        rw [List.dropWhile_map]
        congr 1
        exact dropWhile_congr2 (fun c => by
          simp only [Function.comp_apply, isDigitA_goLower]) t
      by_cases hd : isDigitA c = true
      · rw [if_pos hd, if_pos hd, hdwm]
        have h0 : toLowerStr ('0' :: dz (t.dropWhile isDigitA)) =
            goLower '0' :: toLowerStr (dz (t.dropWhile isDigitA)) := rfl
        rw [h0, goLower_digit (by decide),
          ih (t.dropWhile isDigitA).length
            (by have := length_dropWhile_le' isDigitA t; simp; omega)
            _ rfl]
      · rw [if_neg hd, if_neg hd]
        have h0 : toLowerStr (c :: dz t) = goLower c :: toLowerStr (dz t) := rfl
        rw [h0, ih t.length (by simp) t rfl]

theorem replDigits_dz (u : Cs) : replDigits (dz u) = replDigits u := by
  generalize hn : u.length = n
  induction n using Nat.strong_induction_on generalizing u with
  | _ n ih =>
    cases u with
    | nil => rfl
    | cons c t =>
      subst hn
      rw [dz_cons]
      by_cases hd : isDigitA c = true
      · rw [if_pos hd, replDigits_cons, if_pos (by decide),
          dropWhile_eq_self_of_hdNot
            (hdNot_dz_digit (hdNot_dropWhile isDigitA t)),
          replDigits_cons, if_pos hd,
          ih (t.dropWhile isDigitA).length
            (by have := length_dropWhile_le' isDigitA t; simp; omega)
            _ rfl]
      · rw [if_neg hd, replDigits_cons, if_neg hd, replDigits_cons,
          if_neg hd, ih t.length (by simp) t rfl]

theorem hdNot_trimL (s : Cs) : hdNot goIsSpace (trimL s) :=
  hdNot_dropWhile goIsSpace s

theorem trimStr_isPrefix (s : Cs) : (trimStr s).IsPrefix (trimL s) := by
  unfold trimStr
  obtain ⟨w, hw⟩ :=
    (List.dropWhile_suffix goIsSpace :
      ((trimL s).reverse.dropWhile goIsSpace) <:+ (trimL s).reverse)
  refine ⟨w.reverse, ?_⟩
  rw [← List.reverse_append, hw, List.reverse_reverse]

theorem hdNot_trimStr (s : Cs) : hdNot goIsSpace (trimStr s) := by
  intro g hg
  obtain ⟨w2, hw2⟩ := trimStr_isPrefix s
  have hne : trimStr s ≠ [] := by
    intro he
    rw [he] at hg
    simp at hg
  have h3 : (trimL s).head? = some g := by
    rw [← hw2, List.head?_append_of_ne_nil _ hne, hg]
  exact hdNot_trimL s g h3

theorem lastNot_trimStr (s : Cs) : hdNot goIsSpace (trimStr s).reverse := by
  unfold trimStr
  rw [List.reverse_reverse]
  exact hdNot_dropWhile goIsSpace _

theorem trimStr_eq_self {u : Cs} (h1 : hdNot goIsSpace u)
    (h2 : hdNot goIsSpace u.reverse) : trimStr u = u := by
  unfold trimStr trimL
  rw [dropWhile_eq_self_of_hdNot h1, dropWhile_eq_self_of_hdNot h2,
    List.reverse_reverse]

theorem trimStr_dz (x : Cs) : trimStr (dz x) = dz (trimStr x) := by
  obtain ⟨lead, tail, hdec, hlead, htail⟩ := trimStr_decomp x
  have hleadnd : ∀ c ∈ lead, isDigitA c = false :=
    fun c hc => goIsSpace_not_digit (hlead c hc)
  have htailnd : hdNot isDigitA tail :=
    fun g hg => goIsSpace_not_digit (htail g (mem_of_head2 hg))
  have htailnd2 : ∀ c ∈ tail, isDigitA c = false :=
    fun c hc => goIsSpace_not_digit (htail c hc)
  have h1 : dz x = lead ++ (dz (trimStr x) ++ tail) := by
    conv_lhs => rw [hdec]
    rw [dz_append_nd hleadnd, dz_append_brk htailnd, dz_id_of_nd htailnd2]
  rw [h1, trimStr_append_left hlead]
  have h2 : trimStr (dz (trimStr x) ++ tail) = trimStr (dz (trimStr x)) :=
    trimStr_append_right htail _
  rw [h2]
  apply trimStr_eq_self
  · exact hdNot_dz_of (by decide) (hdNot_trimStr x)
  · intro g hg
    rw [List.head?_reverse, dz_getLast] at hg
    cases e : (trimStr x).getLast? with
    | none =>
      rw [e] at hg
      simp at hg
    | some l =>
      rw [e] at hg
      have hg2 : (if isDigitA l = true then '0' else l) = g := by
        simpa using hg
      have hl : goIsSpace l = false := by
        apply lastNot_trimStr x l
        rw [List.head?_reverse, e]
      by_cases hld : isDigitA l = true
      · rw [if_pos hld] at hg2
        rw [← hg2]
        decide
      · rw [if_neg hld] at hg2
        rw [← hg2]
        exact hl

theorem replAround_hdNot_digit {x : Char} {r : Cs}
    (hrd : ∀ c ∈ r, isDigitA c = false) (hr0 : r ≠ []) {v : Cs}
    (hv : hdNot isDigitA v) : hdNot isDigitA (replAround x r v) := by
  obtain ⟨p, ps, rfl⟩ := List.exists_cons_of_ne_nil hr0
  cases v with
  | nil =>
    have e0 : replAround x (p :: ps) [] = [] := rfl
    rw [e0]
    exact hdNot_nil _
  | cons c t =>
    have hc : isDigitA c = false := hv c rfl
    by_cases hcx : c = x
    · rw [hcx, replAround_anchor]
      exact hdNot_cons (hrd p (List.mem_cons_self _ _))
    · by_cases hw : ws5 c = true
      · cases h3 : t.dropWhile ws5 with
        | nil =>
          rw [replAround_ws_nil _ hw hcx h3]
          exact hdNot_cons hc
        | cons y t2 =>
          by_cases hyx : y = x
          · rw [hyx] at h3
            rw [replAround_ws_anchor _ hw hcx h3]
            exact hdNot_cons (hrd p (List.mem_cons_self _ _))
          · rw [replAround_ws_other _ hw hcx h3 hyx]
            exact hdNot_cons hc
      · rw [replAround_pass _ (Bool.eq_false_iff.mpr hw) hcx]
        exact hdNot_cons hc

theorem dropWhile_digit_replAround {x : Char} {r : Cs}
    (hxd : isDigitA x = false) (hrd : ∀ c ∈ r, isDigitA c = false)
    (hr0 : r ≠ []) (t : Cs) : (replAround x r t).dropWhile isDigitA =
      replAround x r (t.dropWhile isDigitA) := by
  induction t with
  | nil => rfl
  | cons c t ih =>
    by_cases hd : isDigitA c = true
    · have hcx : c ≠ x := by
        intro he
        rw [he, hxd] at hd
        cases hd
      rw [replAround_pass _ (ws5_of_digit hd) hcx, List.dropWhile_cons,
        List.dropWhile_cons, if_pos hd, if_pos hd]
      exact ih
    · rw [List.dropWhile_cons, if_neg hd,
        dropWhile_eq_self_of_hdNot
          (replAround_hdNot_digit hrd hr0 (hdNot_cons
            (Bool.eq_false_iff.mpr hd)))]

theorem replAround_dz (x : Char) (r : Cs) (hxd : isDigitA x = false)
    (hrd : ∀ c ∈ r, isDigitA c = false) (hr0 : r ≠ []) :
    ∀ s, replAround x r (dz s) = dz (replAround x r s) := by
  intro s
  generalize hn : s.length = n
  induction n using Nat.strong_induction_on generalizing s with
  | _ n ih =>
    cases s with
    | nil => rfl
    | cons c t =>
      subst hn
      have h0x : ('0' : Char) ≠ x := by
        intro he
        rw [← he] at hxd
        exact absurd hxd (by decide)
      by_cases hd : isDigitA c = true
      · have hcx : c ≠ x := by
          intro he
          rw [he, hxd] at hd
          cases hd
        rw [dz_cons, if_pos hd, replAround_pass _ (by decide) h0x,
          replAround_pass _ (ws5_of_digit hd) hcx, dz_cons, if_pos hd,
          dropWhile_digit_replAround hxd hrd hr0,
          ih (t.dropWhile isDigitA).length
            (by have := length_dropWhile_le' isDigitA t; simp; omega)
            _ rfl]
      · by_cases hcx : c = x
        · rw [dz_cons, if_neg hd, hcx, replAround_anchor, replAround_anchor,
            dz_append_nd hrd, dropWhile_ws_dz,
            ih (t.dropWhile ws5).length
              (by have := length_dropWhile_le' ws5 t; simp; omega)
              _ rfl]
        · by_cases hw : ws5 c = true
          · cases h3 : t.dropWhile ws5 with
            | nil =>
              have hall := all_of_dropWhile_eq_nil h3
              have hnd : ∀ d ∈ t, isDigitA d = false :=
                fun d hdm => ws5_not_digit (hall d hdm)
              rw [dz_cons, if_neg hd, dz_id_of_nd hnd,
                replAround_ws_nil _ hw hcx h3, dz_cons, if_neg hd,
                dz_id_of_nd (fun d hdm =>
                  ws5_not_digit (List.mem_takeWhile_imp hdm))]
            | cons y t2 =>
              have hlen : t2.length + 1 ≤ t.length := by
                have := length_dropWhile_le' ws5 t
                rw [h3] at this
                simpa using this
              have htw : ∀ d ∈ c :: t.takeWhile ws5, isDigitA d = false := by
                intro d hdm
                rcases List.mem_cons.mp hdm with rfl | hdm
                · exact Bool.eq_false_iff.mpr hd
                · exact ws5_not_digit (List.mem_takeWhile_imp hdm)
              by_cases hyx : y = x
              · rw [hyx] at h3
                have hdz3 : (dz t).dropWhile ws5 = x :: dz t2 := by
                  rw [dropWhile_ws_dz, h3, dz_cons, if_neg (by simp [hxd])]
                rw [dz_cons, if_neg hd, replAround_ws_anchor _ hw hcx hdz3,
                  replAround_ws_anchor _ hw hcx h3, dz_append_nd hrd,
                  dropWhile_ws_dz,
                  ih (t2.dropWhile ws5).length
                    (by have := length_dropWhile_le' ws5 t2
                        simp
                        omega)
                    _ rfl]
              · by_cases hyd : isDigitA y = true
                · have h0x2 : ('0' : Char) ≠ x := h0x
                  have hdz3 : (dz t).dropWhile ws5 =
                      '0' :: dz (t2.dropWhile isDigitA) := by
                    rw [dropWhile_ws_dz, h3, dz_cons, if_pos hyd]
                  rw [dz_cons, if_neg hd,
                    replAround_ws_other _ hw hcx hdz3 h0x2,
                    replAround_ws_other _ hw hcx h3 hyx,
                    dz_append_nd htw, takeWhile_ws_dz]
                  have hfold : ('0' : Char) :: dz (t2.dropWhile isDigitA) =
                      dz (y :: t2) := by
                    rw [dz_cons, if_pos hyd]
                  rw [hfold,
                    ih (y :: t2).length (by simp; omega) _ rfl]
                · have hdz3 : (dz t).dropWhile ws5 = y :: dz t2 := by
                    rw [dropWhile_ws_dz, h3, dz_cons, if_neg hyd]
                  rw [dz_cons, if_neg hd,
                    replAround_ws_other _ hw hcx hdz3 hyx,
                    replAround_ws_other _ hw hcx h3 hyx,
                    dz_append_nd htw, takeWhile_ws_dz]
                  have hfold : y :: dz t2 = dz (y :: t2) := by
                    rw [dz_cons, if_neg hyd]
                  rw [hfold,
                    ih (y :: t2).length (by simp; omega) _ rfl]
          · rw [dz_cons, if_neg hd,
              replAround_pass _ (Bool.eq_false_iff.mpr hw) hcx,
              replAround_pass _ (Bool.eq_false_iff.mpr hw) hcx, dz_cons,
              if_neg hd, ih t.length (by simp) t rfl]

theorem replEq_dz (w : Cs) : replEq (dz w) = dz (replEq w) := by
  unfold replEq
  exact replAround_dz '=' [' ', '=', ' '] (by decide) (by decide) (by decide) w

theorem replComma_dz (w : Cs) : replComma (dz w) = dz (replComma w) := by
  unfold replComma
  exact replAround_dz ',' [',', ' '] (by decide) (by decide) (by decide) w

/-- Canonicalizing the numeric literals first does not change the
normalized form: the pipeline's own digit-replacement step absorbs it. -/
theorem normalizeQuery_dz (x : Cs) :
    normalizeQuery (dz x) = normalizeQuery x := by
  unfold normalizeQuery
  rw [collapseWS_dz, trimStr_dz, toLowerStr_dz, replEq_dz, replComma_dz,
    collapseWS_dz, replDigits_dz]

/-! ### Quoted-literal canonicalization (C1, quoted-string clause) -/

/-- Fuelled form of the quoted-content-emptying canonicalizer: each
leftmost pair of `q`s (interior free of `q`) keeps its two quotes but
loses its contents; a `q` with no later `q` is left alone. -/
def qzF (q : Char) : Nat → Cs → Cs
  | _, [] => []
  | 0, s => s
  | n + 1, c :: t =>
    if c = q then
      match t.dropWhile (fun d => !(d = q)) with
      | _ :: rest => q :: q :: qzF q n rest
      | [] => c :: t
    else c :: qzF q n t

theorem qzF_congr (q : Char) : ∀ n m s, s.length ≤ n → s.length ≤ m →
    qzF q n s = qzF q m s := by
  intro n
  induction n with
  | zero =>
    intro m s h1 h2
    cases s with
    | nil => cases m <;> rfl
    | cons c t => simp at h1
  | succ n ih =>
    intro m s h1 h2
    cases s with
    | nil => cases m <;> rfl
    | cons c t =>
      cases m with
      | zero => simp at h2
      | succ m =>
        simp only [List.length_cons] at h1 h2
        have hd : (t.dropWhile (fun d => !(d = q))).length ≤ t.length :=
          length_dropWhile_le' _ t
        simp only [qzF]
        by_cases hq : c = q
        · rw [if_pos hq, if_pos hq]
          rcases hdw : t.dropWhile (fun d => !(d = q)) with _ | ⟨y, rest⟩
          · rfl
          · dsimp only
            have hlt : rest.length + 1 ≤ t.length := by
              rw [hdw] at hd
              simpa using hd
            rw [ih m rest (by omega) (by omega)]
        · rw [if_neg hq, if_neg hq, ih m t (by omega) (by omega)]

/-- Quoted-content canonical representative for quote character `q`. -/
def qz (q : Char) (s : Cs) : Cs := qzF q s.length s

theorem qz_cons (q c : Char) (t : Cs) :
    qz q (c :: t) =
      if c = q then
        match t.dropWhile (fun d => !(d = q)) with
        | _ :: rest => q :: q :: qz q rest
        | [] => c :: t
      else c :: qz q t := by
  have hd : (t.dropWhile (fun d => !(d = q))).length ≤ t.length :=
    length_dropWhile_le' _ t
  have e0 : qz q (c :: t) = qzF q (t.length + 1) (c :: t) := rfl
  rw [e0]
  simp only [qzF]
  by_cases hq : c = q
  · rw [if_pos hq, if_pos hq]
    rcases hdw : t.dropWhile (fun d => !(d = q)) with _ | ⟨y, rest⟩
    · rfl
    · dsimp only
      have hlt : rest.length + 1 ≤ t.length := by
        rw [hdw] at hd
        simpa using hd
      rw [qzF_congr q t.length rest.length rest (by omega) (le_refl _)]
      rfl
  · rw [if_neg hq, if_neg hq,
      qzF_congr q t.length t.length t (le_refl _) (le_refl _)]
    rfl

/-! #### Branch equations for the two quote scanners -/

theorem dropWhile_to_q {q : Char} {u : Cs} (hu : ∀ c ∈ u, c ≠ q) (rest : Cs) :
    (u ++ q :: rest).dropWhile (fun d => !(d = q)) = q :: rest := by
  rw [dropWhile_append_of_all (fun c hc => by simp [hu c hc]),
    List.dropWhile_cons, if_neg (by simp)]

theorem qz_pair {q c : Char} {t : Cs} {y : Char} {rest : Cs} (hc : c = q)
    (h : t.dropWhile (fun d => !(d = q)) = y :: rest) :
    qz q (c :: t) = q :: q :: qz q rest := by
  rw [qz_cons, if_pos hc, h]

theorem qz_open {q c : Char} {t : Cs} (hc : c = q)
    (h : t.dropWhile (fun d => !(d = q)) = []) :
    qz q (c :: t) = c :: t := by
  rw [qz_cons, if_pos hc, h]

theorem qz_pass {q c : Char} (t : Cs) (hc : c ≠ q) :
    qz q (c :: t) = c :: qz q t := by
  rw [qz_cons, if_neg hc]

theorem replQuote_pair {q c : Char} {t : Cs} {y : Char} {rest : Cs}
    (hc : c = q) (h : t.dropWhile (fun d => !(d = q)) = y :: rest) :
    replQuote q (c :: t) = 'S' :: replQuote q rest := by
  rw [replQuote_cons, if_pos hc, h]

theorem replQuote_open {q c : Char} {t : Cs} (hc : c = q)
    (h : t.dropWhile (fun d => !(d = q)) = []) :
    replQuote q (c :: t) = c :: t := by
  rw [replQuote_cons, if_pos hc, h]

theorem replQuote_pass {q c : Char} (t : Cs) (hc : c ≠ q) :
    replQuote q (c :: t) = c :: replQuote q t := by
  rw [replQuote_cons, if_neg hc]

theorem qz_head (q : Char) (v : Cs) : (qz q v).head? = v.head? := by
  cases v with
  | nil => rfl
  | cons c t =>
    by_cases hc : c = q
    · cases h : t.dropWhile (fun d => !(d = q)) with
      | nil => rw [qz_open hc h]
      | cons y rest =>
        rw [qz_pair hc h]
        rw [hc]
        rfl
    · rw [qz_pass t hc]
      rfl

theorem qz_ne_nil {q : Char} {v : Cs} (hv : v ≠ []) : qz q v ≠ [] := by
  intro he
  have h1 := qz_head q v
  rw [he] at h1
  cases v with
  | nil => exact hv rfl
  | cons c t => simp at h1

theorem qz_append_nq {q : Char} {u : Cs} (hu : ∀ c ∈ u, c ≠ q) (v : Cs) :
    qz q (u ++ v) = u ++ qz q v := by
  induction u with
  | nil => rfl
  | cons c t ih =>
    rw [List.cons_append, qz_pass _ (hu c (List.mem_cons_self _ _)),
      ih (fun c hc => hu c (List.mem_cons_of_mem _ hc)), List.cons_append]

theorem qz_id_of_nq {q : Char} {u : Cs} (hu : ∀ c ∈ u, c ≠ q) :
    qz q u = u := by
  have h := qz_append_nq hu []
  have e : qz q ([] : Cs) = [] := rfl
  rw [List.append_nil, e, List.append_nil] at h
  exact h

theorem replQuote_id_of_nq {q : Char} {u : Cs} (hu : ∀ c ∈ u, c ≠ q) :
    replQuote q u = u := by
  induction u with
  | nil => rfl
  | cons c t ih =>
    rw [replQuote_pass _ (hu c (List.mem_cons_self _ _)),
      ih (fun c hc => hu c (List.mem_cons_of_mem _ hc))]

theorem mem_qz (q : Char) (v : Cs) : ∀ c ∈ qz q v, c ∈ v ∨ c = q := by
  generalize hn : v.length = n
  induction n using Nat.strong_induction_on generalizing v with
  | _ n ih =>
    cases v with
    | nil =>
      intro c hc
      exact absurd hc (by simp [qz, qzF])
    | cons d t =>
      subst hn
      intro c hc
      by_cases hd : d = q
      · cases h : t.dropWhile (fun d => !(d = q)) with
        | nil =>
          rw [qz_open hd h] at hc
          exact Or.inl hc
        | cons y rest =>
          rw [qz_pair hd h] at hc
          rcases List.mem_cons.mp hc with rfl | hc
          · exact Or.inr rfl
          · rcases List.mem_cons.mp hc with rfl | hc
            · exact Or.inr rfl
            · have hrl : rest.length < (d :: t).length := by
                have := length_dropWhile_le' (fun d => !(d = q)) t
                rw [h] at this
                simp at this ⊢
                omega
              rcases ih rest.length hrl rest rfl c hc with h2 | h2
              · refine Or.inl (List.mem_cons_of_mem _ ?_)
                have hsub : List.Sublist rest t := by
                  have h3 : List.Sublist (y :: rest) t := by
                    rw [← h]
                    exact List.dropWhile_sublist _
                  exact (List.sublist_cons_self y rest).trans h3
                exact hsub.subset h2
              · exact Or.inr h2
      · rw [qz_pass t hd] at hc
        rcases List.mem_cons.mp hc with rfl | hc
        · exact Or.inl (List.mem_cons_self _ _)
        · rcases ih t.length (by simp) t rfl c hc with h2 | h2
          · exact Or.inl (List.mem_cons_of_mem _ h2)
          · exact Or.inr h2

/-! #### Quote canonicalization commutes with the earlier pipeline steps -/

theorem dropWhile_q_head {q y : Char} {t rest : Cs}
    (h : t.dropWhile (fun d => !(d = q)) = y :: rest) : y = q := by
  have h4 := hdNot_dropWhile (fun d => !(d = q)) t
  rw [h] at h4
  have h5 := h4 y rfl
  simpa using h5

theorem dropWhile_ws_head {y : Char} {t t' : Cs}
    (h : t.dropWhile ws5 = y :: t') : ws5 y = false := by
  have h4 := hdNot_dropWhile ws5 t
  rw [h] at h4
  exact h4 y rfl

theorem ne_q_of_mem_takeWhile_q {q : Char} {t : Cs} :
    ∀ d ∈ t.takeWhile (fun d => !(d = q)), d ≠ q := by
  intro d hd
  have h2 := List.mem_takeWhile_imp hd
  simpa using h2

theorem qz_append_brk {q : Char} {b : Cs} (hb : ∀ c ∈ b, c ≠ q) (m : Cs) :
    qz q (m ++ b) = qz q m ++ qz q b := by
  generalize hn : m.length = n
  induction n using Nat.strong_induction_on generalizing m with
  | _ n ih =>
    cases m with
    | nil => rfl
    | cons c t =>
      subst hn
      rw [List.cons_append]
      by_cases hc : c = q
      · cases h3 : t.dropWhile (fun d => !(d = q)) with
        | nil =>
          have htq : ∀ d ∈ t, d ≠ q := by
            intro d hd he
            have h4 := all_of_dropWhile_eq_nil h3 d hd
            rw [he] at h4
            simp at h4
          have h5 : (t ++ b).dropWhile (fun d => !(d = q)) = [] := by
            apply List.dropWhile_eq_nil_iff.mpr
            intro d hd
            rcases List.mem_append.mp hd with hd | hd
            · simp [htq d hd]
            · simp [hb d hd]
          rw [qz_open hc h5, qz_open hc h3, qz_id_of_nq hb,
            List.cons_append]
        | cons y rest =>
          have h5 : (t ++ b).dropWhile (fun d => !(d = q)) = y :: (rest ++ b) := by
            rw [dropWhile_append_of_ne_nil (by rw [h3]; simp), h3,
              List.cons_append]
          have hlen : rest.length < (c :: t).length := by
            have := length_dropWhile_le' (fun d => !(d = q)) t
            rw [h3] at this
            simp at this ⊢
            omega
          rw [qz_pair hc h5, qz_pair hc h3, ih rest.length hlen rest rfl,
            List.cons_append, List.cons_append]
      · rw [qz_pass _ hc, qz_pass _ hc, ih t.length (by simp) t rfl,
          List.cons_append]

theorem replDigits_append_brk {v : Cs} (hv : hdNot isDigitA v) (u : Cs) :
    replDigits (u ++ v) = replDigits u ++ replDigits v := by
  generalize hn : u.length = n
  induction n using Nat.strong_induction_on generalizing u with
  | _ n ih =>
    cases u with
    | nil => rfl
    | cons c t =>
      subst hn
      rw [List.cons_append, replDigits_cons, replDigits_cons]
      by_cases hc : isDigitA c = true
      · rw [if_pos hc, if_pos hc]
        by_cases hdt : t.dropWhile isDigitA = []
        · rw [dropWhile_append_of_all (all_of_dropWhile_eq_nil hdt),
            dropWhile_eq_self_of_hdNot hv, hdt]
          rfl
        · rw [dropWhile_append_of_ne_nil hdt,
            ih (t.dropWhile isDigitA).length
              (by have := length_dropWhile_le' isDigitA t; simp; omega)
              _ rfl, List.cons_append]
      · rw [if_neg hc, if_neg hc, ih t.length (by simp) t rfl,
          List.cons_append]

theorem replAround_append_brk {x : Char} {r v : Cs}
    (hv : ∀ h, v.head? = some h → ws5 h = false ∧ h ≠ x) (u : Cs) :
    replAround x r (u ++ v) = replAround x r u ++ replAround x r v := by
  cases v with
  | nil =>
    rw [List.append_nil]
    have e : replAround x r [] = [] := rfl
    rw [e, List.append_nil]
  | cons hv0 v' =>
    obtain ⟨hvw, hvx⟩ := hv hv0 rfl
    have hdv : (hv0 :: v').dropWhile ws5 = hv0 :: v' := by
      rw [List.dropWhile_cons, if_neg (by simp [hvw])]
    have htv : (hv0 :: v').takeWhile ws5 = [] := by
      rw [List.takeWhile_cons, if_neg (by simp [hvw])]
    generalize hn : u.length = n
    induction n using Nat.strong_induction_on generalizing u with
    | _ n ih =>
      cases u with
      | nil => rfl
      | cons c t =>
        subst hn
        rw [List.cons_append]
        by_cases hcx : c = x
        · rw [hcx, replAround_anchor, replAround_anchor]
          by_cases hdt : t.dropWhile ws5 = []
          · rw [dropWhile_append_of_all (all_of_dropWhile_eq_nil hdt), hdv,
              hdt]
            have e : replAround x r [] = [] := rfl
            rw [e, List.append_nil]
          · rw [dropWhile_append_of_ne_nil hdt,
              ih (t.dropWhile ws5).length
                (by have := length_dropWhile_le' ws5 t; simp; omega)
                _ rfl, List.append_assoc]
        · by_cases hw : ws5 c = true
          · cases h3 : t.dropWhile ws5 with
            | nil =>
              have hall := all_of_dropWhile_eq_nil h3
              have h5 : (t ++ hv0 :: v').dropWhile ws5 = hv0 :: v' := by
                rw [dropWhile_append_of_all hall, hdv]
              rw [replAround_ws_other r hw hcx h5 hvx,
                replAround_ws_nil r hw hcx h3,
                takeWhile_append_of_all hall, htv, List.append_nil,
                takeWhile_eq_self_of_all hall, List.cons_append]
            | cons y t2 =>
              have h5 : (t ++ hv0 :: v').dropWhile ws5 = y :: (t2 ++ hv0 :: v') := by
                rw [dropWhile_append_of_ne_nil (by rw [h3]; simp), h3,
                  List.cons_append]
              have hlen : (y :: t2).length < (c :: t).length := by
                have := length_dropWhile_le' ws5 t
                rw [h3] at this
                simp at this ⊢
                omega
              by_cases hyx : y = x
              · rw [hyx] at h5 h3
                rw [replAround_ws_anchor r hw hcx h5,
                  replAround_ws_anchor r hw hcx h3]
                by_cases hdt2 : t2.dropWhile ws5 = []
                · rw [dropWhile_append_of_all (all_of_dropWhile_eq_nil hdt2),
                    hdv, hdt2]
                  have e : replAround x r [] = [] := rfl
                  rw [e, List.append_nil]
                · rw [dropWhile_append_of_ne_nil hdt2,
                    ih (t2.dropWhile ws5).length
                      (by have := length_dropWhile_le' ws5 t2
                          simp at hlen ⊢
                          omega)
                      _ rfl, List.append_assoc]
              · have e6 : y :: (t2 ++ hv0 :: v') = (y :: t2) ++ hv0 :: v' := rfl
                rw [replAround_ws_other r hw hcx h5 hyx,
                  replAround_ws_other r hw hcx h3 hyx,
                  takeWhile_append_of_ne_nil (by rw [h3]; simp), e6,
                  ih (y :: t2).length hlen _ rfl, List.append_assoc]
          · rw [replAround_pass r (Bool.eq_false_iff.mpr hw) hcx,
              replAround_pass r (Bool.eq_false_iff.mpr hw) hcx,
              ih t.length (by simp) t rfl, List.cons_append]

theorem dropWhile_ws_qz {q : Char} (hq : ws5 q = false) (t : Cs) :
    (qz q t).dropWhile ws5 = qz q (t.dropWhile ws5) := by
  induction t with
  | nil => rfl
  | cons c t ih =>
    by_cases hc : c = q
    · have h1 : hdNot ws5 (qz q (c :: t)) := by
        intro g hg
        rw [qz_head] at hg
        simp only [List.head?_cons, Option.some.injEq] at hg
        rw [← hg, hc]
        exact hq
      rw [dropWhile_eq_self_of_hdNot h1, List.dropWhile_cons,
        if_neg (by rw [hc]; simp [hq])]
    · rw [qz_pass t hc, List.dropWhile_cons, List.dropWhile_cons]
      by_cases hw : ws5 c = true
      · rw [if_pos hw, if_pos hw]
        exact ih
      · rw [if_neg hw, if_neg hw, qz_pass t hc]

theorem takeWhile_ws_qz {q : Char} (hq : ws5 q = false) (t : Cs) :
    (qz q t).takeWhile ws5 = t.takeWhile ws5 := by
  induction t with
  | nil => rfl
  | cons c t ih =>
    by_cases hc : c = q
    · have h1 : hdNot ws5 (qz q (c :: t)) := by
        intro g hg
        rw [qz_head] at hg
        simp only [List.head?_cons, Option.some.injEq] at hg
        rw [← hg, hc]
        exact hq
      rw [takeWhile_eq_nil_of_hdNot h1, List.takeWhile_cons,
        if_neg (by rw [hc]; simp [hq])]
    · rw [qz_pass t hc, List.takeWhile_cons, List.takeWhile_cons]
      by_cases hw : ws5 c = true
      · rw [if_pos hw, if_pos hw, ih]
      · rw [if_neg hw, if_neg hw]

theorem dropWhile_digit_qz {q : Char} (hq : isDigitA q = false) (t : Cs) :
    (qz q t).dropWhile isDigitA = qz q (t.dropWhile isDigitA) := by
  induction t with
  | nil => rfl
  | cons c t ih =>
    by_cases hc : c = q
    · have h1 : hdNot isDigitA (qz q (c :: t)) := by
        intro g hg
        rw [qz_head] at hg
        simp only [List.head?_cons, Option.some.injEq] at hg
        rw [← hg, hc]
        exact hq
      rw [dropWhile_eq_self_of_hdNot h1, List.dropWhile_cons,
        if_neg (by rw [hc]; simp [hq])]
    · rw [qz_pass t hc, List.dropWhile_cons, List.dropWhile_cons]
      by_cases hd : isDigitA c = true
      · rw [if_pos hd, if_pos hd]
        exact ih
      · rw [if_neg hd, if_neg hd, qz_pass t hc]

theorem collapseWS_qz {q : Char} (hq : ws5 q = false) (x : Cs) :
    collapseWS (qz q x) = qz q (collapseWS x) := by
  have hspq : (' ' : Char) ≠ q := by
    intro he
    rw [← he] at hq
    exact absurd hq (by decide)
  generalize hn : x.length = n
  induction n using Nat.strong_induction_on generalizing x with
  | _ n ih =>
    cases x with
    | nil => rfl
    | cons c t =>
      subst hn
      by_cases hc : c = q
      · cases h3 : t.dropWhile (fun d => !(d = q)) with
        | nil =>
          have htq : ∀ d ∈ t, d ≠ q := by
            intro d hd he
            have h4 := all_of_dropWhile_eq_nil h3 d hd
            rw [he] at h4
            simp at h4
          have hCtq : ∀ d ∈ collapseWS t, d ≠ q := by
            intro d hd
            rcases mem_collapseWS t d hd with h5 | h5
            · exact htq d h5
            · rw [h5]
              exact hspq
          rw [qz_open hc h3, collapseWS_cons,
            if_neg (by rw [hc]; simp [hq]),
            qz_open hc (List.dropWhile_eq_nil_iff.mpr
              (fun d hd => by simp [hCtq d hd]))]
        | cons y rest =>
          have hy : y = q := dropWhile_q_head h3
          have hsp : t = t.takeWhile (fun d => !(d = q)) ++ (y :: rest) := by
            rw [← h3]
            exact (List.takeWhile_append_dropWhile _ _).symm
          have hAq : ∀ d ∈ t.takeWhile (fun d => !(d = q)), d ≠ q :=
            ne_q_of_mem_takeWhile_q
          have hCAq : ∀ d ∈ collapseWS (t.takeWhile (fun d => !(d = q))),
              d ≠ q := by
            intro d hd
            rcases mem_collapseWS _ d hd with h5 | h5
            · exact hAq d h5
            · rw [h5]
              exact hspq
          have hlen : rest.length < (c :: t).length := by
            have := length_dropWhile_le' (fun d => !(d = q)) t
            rw [h3] at this
            simp at this ⊢
            omega
          have hCt : collapseWS t =
              collapseWS (t.takeWhile (fun d => !(d = q))) ++
                (q :: collapseWS rest) := by
            conv_lhs => rw [hsp]
            rw [collapseWS_append_hd (by
                intro h hh
                rw [hy] at hh
                simp only [List.head?_cons, Option.some.injEq] at hh
                rw [← hh]
                exact hq),
              hy, collapseWS_cons, if_neg (by simp [hq])]
          rw [qz_pair hc h3, collapseWS_cons, if_neg (by simp [hq]),
            collapseWS_cons, if_neg (by simp [hq]),
            ih rest.length hlen rest rfl, collapseWS_cons,
            if_neg (by rw [hc]; simp [hq]), hCt,
            qz_pair hc (dropWhile_to_q hCAq _)]
      · by_cases hw : ws5 c = true
        · rw [qz_pass t hc, collapseWS_cons, if_pos hw, collapseWS_cons,
            if_pos hw, dropWhile_ws_qz hq,
            ih (t.dropWhile ws5).length
              (by have := length_dropWhile_le' ws5 t; simp; omega)
              _ rfl, qz_pass _ hspq]
        · rw [qz_pass t hc, collapseWS_cons, if_neg hw, collapseWS_cons,
            if_neg hw, ih t.length (by simp) t rfl, qz_pass _ hc]

theorem qz_getLast {q : Char} (v : Cs) : (qz q v).getLast? = v.getLast? := by
  generalize hn : v.length = n
  induction n using Nat.strong_induction_on generalizing v with
  | _ n ih =>
    cases v with
    | nil => rfl
    | cons c t =>
      subst hn
      by_cases hc : c = q
      · cases h3 : t.dropWhile (fun d => !(d = q)) with
        | nil => rw [qz_open hc h3]
        | cons y rest =>
          have hy : y = q := dropWhile_q_head h3
          have htne : t ≠ [] := by
            intro he
            rw [he] at h3
            exact absurd h3 (by simp)
          have hsp : t = t.takeWhile (fun d => !(d = q)) ++ (y :: rest) := by
            rw [← h3]
            exact (List.takeWhile_append_dropWhile _ _).symm
          have hlen : rest.length < (c :: t).length := by
            have := length_dropWhile_le' (fun d => !(d = q)) t
            rw [h3] at this
            simp at this ⊢
            omega
          rw [qz_pair hc h3]
          by_cases hr : rest = []
          · rw [hr]
            have e1 : qz q ([] : Cs) = [] := rfl
            rw [e1]
            have e2 : ([q, q] : Cs).getLast? = some q := rfl
            rw [e2, getLast?_cons_of_ne_nil htne]
            conv_rhs => rw [hsp]
            rw [hy, hr, List.getLast?_concat]
          · have hne2 : qz q rest ≠ [] := qz_ne_nil hr
            have h6 : (q :: qz q rest) ≠ ([] : Cs) := by simp
            rw [getLast?_cons_of_ne_nil h6,
              getLast?_cons_of_ne_nil hne2, ih rest.length hlen rest rfl,
              getLast?_cons_of_ne_nil htne]
            conv_rhs => rw [hsp]
            rw [List.getLast?_append_of_ne_nil _ (by simp),
              getLast?_cons_of_ne_nil hr]
      · rw [qz_pass t hc]
        cases ht : t with
        | nil =>
          have e1 : qz q ([] : Cs) = [] := rfl
          rw [e1]
        | cons y t2 =>
          have hne : qz q (y :: t2) ≠ [] := qz_ne_nil (by simp)
          rw [getLast?_cons_of_ne_nil hne, getLast?_cons_of_ne_nil (by simp),
            ih (y :: t2).length
              (by rw [ht]; simp only [List.length_cons]; omega) (y :: t2) rfl]

theorem trimStr_qz {q : Char} (hq : goIsSpace q = false) (x : Cs) :
    trimStr (qz q x) = qz q (trimStr x) := by
  obtain ⟨lead, tail, hdec, hlead, htail⟩ := trimStr_decomp x
  have hleadnq : ∀ c ∈ lead, c ≠ q := by
    intro c hc he
    have h2 := hlead c hc
    rw [he, hq] at h2
    cases h2
  have htailnq : ∀ c ∈ tail, c ≠ q := by
    intro c hc he
    have h2 := htail c hc
    rw [he, hq] at h2
    cases h2
  have h1 : qz q x = lead ++ (qz q (trimStr x) ++ tail) := by
    conv_lhs => rw [hdec]
    rw [qz_append_nq hleadnq, qz_append_brk htailnq, qz_id_of_nq htailnq]
  rw [h1, trimStr_append_left hlead, trimStr_append_right htail _]
  apply trimStr_eq_self
  · intro g hg
    rw [qz_head] at hg
    exact hdNot_trimStr x g hg
  · intro g hg
    rw [List.head?_reverse, qz_getLast] at hg
    apply lastNot_trimStr x g
    rw [List.head?_reverse]
    exact hg

theorem goLower_eq_q_iff {q : Char} (hql : q.toNat < 65) (d : Char) :
    goLower d = q ↔ d = q := by
  constructor
  · intro h
    rcases goLower_toNat_cases d with ⟨h1, h2, h3⟩ | ⟨h1, h2⟩
    · rw [h] at h1
      omega
    · rw [← h1]
      exact h
  · intro h
    rw [h]
    apply goLower_eq_self
    rw [upper_toNat]
    omega

theorem toLowerStr_qz {q : Char} (hql : q.toNat < 65) (x : Cs) :
    toLowerStr (qz q x) = qz q (toLowerStr x) := by
  have hgq : goLower q = q := (goLower_eq_q_iff hql q).mpr rfl
  have hmapc : ∀ (c : Char) (u : Cs),
      toLowerStr (c :: u) = goLower c :: toLowerStr u := fun c u => rfl
  have hdwm : ∀ u : Cs, (toLowerStr u).dropWhile (fun d => !(d = q)) =
      toLowerStr (u.dropWhile (fun d => !(d = q))) := by
    intro u
    unfold toLowerStr
    rw [List.dropWhile_map]
    congr 1
    refine dropWhile_congr2 (fun c => ?_) u
    simp only [Function.comp_apply]
    rw [decide_eq_decide.mpr (goLower_eq_q_iff hql c)]
  generalize hn : x.length = n
  induction n using Nat.strong_induction_on generalizing x with
  | _ n ih =>
    cases x with
    | nil => rfl
    | cons c t =>
      subst hn
      by_cases hc : c = q
      · have hgc : goLower c = q := by
          rw [hc]
          exact hgq
        cases h3 : t.dropWhile (fun d => !(d = q)) with
        | nil =>
          have htq : ∀ d ∈ t, d ≠ q := by
            intro d hd he
            have h4 := all_of_dropWhile_eq_nil h3 d hd
            rw [he] at h4
            simp at h4
          have hLtq : ∀ d ∈ toLowerStr t, d ≠ q := by
            intro d hd he
            obtain ⟨e, he2, he3⟩ := List.mem_map.mp hd
            rw [← he3] at he
            exact htq e he2 ((goLower_eq_q_iff hql e).mp he)
          rw [qz_open hc h3, hmapc,
            qz_open hgc (List.dropWhile_eq_nil_iff.mpr
              (fun d hd => by simp [hLtq d hd]))]
        | cons y rest =>
          have hy : y = q := dropWhile_q_head h3
          have hlen : rest.length < (c :: t).length := by
            have := length_dropWhile_le' (fun d => !(d = q)) t
            rw [h3] at this
            simp at this ⊢
            omega
          have hdw : (toLowerStr t).dropWhile (fun d => !(d = q)) =
              q :: toLowerStr rest := by
            rw [hdwm t, h3, hy, hmapc, hgq]
          rw [qz_pair hc h3, hmapc, hmapc, hgq,
            ih rest.length hlen rest rfl, hmapc, qz_pair hgc hdw]
      · have hgc : goLower c ≠ q := fun he =>
          hc ((goLower_eq_q_iff hql c).mp he)
        rw [qz_pass t hc, hmapc, hmapc, ih t.length (by simp) t rfl,
          qz_pass _ hgc]

theorem replAround_qz (x : Char) (r : Cs) {q : Char} (hqw : ws5 q = false)
    (hqx : q ≠ x) (hxw : ws5 x = false)
    (hrq : ∀ c ∈ r, c ≠ q) :
    ∀ s, replAround x r (qz q s) = qz q (replAround x r s) := by
  intro s
  generalize hn : s.length = n
  induction n using Nat.strong_induction_on generalizing s with
  | _ n ih =>
    cases s with
    | nil => rfl
    | cons c t =>
      subst hn
      by_cases hc : c = q
      · have hcx : c ≠ x := by
          rw [hc]
          exact hqx
        have hcw : ws5 c = false := by
          rw [hc]
          exact hqw
        cases h3 : t.dropWhile (fun d => !(d = q)) with
        | nil =>
          have htq : ∀ d ∈ t, d ≠ q := by
            intro d hd he
            have h4 := all_of_dropWhile_eq_nil h3 d hd
            rw [he] at h4
            simp at h4
          have hAtq : ∀ d ∈ replAround x r t, d ≠ q := by
            intro d hd
            rcases mem_replAround x r t d hd with h5 | h5
            · exact htq d h5
            · exact hrq d h5
          rw [qz_open hc h3, replAround_pass r hcw hcx,
            qz_open hc (List.dropWhile_eq_nil_iff.mpr
              (fun d hd => by simp [hAtq d hd]))]
        | cons y rest =>
          have hy : y = q := dropWhile_q_head h3
          have hsp : t = t.takeWhile (fun d => !(d = q)) ++ (y :: rest) := by
            rw [← h3]
            exact (List.takeWhile_append_dropWhile _ _).symm
          have hlen : rest.length < (c :: t).length := by
            have := length_dropWhile_le' (fun d => !(d = q)) t
            rw [h3] at this
            simp at this ⊢
            omega
          have hAAq : ∀ d ∈ replAround x r
              (t.takeWhile (fun d => !(d = q))), d ≠ q := by
            intro d hd
            rcases mem_replAround _ _ _ d hd with h5 | h5
            · exact ne_q_of_mem_takeWhile_q d h5
            · exact hrq d h5
          have hAt : replAround x r t =
              replAround x r (t.takeWhile (fun d => !(d = q))) ++
                (q :: replAround x r rest) := by
            conv_lhs => rw [hsp]
            rw [replAround_append_brk (by
                intro h hh
                rw [hy] at hh
                simp only [List.head?_cons, Option.some.injEq] at hh
                rw [← hh]
                exact ⟨hqw, hqx⟩),
              hy, replAround_pass r hqw hqx]
          rw [qz_pair hc h3, replAround_pass r hqw hqx,
            replAround_pass r hqw hqx, ih rest.length hlen rest rfl,
            replAround_pass r hcw hcx, hAt,
            qz_pair hc (dropWhile_to_q hAAq _)]
      · by_cases hcx : c = x
        · rw [qz_pass t hc, hcx, replAround_anchor, replAround_anchor,
            qz_append_nq hrq, dropWhile_ws_qz hqw,
            ih (t.dropWhile ws5).length
              (by have := length_dropWhile_le' ws5 t; simp; omega)
              _ rfl]
        · by_cases hw : ws5 c = true
          · cases h3 : t.dropWhile ws5 with
            | nil =>
              have hall := all_of_dropWhile_eq_nil h3
              have hdz : (qz q t).dropWhile ws5 = [] := by
                rw [dropWhile_ws_qz hqw, h3]
                rfl
              have htwq : ∀ d ∈ t.takeWhile ws5, d ≠ q := by
                intro d hd he
                have h5 := List.mem_takeWhile_imp hd
                rw [he, hqw] at h5
                cases h5
              rw [qz_pass t hc, replAround_ws_nil r hw hcx hdz,
                takeWhile_ws_qz hqw, replAround_ws_nil r hw hcx h3,
                qz_pass _ hc, qz_id_of_nq htwq]
            | cons y rest2 =>
              have hyw : ws5 y = false := dropWhile_ws_head h3
              have hlen : (y :: rest2).length < (c :: t).length := by
                have := length_dropWhile_le' ws5 t
                rw [h3] at this
                simp at this ⊢
                omega
              by_cases hyx : y = x
              · rw [hyx] at h3
                have hdz : (qz q t).dropWhile ws5 = x :: qz q rest2 := by
                  rw [dropWhile_ws_qz hqw, h3, qz_pass _ (by
                    intro he
                    rw [he] at hqx
                    exact hqx rfl)]
                rw [qz_pass t hc, replAround_ws_anchor r hw hcx hdz,
                  replAround_ws_anchor r hw hcx h3, qz_append_nq hrq,
                  dropWhile_ws_qz hqw,
                  ih (rest2.dropWhile ws5).length
                    (by have := length_dropWhile_le' ws5 rest2
                        simp at hlen ⊢
                        omega)
                    _ rfl]
              · obtain ⟨w, hzw⟩ : ∃ w, qz q (y :: rest2) = y :: w := by
                  cases e : qz q (y :: rest2) with
                  | nil => exact absurd e (qz_ne_nil (by simp))
                  | cons z w =>
                    have h5 := qz_head q (y :: rest2)
                    rw [e] at h5
                    simp only [List.head?_cons, Option.some.injEq] at h5
                    rw [h5]
                    exact ⟨w, rfl⟩
                have hdz : (qz q t).dropWhile ws5 = y :: w := by
                  rw [dropWhile_ws_qz hqw, h3, hzw]
                have htwq : ∀ d ∈ c :: t.takeWhile ws5, d ≠ q := by
                  intro d hd he
                  rcases List.mem_cons.mp hd with rfl | hd
                  · exact hc he
                  · have h5 := List.mem_takeWhile_imp hd
                    rw [he, hqw] at h5
                    cases h5
                rw [qz_pass t hc, replAround_ws_other r hw hcx hdz hyx,
                  takeWhile_ws_qz hqw, ← hzw,
                  ih (y :: rest2).length hlen _ rfl,
                  replAround_ws_other r hw hcx h3 hyx,
                  qz_append_nq htwq]
          · rw [qz_pass t hc,
              replAround_pass r (Bool.eq_false_iff.mpr hw) hcx,
              replAround_pass r (Bool.eq_false_iff.mpr hw) hcx,
              ih t.length (by simp) t rfl, qz_pass _ hc]

theorem replDigits_qz {q : Char} (hqd : isDigitA q = false)
    (hNq : ('N' : Char) ≠ q) (x : Cs) :
    replDigits (qz q x) = qz q (replDigits x) := by
  generalize hn : x.length = n
  induction n using Nat.strong_induction_on generalizing x with
  | _ n ih =>
    cases x with
    | nil => rfl
    | cons c t =>
      subst hn
      by_cases hc : c = q
      · have hcd : isDigitA c = false := by
          rw [hc]
          exact hqd
        cases h3 : t.dropWhile (fun d => !(d = q)) with
        | nil =>
          have htq : ∀ d ∈ t, d ≠ q := by
            intro d hd he
            have h4 := all_of_dropWhile_eq_nil h3 d hd
            rw [he] at h4
            simp at h4
          have hNtq : ∀ d ∈ replDigits t, d ≠ q := by
            intro d hd
            rcases mem_replDigits t d hd with h5 | h5
            · exact htq d h5
            · rw [h5]
              exact hNq
          rw [qz_open hc h3, replDigits_cons, if_neg (by simp [hcd]),
            qz_open hc (List.dropWhile_eq_nil_iff.mpr
              (fun d hd => by simp [hNtq d hd]))]
        | cons y rest =>
          have hy : y = q := dropWhile_q_head h3
          have hsp : t = t.takeWhile (fun d => !(d = q)) ++ (y :: rest) := by
            rw [← h3]
            exact (List.takeWhile_append_dropWhile _ _).symm
          have hlen : rest.length < (c :: t).length := by
            have := length_dropWhile_le' (fun d => !(d = q)) t
            rw [h3] at this
            simp at this ⊢
            omega
          have hNAq : ∀ d ∈ replDigits (t.takeWhile (fun d => !(d = q))),
              d ≠ q := by
            intro d hd
            rcases mem_replDigits _ d hd with h5 | h5
            · exact ne_q_of_mem_takeWhile_q d h5
            · rw [h5]
              exact hNq
          have hNt : replDigits t =
              replDigits (t.takeWhile (fun d => !(d = q))) ++
                (q :: replDigits rest) := by
            conv_lhs => rw [hsp]
            rw [replDigits_append_brk (by
                intro h hh
                rw [hy] at hh
                simp only [List.head?_cons, Option.some.injEq] at hh
                rw [← hh]
                exact hqd),
              hy, replDigits_cons, if_neg (by simp [hqd])]
          rw [qz_pair hc h3, replDigits_cons, if_neg (by simp [hqd]),
            replDigits_cons, if_neg (by simp [hqd]),
            ih rest.length hlen rest rfl, replDigits_cons,
            if_neg (by simp [hcd]), hNt,
            qz_pair hc (dropWhile_to_q hNAq _)]
      · by_cases hd : isDigitA c = true
        · rw [qz_pass t hc, replDigits_cons, if_pos hd, replDigits_cons,
            if_pos hd, dropWhile_digit_qz hqd,
            ih (t.dropWhile isDigitA).length
              (by have := length_dropWhile_le' isDigitA t; simp; omega)
              _ rfl, qz_pass _ (by
                intro he
                exact hNq he)]
        · rw [qz_pass t hc, replDigits_cons, if_neg hd, replDigits_cons,
            if_neg hd, ih t.length (by simp) t rfl, qz_pass _ hc]

/-- Re-emptying an already-emptied quote layer inside the quote-replacing
scanner is invisible: `replQuote q` gives the same output on `qz q w`
as on `w`. -/
theorem replQuote_qz (q : Char) (w : Cs) :
    replQuote q (qz q w) = replQuote q w := by
  generalize hn : w.length = n
  induction n using Nat.strong_induction_on generalizing w with
  | _ n ih =>
    cases w with
    | nil => rfl
    | cons c t =>
      subst hn
      by_cases hc : c = q
      · cases h3 : t.dropWhile (fun d => !(d = q)) with
        | nil => rw [qz_open hc h3]
        | cons y rest =>
          have hlen : rest.length < (c :: t).length := by
            have := length_dropWhile_le' (fun d => !(d = q)) t
            rw [h3] at this
            simp at this ⊢
            omega
          have h5 : (q :: qz q rest).dropWhile (fun d => !(d = q)) =
              q :: qz q rest := by
            rw [List.dropWhile_cons, if_neg (by simp)]
          rw [qz_pair hc h3, replQuote_pair rfl h5,
            replQuote_pair hc h3, ih rest.length hlen rest rfl]
      · rw [qz_pass t hc, replQuote_pass _ hc, replQuote_pass _ hc,
          ih t.length (by simp) t rfl]

/-! #### Single-quote shape analysis for the interaction of the two
quote-replacement passes -/

/-- Every single-quote literal of the string is already emptied: each `'`
is immediately followed by its closing `'`, except possibly one final
unclosed `'` (no `'` after it at all). -/
def sEmptiedB : Cs → Bool
  | [] => true
  | [_] => true
  | c :: d :: t2 =>
    if c = '\'' then
      if d = '\'' then sEmptiedB t2
      else (d :: t2).all (fun e => !(e = '\''))
    else sEmptiedB (d :: t2)

/-- Every single-quote literal is emptied and closed: the `'`s come in
adjacent pairs. -/
def sClosedB : Cs → Bool
  | [] => true
  | [c] => if c = '\'' then false else true
  | c :: d :: t2 =>
    if c = '\'' then
      if d = '\'' then sClosedB t2
      else false
    else sClosedB (d :: t2)

theorem sEmptiedB_pass {c : Char} {t : Cs} (hc : c ≠ '\'') :
    sEmptiedB (c :: t) = sEmptiedB t := by
  cases t with
  | nil => rfl
  | cons d t2 =>
    simp only [sEmptiedB]
    rw [if_neg hc]

theorem sEmptiedB_pair (t : Cs) :
    sEmptiedB ('\'' :: '\'' :: t) = sEmptiedB t := by
  simp only [sEmptiedB]
  simp

theorem sEmptiedB_lone {d : Char} {t2 : Cs} (hd : d ≠ '\'') :
    sEmptiedB ('\'' :: d :: t2) = (d :: t2).all (fun e => !(e = '\'')) := by
  simp only [sEmptiedB]
  simp [hd]

theorem sClosedB_pass {c : Char} {t : Cs} (hc : c ≠ '\'') :
    sClosedB (c :: t) = sClosedB t := by
  cases t with
  | nil =>
    simp only [sClosedB]
    rw [if_neg hc]
  | cons d t2 =>
    simp only [sClosedB]
    rw [if_neg hc]

theorem sClosedB_pair (t : Cs) :
    sClosedB ('\'' :: '\'' :: t) = sClosedB t := by
  simp only [sClosedB]
  simp

/-- The single-quote-emptying pass establishes the emptied-shape
invariant. -/
theorem sEmptiedB_qz (v : Cs) : sEmptiedB (qz '\'' v) = true := by
  generalize hn : v.length = n
  induction n using Nat.strong_induction_on generalizing v with
  | _ n ih =>
    cases v with
    | nil => rfl
    | cons c t =>
      subst hn
      by_cases hc : c = '\''
      · cases h3 : t.dropWhile (fun d => !(d = '\'')) with
        | nil =>
          have htq : ∀ d ∈ t, d ≠ '\'' := by
            intro d hd he
            have h4 := all_of_dropWhile_eq_nil h3 d hd
            rw [he] at h4
            simp at h4
          rw [qz_open hc h3, hc]
          cases t with
          | nil => rfl
          | cons d t2 =>
            have hd : d ≠ '\'' := htq d (List.mem_cons_self _ _)
            rw [sEmptiedB_lone hd, List.all_eq_true]
            intro e he
            simp [htq e he]
        | cons y rest =>
          have hlen : rest.length < (c :: t).length := by
            have := length_dropWhile_le' (fun d => !(d = '\'')) t
            rw [h3] at this
            simp at this ⊢
            omega
          rw [qz_pair hc h3, sEmptiedB_pair]
          exact ih rest.length hlen rest rfl
      · rw [qz_pass t hc, sEmptiedB_pass hc]
        exact ih t.length (by simp) t rfl

/-- The single-quote replacement distributes over an append whose left
part has all its single quotes in closed pairs. -/
theorem replQuote_append_closed {u : Cs} (hu : sClosedB u = true) (v : Cs) :
    replQuote '\'' (u ++ v) = replQuote '\'' u ++ replQuote '\'' v := by
  generalize hn : u.length = n
  induction n using Nat.strong_induction_on generalizing u with
  | _ n ih =>
    cases u with
    | nil => rfl
    | cons c t =>
      subst hn
      by_cases hc : c = '\''
      · cases t with
        | nil =>
          rw [hc] at hu
          exact absurd hu (by decide)
        | cons d t2 =>
          by_cases hd : d = '\''
          · rw [hc, hd] at hu ⊢
            rw [sClosedB_pair] at hu
            have h5 : ∀ w : Cs, ('\'' :: w).dropWhile
                (fun e => !(e = '\'')) = '\'' :: w := by
              intro w
              rw [List.dropWhile_cons, if_neg (by simp)]
            rw [List.cons_append, List.cons_append,
              replQuote_pair rfl (h5 (t2 ++ v)), replQuote_pair rfl (h5 t2),
              ih t2.length (by simp only [List.length_cons]; omega) hu rfl,
              List.cons_append]
          · rw [hc] at hu
            cases t2 with
            | nil =>
              have : sClosedB ['\'', d] = false := by
                simp only [sClosedB]
                simp [hd]
              rw [this] at hu
              cases hu
            | cons e t3 =>
              have : sClosedB ('\'' :: d :: e :: t3) = false := by
                simp only [sClosedB]
                simp [hd]
              rw [this] at hu
              cases hu
      · rw [sClosedB_pass hc] at hu
        rw [List.cons_append, replQuote_pass _ hc, replQuote_pass _ hc,
          ih t.length (by simp only [List.length_cons]; omega) hu rfl,
          List.cons_append]

/-- Shape analysis for an emptied string around a non-quote marker: the
part before the marker is fully paired, or ends in one lone quote with no
quote anywhere after it. -/
theorem sEmptied_split {g : Char} (hg : g ≠ '\'') {rest : Cs} : ∀ {B : Cs},
    sEmptiedB (B ++ g :: rest) = true →
      (sClosedB B = true ∧ sEmptiedB rest = true) ∨
      (∃ B1 B2, B = B1 ++ '\'' :: B2 ∧ sClosedB B1 = true ∧
        (∀ e ∈ B2, e ≠ '\'') ∧ (∀ e ∈ rest, e ≠ '\'')) := by
  intro B
  generalize hn : B.length = n
  induction n using Nat.strong_induction_on generalizing B with
  | _ n ih =>
    cases B with
    | nil =>
      intro h
      rw [List.nil_append, sEmptiedB_pass hg] at h
      exact Or.inl ⟨rfl, h⟩
    | cons c t =>
      subst hn
      intro h
      by_cases hc : c = '\''
      · cases t with
        | nil =>
          rw [hc, List.cons_append, List.nil_append,
            sEmptiedB_lone hg, List.all_eq_true] at h
          refine Or.inr ⟨[], [], by rw [hc]; simp, rfl, by simp, ?_⟩
          intro e he himp
          have h2 := h e (List.mem_cons_of_mem _ he)
          rw [himp] at h2
          simp at h2
        | cons d t2 =>
          by_cases hd : d = '\''
          · rw [hc, hd, List.cons_append, List.cons_append,
              sEmptiedB_pair] at h
            rcases ih t2.length (by simp only [List.length_cons]; omega)
              rfl h with ⟨h1, h2⟩ | ⟨B1, B2, hBeq, hcl, hB2, hrest⟩
            · refine Or.inl ⟨?_, h2⟩
              rw [hc, hd, sClosedB_pair]
              exact h1
            · refine Or.inr ⟨'\'' :: '\'' :: B1, B2, ?_, ?_, hB2, hrest⟩
              · rw [hc, hd, hBeq]
                rfl
              · rw [sClosedB_pair]
                exact hcl
          · rw [hc, List.cons_append, List.cons_append,
              sEmptiedB_lone hd, List.all_eq_true] at h
            refine Or.inr ⟨[], d :: t2, by rw [hc]; simp, rfl, ?_, ?_⟩
            · intro e he himp
              have hmem : e ∈ d :: (t2 ++ g :: rest) := by
                rcases List.mem_cons.mp he with rfl | he2
                · exact List.mem_cons_self _ _
                · exact List.mem_cons_of_mem _
                    (List.mem_append.mpr (Or.inl he2))
              have h2 := h e hmem
              rw [himp] at h2
              simp at h2
            · intro e he himp
              have hmem : e ∈ d :: (t2 ++ g :: rest) :=
                List.mem_cons_of_mem _ (List.mem_append.mpr
                  (Or.inr (List.mem_cons_of_mem _ he)))
              have h2 := h e hmem
              rw [himp] at h2
              simp at h2
      · rw [List.cons_append, sEmptiedB_pass hc] at h
        rcases ih t.length (by simp only [List.length_cons]; omega)
          rfl h with ⟨h1, h2⟩ | ⟨B1, B2, hBeq, hcl, hB2, hrest⟩
        · refine Or.inl ⟨?_, h2⟩
          rw [sClosedB_pass hc]
          exact h1
        · refine Or.inr ⟨c :: B1, B2, ?_, ?_, hB2, hrest⟩
          · rw [hBeq]
            rfl
          · rw [sClosedB_pass hc]
            exact hcl

/-- Key interaction: on a string whose single-quote literals are already
emptied, pre-emptying the double-quote literals does not change the
output of the two quote-replacement passes. -/
theorem replQuote_interchange {w : Cs} (hw : sEmptiedB w = true) :
    replQuote '"' (replQuote '\'' (qz '"' w)) =
      replQuote '"' (replQuote '\'' w) := by
  revert hw
  generalize hn : w.length = n
  induction n using Nat.strong_induction_on generalizing w with
  | _ n ih =>
    cases w with
    | nil =>
      intro hw
      rfl
    | cons c t =>
      subst hn
      intro hw
      by_cases hcS : c = '\''
      · subst hcS
        cases t with
        | nil =>
          have e : qz '"' ['\''] = ['\''] := by
            rw [qz_pass [] (by decide)]
            rfl
          rw [e]
        | cons d t2 =>
          by_cases hd : d = '\''
          · subst hd
            have hw2 : sEmptiedB t2 = true := by
              rw [sEmptiedB_pair] at hw
              exact hw
            have h5 : ∀ u : Cs, ('\'' :: u).dropWhile
                (fun e => !(e = '\'')) = '\'' :: u := by
              intro u
              rw [List.dropWhile_cons, if_neg (by simp)]
            rw [qz_pass _ (by decide), qz_pass _ (by decide),
              replQuote_pair rfl (h5 (qz '"' t2)), replQuote_pair rfl (h5 t2),
              replQuote_pass _ (by decide), replQuote_pass _ (by decide),
              ih t2.length (by simp only [List.length_cons]; omega) rfl hw2]
          · have hall : ∀ e ∈ d :: t2, e ≠ '\'' := by
              rw [sEmptiedB_lone hd, List.all_eq_true] at hw
              intro e he himp
              have h2 := hw e he
              rw [himp] at h2
              simp at h2
            have hqzf : ∀ e ∈ qz '"' (d :: t2), e ≠ '\'' := by
              intro e he
              rcases mem_qz '"' (d :: t2) e he with h2 | h2
              · exact hall e h2
              · rw [h2]
                decide
            rw [qz_pass _ (by decide),
              replQuote_open rfl (List.dropWhile_eq_nil_iff.mpr
                (fun e he => by simp [hqzf e he])),
              replQuote_open rfl (List.dropWhile_eq_nil_iff.mpr
                (fun e he => by simp [hall e he])),
              replQuote_pass _ (by decide), replQuote_pass _ (by decide),
              replQuote_qz]
      · by_cases hcD : c = '"'
        · subst hcD
          have hwt : sEmptiedB t = true := by
            rw [sEmptiedB_pass (by decide)] at hw
            exact hw
          cases h3 : t.dropWhile (fun e => !(e = '"')) with
          | nil => rw [qz_open rfl h3]
          | cons y rest =>
            have hy : y = '"' := dropWhile_q_head h3
            subst hy
            have hsp : t = t.takeWhile (fun e => !(e = '"')) ++ ('"' :: rest) := by
              rw [← h3]
              exact (List.takeWhile_append_dropWhile _ _).symm
            have hBq : ∀ e ∈ t.takeWhile (fun e => !(e = '"')), e ≠ '"' :=
              ne_q_of_mem_takeWhile_q
            have hlen : rest.length < (('"' : Char) :: t).length := by
              have := length_dropWhile_le' (fun e => !(e = '"')) t
              rw [h3] at this
              simp at this ⊢
              omega
            have hwt2 : sEmptiedB (t.takeWhile (fun e => !(e = '"')) ++
                '"' :: rest) = true := by
              rw [← hsp]
              exact hwt
            have h5 : ('"' :: replQuote '\'' (qz '"' rest)).dropWhile
                (fun e => !(e = '"')) =
                  '"' :: replQuote '\'' (qz '"' rest) := by
              rw [List.dropWhile_cons, if_neg (by simp)]
            have hLHS : replQuote '"' (replQuote '\'' (qz '"' ('"' :: t))) =
                'S' :: replQuote '"' (replQuote '\'' (qz '"' rest)) := by
              rw [qz_pair rfl h3]
              have h6 : replQuote '\'' ('"' :: '"' :: qz '"' rest) =
                  '"' :: '"' :: replQuote '\'' (qz '"' rest) := by
                rw [replQuote_pass _ (by decide), replQuote_pass _ (by decide)]
              rw [h6, replQuote_pair rfl h5]
            have hRHS0 : replQuote '\'' ('"' :: t) =
                '"' :: replQuote '\'' t := replQuote_pass _ (by decide)
            rw [hLHS, hRHS0]
            rcases sEmptied_split (by decide) hwt2 with ⟨hcl, hre⟩ |
              ⟨B1, B2, hBeq, hcl1, hB2, hrest⟩
            · have hSQB : ∀ e ∈ replQuote '\''
                  (t.takeWhile (fun e => !(e = '"'))), e ≠ '"' := by
                intro e he
                rcases mem_replQuote '\'' _ e he with h2 | h2
                · exact hBq e h2
                · rw [h2]
                  decide
              have hSQt : replQuote '\'' t =
                  replQuote '\'' (t.takeWhile (fun e => !(e = '"'))) ++
                    ('"' :: replQuote '\'' rest) := by
                conv_lhs => rw [hsp]
                rw [replQuote_append_closed hcl, replQuote_pass _
                  (by decide)]
              rw [hSQt, replQuote_pair rfl (dropWhile_to_q hSQB _),
                ih rest.length hlen rfl hre]
            · have hqzrest : ∀ e ∈ qz '"' rest, e ≠ '\'' := by
                intro e he
                rcases mem_qz '"' rest e he with h2 | h2
                · exact hrest e h2
                · rw [h2]
                  decide
              have hsp2 : t = B1 ++ ('\'' :: (B2 ++ '"' :: rest)) := by
                rw [hsp, hBeq, List.append_assoc, List.cons_append]
              have hB2all : ∀ e ∈ B2 ++ '"' :: rest, e ≠ '\'' := by
                intro e he
                rcases List.mem_append.mp he with h2 | h2
                · exact hB2 e h2
                · rcases List.mem_cons.mp h2 with rfl | h2
                  · decide
                  · exact hrest e h2
              have hSQt : replQuote '\'' t =
                  (replQuote '\'' B1 ++ '\'' :: B2) ++ '"' :: rest := by
                conv_lhs => rw [hsp2]
                rw [replQuote_append_closed hcl1,
                  replQuote_open rfl (List.dropWhile_eq_nil_iff.mpr
                    (fun e he => by simp [hB2all e he])),
                  ← List.cons_append, ← List.append_assoc]
              have hU : ∀ e ∈ replQuote '\'' B1 ++ '\'' :: B2, e ≠ '"' := by
                intro e he
                rcases List.mem_append.mp he with h2 | h2
                · rcases mem_replQuote '\'' B1 e h2 with h4 | h4
                  · refine hBq e ?_
                    rw [hBeq]
                    exact List.mem_append.mpr (Or.inl h4)
                  · rw [h4]
                    decide
                · rcases List.mem_cons.mp h2 with rfl | h2
                  · decide
                  · refine hBq e ?_
                    rw [hBeq]
                    exact List.mem_append.mpr (Or.inr (List.mem_cons_of_mem _ h2))
              rw [replQuote_id_of_nq hqzrest, replQuote_qz, hSQt,
                replQuote_pair rfl (dropWhile_to_q hU _)]
        · have hwt : sEmptiedB t = true := by
            rw [sEmptiedB_pass hcS] at hw
            exact hw
          rw [qz_pass t hcD, replQuote_pass _ hcS, replQuote_pass _ hcS,
            replQuote_pass _ hcD, replQuote_pass _ hcD,
            ih t.length (by simp only [List.length_cons]; omega) rfl hwt]

/-! #### Instances of the commutation lemmas at the two quote characters -/

theorem collapseWS_qzS (x : Cs) :
    collapseWS (qz '\'' x) = qz '\'' (collapseWS x) :=
  collapseWS_qz (by decide) x

theorem collapseWS_qzD (x : Cs) :
    collapseWS (qz '"' x) = qz '"' (collapseWS x) :=
  collapseWS_qz (by decide) x

theorem trimStr_qzS (x : Cs) :
    trimStr (qz '\'' x) = qz '\'' (trimStr x) :=
  trimStr_qz (by decide) x

theorem trimStr_qzD (x : Cs) :
    trimStr (qz '"' x) = qz '"' (trimStr x) :=
  trimStr_qz (by decide) x

theorem toLowerStr_qzS (x : Cs) :
    toLowerStr (qz '\'' x) = qz '\'' (toLowerStr x) :=
  toLowerStr_qz (by decide) x

theorem toLowerStr_qzD (x : Cs) :
    toLowerStr (qz '"' x) = qz '"' (toLowerStr x) :=
  toLowerStr_qz (by decide) x

theorem replEq_qzS (w : Cs) : replEq (qz '\'' w) = qz '\'' (replEq w) :=
  replAround_qz '=' [' ', '=', ' '] (by decide) (by decide) (by decide)
    (by decide) w

theorem replEq_qzD (w : Cs) : replEq (qz '"' w) = qz '"' (replEq w) :=
  replAround_qz '=' [' ', '=', ' '] (by decide) (by decide) (by decide)
    (by decide) w

theorem replComma_qzS (w : Cs) : replComma (qz '\'' w) = qz '\'' (replComma w) :=
  replAround_qz ',' [',', ' '] (by decide) (by decide) (by decide)
    (by decide) w

theorem replComma_qzD (w : Cs) : replComma (qz '"' w) = qz '"' (replComma w) :=
  replAround_qz ',' [',', ' '] (by decide) (by decide) (by decide)
    (by decide) w

theorem replDigits_qzS (w : Cs) :
    replDigits (qz '\'' w) = qz '\'' (replDigits w) :=
  replDigits_qz (by decide) (by decide) w

theorem replDigits_qzD (w : Cs) :
    replDigits (qz '"' w) = qz '"' (replDigits w) :=
  replDigits_qz (by decide) (by decide) w

/-- Emptying all quoted literals first does not change the normalized
form: the pipeline's own quote-replacement steps absorb it. -/
theorem normalizeQuery_qz2 (x : Cs) :
    normalizeQuery (qz '"' (qz '\'' x)) = normalizeQuery x := by
  unfold normalizeQuery
  rw [collapseWS_qzD, collapseWS_qzS, trimStr_qzD, trimStr_qzS,
    toLowerStr_qzD, toLowerStr_qzS, replEq_qzD, replEq_qzS,
    replComma_qzD, replComma_qzS, collapseWS_qzD, collapseWS_qzS,
    replDigits_qzD, replDigits_qzS,
    replQuote_interchange (sEmptiedB_qz _), replQuote_qz]

/-! ### Claim C1 -/

/-- The two raw statements differ only in letter case: lower-casing both
makes them equal. -/
def caseEq (x y : Cs) : Prop := toLowerStr x = toLowerStr y

/-- The two raw statements differ only in incidental whitespace (runs of
spaces, tabs, newlines, carriage returns): they have the same
whitespace-separated words. -/
def wsEq (x y : Cs) : Prop := wordsBy ws4 x = wordsBy ws4 y

/-- The two raw statements differ only in the values of their decimal
numeric literals: replacing every maximal digit run by a fixed canonical
digit makes them equal. -/
def numEq (x y : Cs) : Prop := dz x = dz y

/-- The two raw statements differ only in the contents of their single-
or double-quoted string literals: emptying every quoted literal makes
them equal. -/
def quoteEq (x y : Cs) : Prop := qz '"' (qz '\'' x) = qz '"' (qz '\'' y)

/-- C1: for every pair of raw statement strings that differ only in
letter case, in incidental whitespace, in the value of decimal numeric
literals, or in the contents of single- or double-quoted string
literals, `normalizeQuery` returns the same normalized string for
both. -/
theorem claim_C1 (x y : Cs)
    (h : caseEq x y ∨ wsEq x y ∨ numEq x y ∨ quoteEq x y) :
    normalizeQuery x = normalizeQuery y := by
  rcases h with h | h | h | h
  · rw [← normalizeQuery_toLowerStr x, ← normalizeQuery_toLowerStr y, h]
  · exact normalizeQuery_of_words4 h
  · rw [← normalizeQuery_dz x, ← normalizeQuery_dz y, h]
  · rw [← normalizeQuery_qz2 x, ← normalizeQuery_qz2 y, h]

/-- Closed instance of C1 on a concrete pair differing only in a quoted
literal's contents. -/
theorem claim_C1_witness :
    (caseEq "SELECT 'abc' FROM t;".toList "select 'ABC' from T;".toList ∨
      wsEq "SELECT 'abc' FROM t;".toList "select 'ABC' from T;".toList ∨
      numEq "SELECT 'abc' FROM t;".toList "select 'ABC' from T;".toList ∨
      quoteEq "SELECT 'abc' FROM t;".toList "select 'ABC' from T;".toList) ∧
    normalizeQuery "SELECT 'abc' FROM t;".toList =
      normalizeQuery "select 'ABC' from T;".toList :=
  ⟨Or.inl (by unfold caseEq; decide), claim_C1 _ _
    (Or.inl (by unfold caseEq; decide))⟩

/-! ### Claim C4: the gapped-token normal form of normalized output -/

/-- A run of spaces. -/
def sps (n : Nat) : Cs := List.replicate n ' '

/-- Tokens of a whitespace-normalized string: the four characters the
spacing steps of `normalizeQuery` anchor on, and maximal runs of other
non-whitespace characters. -/
inductive Tok where
  | eq
  | com
  | lp
  | rp
  | word (w : Cs)
deriving DecidableEq

/-- The characters of one token. -/
def tbody : Tok → Cs
  | .eq => ['=']
  | .com => [',']
  | .lp => ['(']
  | .rp => [')']
  | .word w => w

/-- A string as tokens, each followed by a gap of spaces. -/
def flatL : List (Tok × Nat) → Cs
  | [] => []
  | (t, g) :: l => tbody t ++ sps g ++ flatL l

/-- A string as a leading gap followed by gapped tokens. -/
def flat (g0 : Nat) (l : List (Tok × Nat)) : Cs := sps g0 ++ flatL l

/-- Gap rewriting done by one `\s*X\s*` replacement pass whose
replacement is `lam` spaces, the anchor, `tau` spaces: a gap adjacent to
an anchor on the left becomes `tau`, on the right `lam`, on both
`tau + lam`; other gaps are untouched. -/
def reGapL (A : Tok → Bool) (lam tau : Nat) : List (Tok × Nat) → List (Tok × Nat)
  | [] => []
  | [(t, g)] => [(t, if A t then tau else g)]
  | (t, g) :: (u, g2) :: l =>
    (t, if A t then
          if A u then tau + lam else tau
        else
          if A u then lam else g) :: reGapL A lam tau ((u, g2) :: l)

/-- The leading gap after one replacement pass. -/
def reGap0 (A : Tok → Bool) (lam : Nat) (g0 : Nat) :
    List (Tok × Nat) → Nat
  | [] => g0
  | (t, _) :: _ => if A t then lam else g0

/-- Gap rewriting done by whitespace collapsing. -/
def min1L : List (Tok × Nat) → List (Tok × Nat) :=
  List.map (fun p => (p.1, min p.2 1))

/-- Zero the final gap (the effect of trimming on the right). -/
def lastZ : List (Tok × Nat) → List (Tok × Nat)
  | [] => []
  | [(t, _)] => [(t, 0)]
  | p :: l => p :: lastZ l

theorem sps_all_ws : ∀ c ∈ sps n, ws5 c = true := by
  intro c hc
  rw [List.eq_of_mem_replicate hc]
  rfl

theorem sps_all_sp : ∀ c ∈ sps n, c = ' ' := by
  intro c hc
  exact List.eq_of_mem_replicate hc

theorem sps_append (a b : Nat) : sps a ++ sps b = sps (a + b) := by
  unfold sps
  rw [← List.replicate_add]

theorem sps_succ (n : Nat) : sps (n + 1) = ' ' :: sps n := rfl

theorem replAround_all_ws (x : Char) (r : Cs) {v : Cs}
    (hv : ∀ c ∈ v, ws5 c = true) (hx : ws5 x = false) :
    replAround x r v = v := by
  cases v with
  | nil => rfl
  | cons c t =>
    have hc : ws5 c = true := hv c (List.mem_cons_self _ _)
    have hcx : c ≠ x := by
      intro he
      rw [he, hx] at hc
      cases hc
    rw [replAround_ws_nil r hc hcx (List.dropWhile_eq_nil_iff.mpr
        (fun d hd => hv d (List.mem_cons_of_mem _ hd))),
      takeWhile_eq_self_of_all
        (fun d hd => hv d (List.mem_cons_of_mem _ hd))]

theorem dropWhile_sps (g : Nat) (v : Cs) :
    (sps g ++ v).dropWhile ws5 = v.dropWhile ws5 :=
  dropWhile_append_of_all sps_all_ws

theorem replAround_sps_anchor (x : Char) (r : Cs) (hx : ws5 x = false)
    (g : Nat) (v : Cs) : replAround x r (sps g ++ x :: v) =
      r ++ replAround x r (v.dropWhile ws5) := by
  cases g with
  | zero => exact replAround_anchor x r v
  | succ n =>
    rw [sps_succ, List.cons_append]
    exact replAround_ws_anchor r (show ws5 ' ' = true from rfl) (by
        intro he
        rw [← he] at hx
        exact absurd hx (by decide))
      (by rw [dropWhile_sps, List.dropWhile_cons, if_neg (by simp [hx])])

theorem replAround_sps_pass (x : Char) (r : Cs) (hx : ws5 x = false)
    {v : Cs} (hv : ∀ h, v.head? = some h → ws5 h = false ∧ h ≠ x)
    (g : Nat) : replAround x r (sps g ++ v) = sps g ++ replAround x r v := by
  cases g with
  | zero => rfl
  | succ n =>
    rw [sps_succ, List.cons_append]
    have hsp : (' ' : Char) ≠ x := by
      intro he
      rw [← he] at hx
      exact absurd hx (by decide)
    cases v with
    | nil =>
      rw [List.append_nil,
        replAround_ws_nil r (show ws5 ' ' = true from rfl) hsp
          (List.dropWhile_eq_nil_iff.mpr (fun d hd => sps_all_ws d hd)),
        takeWhile_eq_self_of_all (fun d hd => sps_all_ws d hd)]
      have e : replAround x r [] = [] := rfl
      rw [e, List.append_nil]
    | cons h v2 =>
      obtain ⟨hw, hxh⟩ := hv h rfl
      have hdw : (sps n ++ h :: v2).dropWhile ws5 = h :: v2 := by
        rw [dropWhile_sps, List.dropWhile_cons, if_neg (by simp [hw])]
      rw [replAround_ws_other r (show ws5 ' ' = true from rfl) hsp hdw hxh,
        takeWhile_append_of_all (fun d hd => sps_all_ws d hd),
        takeWhile_eq_nil_of_hdNot (hdNot_cons hw), List.append_nil]

theorem replAround_append_pass (x : Char) (r : Cs) {w : Cs}
    (hw : ∀ c ∈ w, ws5 c = false ∧ c ≠ x) (v : Cs) :
    replAround x r (w ++ v) = w ++ replAround x r v := by
  induction w with
  | nil => rfl
  | cons c t ih =>
    obtain ⟨h1, h2⟩ := hw c (List.mem_cons_self _ _)
    rw [List.cons_append, replAround_pass r h1 h2,
      ih (fun c hc => hw c (List.mem_cons_of_mem _ hc)), List.cons_append]

theorem collapseWS_append_nws {w : Cs} (hw : ∀ c ∈ w, ws5 c = false)
    (v : Cs) : collapseWS (w ++ v) = w ++ collapseWS v := by
  induction w with
  | nil => rfl
  | cons c t ih =>
    rw [List.cons_append, collapseWS_cons,
      if_neg (by simp [hw c (List.mem_cons_self _ _)]),
      ih (fun c hc => hw c (List.mem_cons_of_mem _ hc)), List.cons_append]

theorem collapseWS_sps {v : Cs} (hv : ∀ h, v.head? = some h → ws5 h = false)
    (g : Nat) : collapseWS (sps g ++ v) = sps (min g 1) ++ collapseWS v := by
  cases g with
  | zero => rfl
  | succ n =>
    rw [sps_succ, List.cons_append, collapseWS_cons,
      if_pos (show ws5 ' ' = true from rfl)]
    have hmin : min (n + 1) 1 = 1 := by omega
    rw [hmin]
    cases v with
    | nil =>
      rw [List.append_nil, List.dropWhile_eq_nil_iff.mpr
        (fun d hd => sps_all_ws d hd)]
      rfl
    | cons h v2 =>
      have hw : ws5 h = false := hv h rfl
      have hdw : (sps n ++ h :: v2).dropWhile ws5 = h :: v2 := by
        rw [dropWhile_sps, List.dropWhile_cons, if_neg (by simp [hw])]
      rw [hdw]
      rfl

theorem sps_zero : sps 0 = [] := rfl

theorem sps_append_assoc (a b : Nat) (v : Cs) :
    sps a ++ (sps b ++ v) = sps (a + b) ++ v := by
  rw [← List.append_assoc, sps_append]

theorem replAround_nil (x : Char) (r : Cs) : replAround x r [] = [] := rfl

theorem flatL_cons (t : Tok) (g : Nat) (l : List (Tok × Nat)) :
    flatL ((t, g) :: l) = tbody t ++ (sps g ++ flatL l) := by
  show tbody t ++ sps g ++ flatL l = _
  rw [List.append_assoc]

theorem flat_zero (l : List (Tok × Nat)) : flat 0 l = flatL l := rfl

theorem bool_false_of_not_true {b : Bool} (h : ¬ b = true) : b = false := by
  revert h
  cases b <;> simp

/-- One `\s*X\s*` replacement pass on a flat gapped-token string rewrites
exactly the gaps adjacent to anchor tokens, as described by `reGapL` and
`reGap0`. -/
theorem replAround_flat (x : Char) (lam tau : Nat) (A : Tok → Bool)
    (hx : ws5 x = false) (l : List (Tok × Nat))
    (hl : ∀ p ∈ l, (A p.1 = true → tbody p.1 = [x]) ∧
      (A p.1 = false → tbody p.1 ≠ [] ∧
        ∀ c ∈ tbody p.1, ws5 c = false ∧ c ≠ x)) :
    ∀ g0, replAround x (sps lam ++ x :: sps tau) (flat g0 l) =
      flat (reGap0 A lam g0 l) (reGapL A lam tau l) := by
  induction l with
  | nil =>
    intro g0
    rw [flat, flatL, List.append_nil,
      replAround_all_ws x _ sps_all_ws hx]
    simp [flat, flatL, reGap0, reGapL]
  | cons p l ih =>
    obtain ⟨t, g⟩ := p
    have hp := hl (t, g) (List.mem_cons_self _ _)
    have ih2 := ih (fun q hq2 => hl q (List.mem_cons_of_mem _ hq2))
    intro g0
    by_cases hA : A t = true
    · -- anchor token first
      have hb : tbody t = [x] := hp.1 hA
      rw [flat, flatL_cons, hb, List.singleton_append,
        replAround_sps_anchor x _ hx g0, dropWhile_sps]
      cases l with
      | nil =>
        simp only [flatL, List.dropWhile_nil, replAround_nil]
        simp [flat, flatL_cons, flatL, reGap0, reGapL, hA, hb,
          List.append_assoc]
      | cons q l2 =>
        obtain ⟨u, g2⟩ := q
        have hq := hl (u, g2)
          (List.mem_cons_of_mem _ (List.mem_cons_self _ _))
        have e2 := ih2 0
        rw [flat_zero] at e2
        by_cases hAu : A u = true
        · have hbu : tbody u = [x] := hq.1 hAu
          have hdw : (flatL ((u, g2) :: l2)).dropWhile ws5 =
              flatL ((u, g2) :: l2) := by
            rw [flatL_cons, hbu, List.cons_append, List.dropWhile_cons,
              if_neg (by simp [hx])]
          rw [hdw, e2]
          simp [flat, flatL_cons, reGap0, reGapL, hA, hAu, hb,
            List.append_assoc, sps_append_assoc]
        · have hAu2 : A u = false := bool_false_of_not_true hAu
          obtain ⟨hne, hall⟩ := hq.2 hAu2
          cases hbu : tbody u with
          | nil => exact absurd hbu hne
          | cons c2 w3 =>
            have hc2 := hall c2 (by rw [hbu]; exact List.mem_cons_self _ _)
            have hdw : (flatL ((u, g2) :: l2)).dropWhile ws5 =
                flatL ((u, g2) :: l2) := by
              rw [flatL_cons, hbu, List.cons_append, List.dropWhile_cons,
                if_neg (by simp [hc2.1])]
            rw [hdw, e2]
            simp [flat, flatL_cons, reGap0, reGapL, hA, hAu2, hb,
              List.append_assoc, sps_append_assoc, sps_zero]
    · -- non-anchor token first
      have hA2 : A t = false := bool_false_of_not_true hA
      obtain ⟨hne, hall⟩ := hp.2 hA2
      cases hb : tbody t with
      | nil => exact absurd hb hne
      | cons c w2 =>
        have hc := hall c (by rw [hb]; exact List.mem_cons_self _ _)
        have hw : ∀ d ∈ (c :: w2 : Cs), ws5 d = false ∧ d ≠ x := by
          intro d hd
          exact hall d (by rw [hb]; exact hd)
        have hv1 : ∀ h, (((c :: w2) ++ (sps g ++ flatL l)) : Cs).head? =
            some h → ws5 h = false ∧ h ≠ x := by
          intro h e
          rw [List.cons_append] at e
          cases e
          exact hc
        rw [flat, flatL_cons, hb, replAround_sps_pass x _ hx hv1 g0,
          replAround_append_pass x _ hw]
        cases l with
        | nil =>
          simp only [flatL, List.append_nil]
          rw [replAround_all_ws x _ sps_all_ws hx]
          simp [flat, flatL_cons, flatL, reGap0, reGapL, hA2, hb,
            List.append_assoc]
        | cons q l2 =>
          obtain ⟨u, g2⟩ := q
          have hq := hl (u, g2)
            (List.mem_cons_of_mem _ (List.mem_cons_self _ _))
          have e2 := ih2 0
          rw [flat_zero] at e2
          by_cases hAu : A u = true
          · have hbu : tbody u = [x] := hq.1 hAu
            rw [flatL_cons, hbu, List.singleton_append] at e2 ⊢
            rw [replAround_sps_anchor x _ hx g, dropWhile_sps]
            rw [replAround_anchor, dropWhile_sps] at e2
            rw [e2]
            simp [flat, flatL_cons, reGap0, reGapL, hA2, hAu, hb,
              List.append_assoc]
          · have hAu2 : A u = false := bool_false_of_not_true hAu
            obtain ⟨hne2, hall2⟩ := hq.2 hAu2
            cases hbu : tbody u with
            | nil => exact absurd hbu hne2
            | cons c2 w3 =>
              have hc2 := hall2 c2
                (by rw [hbu]; exact List.mem_cons_self _ _)
              have hv2 : ∀ h, (flatL ((u, g2) :: l2)).head? = some h →
                  ws5 h = false ∧ h ≠ x := by
                intro h e
                rw [flatL_cons, hbu, List.cons_append] at e
                cases e
                exact hc2
              rw [replAround_sps_pass x _ hx hv2 g, e2]
              simp [flat, flatL_cons, reGap0, reGapL, hA2, hAu2, hb,
                List.append_assoc, sps_zero]

/-- Whitespace collapsing on a flat gapped-token string caps every gap at
one space. -/
theorem collapseWS_flat (l : List (Tok × Nat))
    (hl : ∀ p ∈ l, tbody p.1 ≠ [] ∧ ∀ c ∈ tbody p.1, ws5 c = false) :
    ∀ g0, collapseWS (flat g0 l) = flat (min g0 1) (min1L l) := by
  induction l with
  | nil =>
    intro g0
    have e := @collapseWS_sps [] (fun h e => by cases e) g0
    rw [List.append_nil, collapseWS_nil, List.append_nil] at e
    rw [flat, flatL, List.append_nil, e]
    simp [flat, flatL, min1L]
  | cons p l ih =>
    obtain ⟨t, g⟩ := p
    have hp := hl (t, g) (List.mem_cons_self _ _)
    have ih2 := ih (fun q hq2 => hl q (List.mem_cons_of_mem _ hq2))
    intro g0
    obtain ⟨hne, hall⟩ := hp
    cases hb : tbody t with
    | nil => exact absurd hb hne
    | cons c w2 =>
      have hc := hall c (by rw [hb]; exact List.mem_cons_self _ _)
      have hv1 : ∀ h, (((c :: w2) ++ (sps g ++ flatL l)) : Cs).head? =
          some h → ws5 h = false := by
        intro h e
        rw [List.cons_append] at e
        cases e
        exact hc
      have hw : ∀ d ∈ (c :: w2 : Cs), ws5 d = false := by
        intro d hd
        exact hall d (by rw [hb]; exact hd)
      rw [flat, flatL_cons, hb, collapseWS_sps hv1 g0,
        collapseWS_append_nws hw]
      cases l with
      | nil =>
        simp only [flatL, List.append_nil]
        have e := @collapseWS_sps [] (fun h e => by cases e) g
        rw [List.append_nil, collapseWS_nil, List.append_nil] at e
        rw [e]
        simp [flat, flatL_cons, flatL, min1L, hb, List.append_assoc]
      | cons q l2 =>
        obtain ⟨u, g2⟩ := q
        have hq := hl (u, g2)
          (List.mem_cons_of_mem _ (List.mem_cons_self _ _))
        obtain ⟨hne2, hall2⟩ := hq
        cases hbu : tbody u with
        | nil => exact absurd hbu hne2
        | cons c2 w3 =>
          have hc2 := hall2 c2 (by rw [hbu]; exact List.mem_cons_self _ _)
          have hv2 : ∀ h, (flatL ((u, g2) :: l2)).head? = some h →
              ws5 h = false := by
            intro h e
            rw [flatL_cons, hbu, List.cons_append] at e
            cases e
            exact hc2
          have e2 := ih2 0
          rw [flat_zero] at e2
          rw [collapseWS_sps hv2 g, e2]
          simp [flat, flatL_cons, min1L, hb, List.append_assoc,
            Nat.zero_min, flat_zero, sps_zero]

/-- The gap after the final token. -/
def lastGap : List (Tok × Nat) → Nat
  | [] => 0
  | [(_, g)] => g
  | _ :: l => lastGap l

/-- The final token, if any. -/
def lastTok : List (Tok × Nat) → Option Tok
  | [] => none
  | [(t, _)] => some t
  | _ :: l => lastTok l

theorem sps_all_gs : ∀ c ∈ sps n, goIsSpace c = true := by
  intro c hc
  rw [List.eq_of_mem_replicate hc]
  rfl

theorem flatL_split_last : ∀ l : List (Tok × Nat),
    flatL l = flatL (lastZ l) ++ sps (lastGap l)
  | [] => by simp [flatL, lastZ, lastGap, sps_zero]
  | [(t, g)] => by
    simp [flatL, lastZ, lastGap, flatL_cons, sps_zero, List.append_assoc]
  | (t, g) :: (u, g2) :: l => by
    have ih := flatL_split_last ((u, g2) :: l)
    have e1 : lastZ ((t, g) :: (u, g2) :: l) =
        (t, g) :: lastZ ((u, g2) :: l) := rfl
    have e2 : lastGap ((t, g) :: (u, g2) :: l) = lastGap ((u, g2) :: l) := rfl
    rw [flatL_cons, ih, e1, e2, flatL_cons]
    simp [List.append_assoc]

theorem flatL_ne_nil {t : Tok} (g : Nat) (l : List (Tok × Nat))
    (ht : tbody t ≠ []) : flatL ((t, g) :: l) ≠ [] := by
  rw [flatL_cons]
  cases hb : tbody t with
  | nil => exact absurd hb ht
  | cons c w => simp

theorem head?_flatL {t : Tok} (g : Nat) (l : List (Tok × Nat))
    (ht : tbody t ≠ []) : (flatL ((t, g) :: l)).head? = (tbody t).head? := by
  rw [flatL_cons]
  cases hb : tbody t with
  | nil => exact absurd hb ht
  | cons c w => simp

theorem lastZ_ne_nil {l : List (Tok × Nat)} (h : l ≠ []) : lastZ l ≠ [] := by
  cases l with
  | nil => exact absurd rfl h
  | cons p l2 =>
    obtain ⟨t, g⟩ := p
    cases l2 <;> simp [lastZ]

theorem lastZ_cons_head (v : Tok) (g2 : Nat) (l : List (Tok × Nat)) :
    ∃ g3 l3, lastZ ((v, g2) :: l) = (v, g3) :: l3 := by
  cases l with
  | nil => exact ⟨0, [], rfl⟩
  | cons r l4 => exact ⟨g2, lastZ (r :: l4), rfl⟩

theorem getLast?_flatL : ∀ (l : List (Tok × Nat)),
    (∀ p ∈ l, tbody p.1 ≠ []) → ∀ t, lastTok l = some t →
      (flatL (lastZ l)).getLast? = (tbody t).getLast?
  | [], _, t, ht => by cases ht
  | [(u, g)], hl, t, ht => by
    have hu : u = t := by
      simp [lastTok] at ht
      exact ht
    subst hu
    simp [lastZ, flatL_cons, flatL, sps_zero]
  | (u, g) :: (v, g2) :: l, hl, t, ht => by
    have ih := getLast?_flatL ((v, g2) :: l)
      (fun p hp => hl p (List.mem_cons_of_mem _ hp)) t ht
    obtain ⟨g3, l3, hz⟩ := lastZ_cons_head v g2 l
    have hv : tbody v ≠ [] :=
      hl (v, g2) (List.mem_cons_of_mem _ (List.mem_cons_self _ _))
    have hnn : flatL (lastZ ((v, g2) :: l)) ≠ [] := by
      rw [hz]
      exact flatL_ne_nil g3 l3 hv
    have e1 : lastZ ((u, g) :: (v, g2) :: l) =
        (u, g) :: lastZ ((v, g2) :: l) := rfl
    rw [e1, flatL_cons,
      List.getLast?_append_of_ne_nil _ (by
        intro he
        exact hnn (List.append_eq_nil.mp he).2),
      List.getLast?_append_of_ne_nil _ hnn, ih]

/-- Every character of a flat string is a space or a token-body character. -/
theorem mem_flatL : ∀ (l : List (Tok × Nat)), ∀ c ∈ flatL l,
    c = ' ' ∨ ∃ p ∈ l, c ∈ tbody p.1
  | [], c, hc => by cases hc
  | (t, g) :: l, c, hc => by
    rw [flatL_cons] at hc
    rcases List.mem_append.mp hc with h | h
    · exact Or.inr ⟨(t, g), List.mem_cons_self _ _, h⟩
    · rcases List.mem_append.mp h with h2 | h2
      · exact Or.inl (sps_all_sp c h2)
      · rcases mem_flatL l c h2 with h3 | ⟨p, hp, hp2⟩
        · exact Or.inl h3
        · exact Or.inr ⟨p, List.mem_cons_of_mem _ hp, hp2⟩

theorem reGapL_map_fst (A : Tok → Bool) (lam tau : Nat) :
    ∀ l : List (Tok × Nat), (reGapL A lam tau l).map Prod.fst = l.map Prod.fst
  | [] => rfl
  | [(t, g)] => rfl
  | (t, g) :: (u, g2) :: l => by
    have e : reGapL A lam tau ((t, g) :: (u, g2) :: l) =
        (t, if A t then
              if A u then tau + lam else tau
            else
              if A u then lam else g) :: reGapL A lam tau ((u, g2) :: l) := rfl
    rw [e]
    simp only [List.map_cons]
    rw [reGapL_map_fst A lam tau ((u, g2) :: l)]
    simp

theorem min1L_map_fst (l : List (Tok × Nat)) :
    (min1L l).map Prod.fst = l.map Prod.fst := by
  unfold min1L
  rw [List.map_map]
  rfl

theorem lastZ_map_fst : ∀ l : List (Tok × Nat),
    (lastZ l).map Prod.fst = l.map Prod.fst
  | [] => rfl
  | [(t, g)] => rfl
  | (t, g) :: (u, g2) :: l => by
    have e : lastZ ((t, g) :: (u, g2) :: l) =
        (t, g) :: lastZ ((u, g2) :: l) := rfl
    rw [e]
    simp only [List.map_cons]
    rw [lastZ_map_fst ((u, g2) :: l)]
    simp

theorem lastTok_eq_of_map_fst : ∀ {l l2 : List (Tok × Nat)},
    l.map Prod.fst = l2.map Prod.fst → lastTok l = lastTok l2
  | [], [], _ => rfl
  | [], (q2 :: l4), h => by cases h
  | (q :: l3), [], h => by cases h
  | (p :: l3), (q :: l4), h => by
    obtain ⟨t, g⟩ := p
    obtain ⟨u, g2⟩ := q
    simp only [List.map_cons, List.cons.injEq] at h
    have ih := lastTok_eq_of_map_fst h.2
    cases l3 with
    | nil =>
      cases l4 with
      | nil => simp [lastTok, h.1]
      | cons r l5 => cases h.2
    | cons r l5 =>
      cases l4 with
      | nil => cases h.2
      | cons r2 l6 => exact ih

/-- Trimming a flat string removes exactly the leading gap and the gap
after the final token. -/
theorem trimStr_flat (g0 : Nat) (l : List (Tok × Nat))
    (h1 : hdNot goIsSpace (flatL (lastZ l)))
    (h2 : hdNot goIsSpace (flatL (lastZ l)).reverse) :
    trimStr (flat g0 l) = flat 0 (lastZ l) := by
  rw [flat, trimStr_append_left sps_all_gs, flatL_split_last l,
    trimStr_append_right sps_all_gs, trimStr_eq_self h1 h2, flat_zero]

/-- Lower-casing is the identity on a string of lower-case-fixed
characters. -/
theorem toLowerStr_id {u : Cs} (hu : ∀ c ∈ u, goLower c = c) :
    toLowerStr u = u := by
  induction u with
  | nil => rfl
  | cons c t ih =>
    show goLower c :: toLowerStr t = c :: t
    rw [hu c (List.mem_cons_self _ _),
      ih (fun d hd => hu d (List.mem_cons_of_mem _ hd))]

/-- Digit substitution is the identity on a digit-free string. -/
theorem replDigits_id {u : Cs} (hu : ∀ c ∈ u, isDigitA c = false) :
    replDigits u = u := by
  induction u with
  | nil => rfl
  | cons c t ih =>
    rw [replDigits_cons, if_neg (by simp [hu c (List.mem_cons_self _ _)]),
      ih (fun d hd => hu d (List.mem_cons_of_mem _ hd))]

/-- The four characters the spacing replacement passes anchor on. -/
def isSpecial (c : Char) : Bool := c = '=' || c = ',' || c = '(' || c = ')'

/-- Characters forming word tokens: neither whitespace nor special. -/
def wordCh (c : Char) : Bool := !ws5 c && !isSpecial c

/-- Well-formedness of one token: word bodies are non-empty strings of
word characters. -/
def wordOK : Tok → Prop
  | .word w => w ≠ [] ∧ ∀ c ∈ w, wordCh c = true
  | _ => True

/-- The token of one special character. -/
def tokOf (c : Char) : Tok :=
  if c = '=' then .eq else if c = ',' then .com
  else if c = '(' then .lp else .rp

theorem tbody_tokOf {c : Char} (hc : isSpecial c = true) :
    tbody (tokOf c) = [c] := by
  unfold isSpecial at hc
  unfold tokOf
  by_cases h1 : c = '='
  · rw [if_pos h1, h1]; rfl
  · rw [if_neg h1]
    by_cases h2 : c = ','
    · rw [if_pos h2, h2]; rfl
    · rw [if_neg h2]
      by_cases h3 : c = '('
      · rw [if_pos h3, h3]; rfl
      · rw [if_neg h3]
        have h4 : c = ')' := by
          simp [h1, h2, h3] at hc
          exact hc
        rw [h4]; rfl

theorem wordOK_tokOf (c : Char) : wordOK (tokOf c) := by
  unfold tokOf
  by_cases h1 : c = '='
  · rw [if_pos h1]; trivial
  · rw [if_neg h1]
    by_cases h2 : c = ','
    · rw [if_pos h2]; trivial
    · rw [if_neg h2]
      by_cases h3 : c = '('
      · rw [if_pos h3]; trivial
      · rw [if_neg h3]; trivial

theorem gap_split {t2 : Cs} (hsp : ∀ c ∈ t2, ws5 c = true → c = ' ') :
    t2 = sps (t2.takeWhile ws5).length ++ t2.dropWhile ws5 := by
  have e0 : t2.takeWhile ws5 ++ t2.dropWhile ws5 = t2 := by
    simp [List.takeWhile_append_dropWhile]
  have e1 : t2.takeWhile ws5 = sps (t2.takeWhile ws5).length := by
    apply List.eq_replicate_of_mem
    intro b hb
    have hbw : ws5 b = true := List.mem_takeWhile_imp hb
    have hbm : b ∈ t2 := (List.takeWhile_sublist ws5).mem hb
    exact hsp b hbm hbw
  rw [← e1, e0]

theorem last_ws_contra {σ : Cs} (h2 : hdNot ws5 σ.reverse) {a b : Cs}
    (he : σ = a ++ b) (hbn : b ≠ [])
    (hball : ∀ d ∈ b, ws5 d = true) : False := by
  cases hlast : b.getLast? with
  | none => exact hbn (List.getLast?_eq_none_iff.mp hlast)
  | some d =>
    have hd : d ∈ b := by
      have hm : d ∈ b.reverse :=
        List.mem_of_mem_head? (by rw [List.head?_reverse, hlast]; rfl)
      exact List.mem_reverse.mp hm
    have := h2 d (by
      rw [List.head?_reverse, he, List.getLast?_append_of_ne_nil _ hbn,
        hlast])
    rw [hball d hd] at this
    cases this

theorem hdNot_reverse_of_suffix {σ r : Cs} (h2 : hdNot ws5 σ.reverse)
    (hs : r.IsSuffix σ) (hr : r ≠ []) : hdNot ws5 r.reverse := by
  intro d hd
  apply h2 d
  rw [List.head?_reverse] at hd ⊢
  obtain ⟨w, hw⟩ := hs
  rw [← hw, List.getLast?_append_of_ne_nil _ hr, hd]

/-- Every whitespace-canonical string (whitespace only as spaces, none at
either end) is a flat gapped-token string of well-formed tokens with no
trailing gap. -/
theorem flat_decomp (σ : Cs) (hsp : ∀ c ∈ σ, ws5 c = true → c = ' ')
    (h1 : hdNot ws5 σ) (h2 : hdNot ws5 σ.reverse) :
    ∃ l, σ = flat 0 l ∧ lastZ l = l ∧ ∀ p ∈ l, wordOK p.1 := by
  generalize hn : σ.length = n
  induction n using Nat.strong_induction_on generalizing σ with
  | _ n ih =>
    cases σ with
    | nil => exact ⟨[], rfl, rfl, fun p hp => absurd hp (List.not_mem_nil p)⟩
    | cons c t =>
      have hcw : ws5 c = false := h1 c rfl
      by_cases hcs : isSpecial c = true
      · -- a special character starts its own token
        have hb : tbody (tokOf c) = [c] := tbody_tokOf hcs
        by_cases hr : t.dropWhile ws5 = []
        · -- everything after c is whitespace; by the trim invariant, none
          cases ht : t with
          | cons d t3 =>
            rw [ht] at hr h2
            exact (last_ws_contra h2 (List.singleton_append).symm (by simp)
              (all_of_dropWhile_eq_nil hr)).elim
          | nil =>
            refine ⟨[(tokOf c, 0)], ?_, rfl, ?_⟩
            · rw [flat_zero, flatL_cons, hb, sps_zero]
              rfl
            · intro p hp
              rcases List.mem_singleton.mp hp with h
              rw [h]
              exact wordOK_tokOf c
        · -- decompose the gap after c, recurse on the rest
          have hrsp : ∀ d ∈ t.dropWhile ws5, ws5 d = true → d = ' ' :=
            fun d hd => hsp d (List.mem_cons_of_mem _
              ((List.dropWhile_sublist ws5).mem hd))
          have hr1 : hdNot ws5 (t.dropWhile ws5) := hdNot_dropWhile ws5 t
          have hr2 : hdNot ws5 (t.dropWhile ws5).reverse :=
            hdNot_reverse_of_suffix h2
              ((List.dropWhile_suffix ws5).trans (List.suffix_cons c t)) hr
          obtain ⟨l', e', z', w'⟩ := ih (t.dropWhile ws5).length (by
              have hd : (t.dropWhile ws5).length ≤ t.length :=
                length_dropWhile_le' ws5 t
              have h5 : (c :: t).length = t.length + 1 := by simp
              omega) _ hrsp hr1 hr2 rfl
          refine ⟨(tokOf c, (t.takeWhile ws5).length) :: l', ?_, ?_, ?_⟩
          · rw [flat_zero, flatL_cons, hb, List.singleton_append,
              ← flat_zero l', ← e', ← gap_split (fun d hd =>
                hsp d (List.mem_cons_of_mem _ hd))]
          · cases hl' : l' with
            | nil =>
              rw [hl'] at e'
              exact absurd (e'.trans rfl) hr
            | cons q l2 =>
              have ez : lastZ ((tokOf c, (t.takeWhile ws5).length) ::
                  q :: l2) = (tokOf c, (t.takeWhile ws5).length) ::
                  lastZ (q :: l2) := rfl
              rw [ez, ← hl', z']
          · intro p hp
            rcases List.mem_cons.mp hp with h | h
            · rw [h]
              exact wordOK_tokOf c
            · exact w' p h
      · -- a word token
        have hcwc : wordCh c = true := by
          unfold wordCh
          simp [hcw, hcs]
        have hwall : ∀ d ∈ (c :: t.takeWhile wordCh : Cs),
            wordCh d = true := by
          intro d hd
          rcases List.mem_cons.mp hd with h | h
          · rw [h]; exact hcwc
          · exact List.mem_takeWhile_imp h
        have hwOK : wordOK (Tok.word (c :: t.takeWhile wordCh)) :=
          ⟨by simp, hwall⟩
        have hsplit : (c :: t : Cs) =
            (c :: t.takeWhile wordCh) ++ t.dropWhile wordCh := by
          rw [List.cons_append]
          have e0 : t.takeWhile wordCh ++ t.dropWhile wordCh = t := by
            simp [List.takeWhile_append_dropWhile]
          rw [e0]
        have hsp2 : ∀ d ∈ t.dropWhile wordCh, ws5 d = true → d = ' ' :=
          fun d hd => hsp d (List.mem_cons_of_mem _
            ((List.dropWhile_sublist wordCh).mem hd))
        by_cases hr : (t.dropWhile wordCh).dropWhile ws5 = []
        · -- after the word, only whitespace: none by the trim invariant
          cases hw0 : t.dropWhile wordCh with
          | cons d t3 =>
            exact (last_ws_contra h2 hsplit (by rw [hw0]; simp)
              (all_of_dropWhile_eq_nil hr)).elim
          | nil =>
            refine ⟨[(Tok.word (c :: t.takeWhile wordCh), 0)], ?_, rfl, ?_⟩
            · rw [flat_zero, flatL_cons, sps_zero]
              show (c :: t : Cs) = (c :: t.takeWhile wordCh) ++ ([] ++ [])
              rw [hsplit, hw0]
              rfl
            · intro p hp
              rcases List.mem_singleton.mp hp with h
              rw [h]
              exact hwOK
        · -- gap then further tokens
          have hrn : t.dropWhile wordCh ≠ [] := by
            intro he
            rw [he] at hr
            exact hr rfl
          have hrsp : ∀ d ∈ (t.dropWhile wordCh).dropWhile ws5,
              ws5 d = true → d = ' ' :=
            fun d hd => hsp2 d ((List.dropWhile_sublist ws5).mem hd)
          have hr1 : hdNot ws5 ((t.dropWhile wordCh).dropWhile ws5) :=
            hdNot_dropWhile ws5 _
          have hr2 : hdNot ws5 ((t.dropWhile wordCh).dropWhile ws5).reverse :=
            hdNot_reverse_of_suffix h2
              (((List.dropWhile_suffix ws5).trans
                (List.dropWhile_suffix wordCh)).trans
                (List.suffix_cons c t)) hr
          obtain ⟨l', e', z', w'⟩ :=
            ih ((t.dropWhile wordCh).dropWhile ws5).length (by
              have hd1 : ((t.dropWhile wordCh).dropWhile ws5).length ≤
                  (t.dropWhile wordCh).length :=
                length_dropWhile_le' ws5 _
              have hd2 : (t.dropWhile wordCh).length ≤ t.length :=
                length_dropWhile_le' wordCh t
              have h5 : (c :: t).length = t.length + 1 := by simp
              omega) _ hrsp hr1 hr2 rfl
          refine ⟨(Tok.word (c :: t.takeWhile wordCh),
            ((t.dropWhile wordCh).takeWhile ws5).length) :: l',
            ?_, ?_, ?_⟩
          · rw [flat_zero, flatL_cons, ← flat_zero l', ← e',
              ← gap_split hsp2]
            exact hsplit
          · cases hl' : l' with
            | nil =>
              rw [hl'] at e'
              exact absurd (e'.trans rfl) hr
            | cons q l2 =>
              have ez : lastZ ((Tok.word (c :: t.takeWhile wordCh),
                  ((t.dropWhile wordCh).takeWhile ws5).length) ::
                  q :: l2) = (Tok.word (c :: t.takeWhile wordCh),
                  ((t.dropWhile wordCh).takeWhile ws5).length) ::
                  lastZ (q :: l2) := rfl
              rw [ez, ← hl', z']
          · intro p hp
            rcases List.mem_cons.mp hp with h | h
            · rw [h]
              exact hwOK
            · exact w' p h

/-- Anchor tests for the four replacement passes. -/
def isEqT : Tok → Bool
  | .eq => true
  | _ => false

def isComT : Tok → Bool
  | .com => true
  | _ => false

def isLpT : Tok → Bool
  | .lp => true
  | _ => false

def isRpT : Tok → Bool
  | .rp => true
  | _ => false

theorem mem_flatL_of_body : ∀ (l : List (Tok × Nat)) (p : Tok × Nat),
    p ∈ l → ∀ c ∈ tbody p.1, c ∈ flatL l
  | [], p, hp, c, hc => absurd hp (List.not_mem_nil p)
  | (t, g) :: l, p, hp, c, hc => by
    rw [flatL_cons]
    rcases List.mem_cons.mp hp with h | h
    · apply List.mem_append_left
      rw [h] at hc
      exact hc
    · exact List.mem_append_right _
        (List.mem_append_right _ (mem_flatL_of_body l p h c hc))

/-- Within a collapsed string, whitespace only occurs as spaces. -/
theorem ws_collapseWS (s : Cs) : ∀ c ∈ collapseWS s, ws5 c = true → c = ' ' := by
  generalize hn : s.length = n
  induction n using Nat.strong_induction_on generalizing s with
  | _ n ih =>
    cases s with
    | nil =>
      intro c hc
      rw [collapseWS_nil] at hc
      exact absurd hc (List.not_mem_nil c)
    | cons d t =>
      intro c hc hw
      rw [collapseWS_cons] at hc
      by_cases hdw : ws5 d = true
      · rw [if_pos hdw] at hc
        rcases List.mem_cons.mp hc with h | h
        · exact h
        · exact ih (t.dropWhile ws5).length (by
            have := length_dropWhile_le' ws5 t
            subst hn
            simp
            omega) _ rfl c h hw
      · rw [if_neg hdw] at hc
        rcases List.mem_cons.mp hc with h | h
        · rw [h] at hw
          exact absurd hw hdw
        · exact ih t.length (by subst hn; simp) t rfl c h hw

theorem wordCh_spec {c : Char} (h : wordCh c = true) :
    ws5 c = false ∧ c ≠ '=' ∧ c ≠ ',' ∧ c ≠ '(' ∧ c ≠ ')' := by
  unfold wordCh isSpecial at h
  simp only [Bool.and_eq_true, Bool.not_eq_true', Bool.or_eq_true,
    decide_eq_true_eq, Bool.not_eq_true] at h
  obtain ⟨h1, h2⟩ := h
  refine ⟨h1, ?_, ?_, ?_, ?_⟩ <;> (intro he; rw [he] at h2; simp at h2)

/-- Transfer a token property along equal token sequences. -/
theorem all_fst_of_map_fst {P : Tok → Prop} {l l2 : List (Tok × Nat)}
    (h : l2.map Prod.fst = l.map Prod.fst) (hl : ∀ p ∈ l, P p.1) :
    ∀ p ∈ l2, P p.1 := by
  intro p hp
  have hm : p.1 ∈ l2.map Prod.fst := List.mem_map_of_mem Prod.fst hp
  rw [h] at hm
  obtain ⟨q, hq, e⟩ := List.mem_map.mp hm
  rw [← e]
  exact hl q hq

/-- Hypotheses of `replAround_flat` for the `=` pass, from token
well-formedness. -/
theorem stageOK_eq {l : List (Tok × Nat)} (hl : ∀ p ∈ l, wordOK p.1) :
    ∀ p ∈ l, (isEqT p.1 = true → tbody p.1 = ['=']) ∧
      (isEqT p.1 = false → tbody p.1 ≠ [] ∧
        ∀ c ∈ tbody p.1, ws5 c = false ∧ c ≠ '=') := by
  intro p hp
  have hw := hl p hp
  cases ht : p.1 with
  | eq => exact ⟨fun _ => rfl, fun h => (nomatch h)⟩
  | com =>
    refine ⟨fun h => (nomatch h), fun _ => ⟨(by simp [tbody]), ?_⟩⟩
    intro c hc
    rcases List.mem_singleton.mp hc with h
    rw [h]
    exact ⟨rfl, by decide⟩
  | lp =>
    refine ⟨fun h => (nomatch h), fun _ => ⟨(by simp [tbody]), ?_⟩⟩
    intro c hc
    rcases List.mem_singleton.mp hc with h
    rw [h]
    exact ⟨rfl, by decide⟩
  | rp =>
    refine ⟨fun h => (nomatch h), fun _ => ⟨(by simp [tbody]), ?_⟩⟩
    intro c hc
    rcases List.mem_singleton.mp hc with h
    rw [h]
    exact ⟨rfl, by decide⟩
  | word w =>
    rw [ht] at hw
    refine ⟨fun h => (nomatch h), fun _ => ⟨hw.1, ?_⟩⟩
    intro c hc
    obtain ⟨h1, h2, _, _, _⟩ := wordCh_spec (hw.2 c hc)
    exact ⟨h1, h2⟩

theorem stageOK_com {l : List (Tok × Nat)} (hl : ∀ p ∈ l, wordOK p.1) :
    ∀ p ∈ l, (isComT p.1 = true → tbody p.1 = [',']) ∧
      (isComT p.1 = false → tbody p.1 ≠ [] ∧
        ∀ c ∈ tbody p.1, ws5 c = false ∧ c ≠ ',') := by
  intro p hp
  have hw := hl p hp
  cases ht : p.1 with
  | com => exact ⟨fun _ => rfl, fun h => (nomatch h)⟩
  | eq =>
    refine ⟨fun h => (nomatch h), fun _ => ⟨(by simp [tbody]), ?_⟩⟩
    intro c hc
    rcases List.mem_singleton.mp hc with h
    rw [h]
    exact ⟨rfl, by decide⟩
  | lp =>
    refine ⟨fun h => (nomatch h), fun _ => ⟨(by simp [tbody]), ?_⟩⟩
    intro c hc
    rcases List.mem_singleton.mp hc with h
    rw [h]
    exact ⟨rfl, by decide⟩
  | rp =>
    refine ⟨fun h => (nomatch h), fun _ => ⟨(by simp [tbody]), ?_⟩⟩
    intro c hc
    rcases List.mem_singleton.mp hc with h
    rw [h]
    exact ⟨rfl, by decide⟩
  | word w =>
    rw [ht] at hw
    refine ⟨fun h => (nomatch h), fun _ => ⟨hw.1, ?_⟩⟩
    intro c hc
    obtain ⟨h1, _, h2, _, _⟩ := wordCh_spec (hw.2 c hc)
    exact ⟨h1, h2⟩

theorem stageOK_lp {l : List (Tok × Nat)} (hl : ∀ p ∈ l, wordOK p.1) :
    ∀ p ∈ l, (isLpT p.1 = true → tbody p.1 = ['(']) ∧
      (isLpT p.1 = false → tbody p.1 ≠ [] ∧
        ∀ c ∈ tbody p.1, ws5 c = false ∧ c ≠ '(') := by
  intro p hp
  have hw := hl p hp
  cases ht : p.1 with
  | lp => exact ⟨fun _ => rfl, fun h => (nomatch h)⟩
  | eq =>
    refine ⟨fun h => (nomatch h), fun _ => ⟨(by simp [tbody]), ?_⟩⟩
    intro c hc
    rcases List.mem_singleton.mp hc with h
    rw [h]
    exact ⟨rfl, by decide⟩
  | com =>
    refine ⟨fun h => (nomatch h), fun _ => ⟨(by simp [tbody]), ?_⟩⟩
    intro c hc
    rcases List.mem_singleton.mp hc with h
    rw [h]
    exact ⟨rfl, by decide⟩
  | rp =>
    refine ⟨fun h => (nomatch h), fun _ => ⟨(by simp [tbody]), ?_⟩⟩
    intro c hc
    rcases List.mem_singleton.mp hc with h
    rw [h]
    exact ⟨rfl, by decide⟩
  | word w =>
    rw [ht] at hw
    refine ⟨fun h => (nomatch h), fun _ => ⟨hw.1, ?_⟩⟩
    intro c hc
    obtain ⟨h1, _, _, h2, _⟩ := wordCh_spec (hw.2 c hc)
    exact ⟨h1, h2⟩

theorem stageOK_rp {l : List (Tok × Nat)} (hl : ∀ p ∈ l, wordOK p.1) :
    ∀ p ∈ l, (isRpT p.1 = true → tbody p.1 = [')']) ∧
      (isRpT p.1 = false → tbody p.1 ≠ [] ∧
        ∀ c ∈ tbody p.1, ws5 c = false ∧ c ≠ ')') := by
  intro p hp
  have hw := hl p hp
  cases ht : p.1 with
  | rp => exact ⟨fun _ => rfl, fun h => (nomatch h)⟩
  | eq =>
    refine ⟨fun h => (nomatch h), fun _ => ⟨(by simp [tbody]), ?_⟩⟩
    intro c hc
    rcases List.mem_singleton.mp hc with h
    rw [h]
    exact ⟨rfl, by decide⟩
  | com =>
    refine ⟨fun h => (nomatch h), fun _ => ⟨(by simp [tbody]), ?_⟩⟩
    intro c hc
    rcases List.mem_singleton.mp hc with h
    rw [h]
    exact ⟨rfl, by decide⟩
  | lp =>
    refine ⟨fun h => (nomatch h), fun _ => ⟨(by simp [tbody]), ?_⟩⟩
    intro c hc
    rcases List.mem_singleton.mp hc with h
    rw [h]
    exact ⟨rfl, by decide⟩
  | word w =>
    rw [ht] at hw
    refine ⟨fun h => (nomatch h), fun _ => ⟨hw.1, ?_⟩⟩
    intro c hc
    obtain ⟨h1, _, _, _, h2⟩ := wordCh_spec (hw.2 c hc)
    exact ⟨h1, h2⟩

/-- Hypotheses of `collapseWS_flat`, from token well-formedness. -/
theorem stageOK_ws {l : List (Tok × Nat)} (hl : ∀ p ∈ l, wordOK p.1) :
    ∀ p ∈ l, tbody p.1 ≠ [] ∧ ∀ c ∈ tbody p.1, ws5 c = false := by
  intro p hp
  have hw := hl p hp
  cases ht : p.1 with
  | eq =>
    refine ⟨(by simp [tbody]), ?_⟩
    intro c hc
    rcases List.mem_singleton.mp hc with h
    rw [h]
    rfl
  | com =>
    refine ⟨(by simp [tbody]), ?_⟩
    intro c hc
    rcases List.mem_singleton.mp hc with h
    rw [h]
    rfl
  | lp =>
    refine ⟨(by simp [tbody]), ?_⟩
    intro c hc
    rcases List.mem_singleton.mp hc with h
    rw [h]
    rfl
  | rp =>
    refine ⟨(by simp [tbody]), ?_⟩
    intro c hc
    rcases List.mem_singleton.mp hc with h
    rw [h]
    rfl
  | word w =>
    rw [ht] at hw
    refine ⟨hw.1, ?_⟩
    intro c hc
    exact (wordCh_spec (hw.2 c hc)).1

/-- Apply a gap-rewriting function that sees each token, its successor
(if any), and its following gap. -/
def pairMap (f : Tok → Option Tok → Nat → Nat) :
    List (Tok × Nat) → List (Tok × Nat)
  | [] => []
  | [(t, g)] => [(t, f t none g)]
  | (t, g) :: (u, g2) :: l => (t, f t (some u) g) :: pairMap f ((u, g2) :: l)

theorem pairMap_cons2 (f : Tok → Option Tok → Nat → Nat) (t : Tok) (g : Nat)
    (u : Tok) (g2 : Nat) (l : List (Tok × Nat)) :
    pairMap f ((t, g) :: (u, g2) :: l) =
      (t, f t (some u) g) :: pairMap f ((u, g2) :: l) := rfl

theorem pairMap_cons_head (f : Tok → Option Tok → Nat → Nat) (u : Tok)
    (g2 : Nat) (l : List (Tok × Nat)) :
    ∃ g' l', pairMap f ((u, g2) :: l) = (u, g') :: l' := by
  cases l with
  | nil => exact ⟨f u none g2, [], rfl⟩
  | cons q l2 =>
    obtain ⟨v, g3⟩ := q
    exact ⟨f u (some v) g2, pairMap f ((v, g3) :: l2), rfl⟩

theorem pairMap_pairMap (f h : Tok → Option Tok → Nat → Nat) :
    ∀ l, pairMap f (pairMap h l) =
      pairMap (fun t u g => f t u (h t u g)) l
  | [] => rfl
  | [(t, g)] => rfl
  | (t, g) :: (u, g2) :: l => by
    obtain ⟨g', l', hgl⟩ := pairMap_cons_head h u g2 l
    rw [pairMap_cons2 h, hgl, pairMap_cons2 f, ← hgl,
      pairMap_pairMap f h ((u, g2) :: l), pairMap_cons2]

/-- The gap function of one replacement pass. -/
def agapF (A : Tok → Bool) (lam tau : Nat) :
    Tok → Option Tok → Nat → Nat := fun t u g =>
  match u with
  | none => if A t then tau else g
  | some u =>
    if A t then
      if A u then tau + lam else tau
    else
      if A u then lam else g

theorem reGapL_eq_pairMap (A : Tok → Bool) (lam tau : Nat) :
    ∀ l, reGapL A lam tau l = pairMap (agapF A lam tau) l
  | [] => rfl
  | [(t, g)] => rfl
  | (t, g) :: (u, g2) :: l => by
    have e1 : reGapL A lam tau ((t, g) :: (u, g2) :: l) =
        (t, if A t then
              if A u then tau + lam else tau
            else
              if A u then lam else g) :: reGapL A lam tau ((u, g2) :: l) := rfl
    rw [e1, reGapL_eq_pairMap A lam tau ((u, g2) :: l), pairMap_cons2]
    rfl

theorem min1L_eq_pairMap :
    ∀ l, min1L l = pairMap (fun _ _ g => min g 1) l
  | [] => rfl
  | [(t, g)] => rfl
  | (t, g) :: (u, g2) :: l => by
    have e1 : min1L ((t, g) :: (u, g2) :: l) =
        (t, min g 1) :: min1L ((u, g2) :: l) := rfl
    rw [e1, min1L_eq_pairMap ((u, g2) :: l), pairMap_cons2]

theorem lastZ_eq_pairMap :
    ∀ l, lastZ l = pairMap (fun _ u g =>
      match u with
      | none => 0
      | some _ => g) l
  | [] => rfl
  | [(t, g)] => rfl
  | (t, g) :: (u, g2) :: l => by
    have e1 : lastZ ((t, g) :: (u, g2) :: l) =
        (t, g) :: lastZ ((u, g2) :: l) := rfl
    rw [e1, lastZ_eq_pairMap ((u, g2) :: l), pairMap_cons2]

/-- The composite gap function of the five spacing passes. -/
def f5 : Tok → Option Tok → Nat → Nat := fun t u g =>
  agapF isRpT 1 1 t u (agapF isLpT 1 1 t u
    (min (agapF isComT 0 1 t u (agapF isEqT 1 1 t u g)) 1))

/-- The gap list after the five spacing passes. -/
def pgapL (l : List (Tok × Nat)) : List (Tok × Nat) :=
  reGapL isRpT 1 1 (reGapL isLpT 1 1 (min1L
    (reGapL isComT 0 1 (reGapL isEqT 1 1 l))))

/-- The leading gap after the five spacing passes. -/
def pgap0 (g0 : Nat) (l : List (Tok × Nat)) : Nat :=
  reGap0 isRpT 1
    (reGap0 isLpT 1
      (min (reGap0 isComT 0 (reGap0 isEqT 1 g0 l) (reGapL isEqT 1 1 l)) 1)
      (min1L (reGapL isComT 0 1 (reGapL isEqT 1 1 l))))
    (reGapL isLpT 1 1 (min1L (reGapL isComT 0 1 (reGapL isEqT 1 1 l))))

theorem pgapL_eq_pairMap (l : List (Tok × Nat)) : pgapL l = pairMap f5 l := by
  unfold pgapL
  rw [reGapL_eq_pairMap, reGapL_eq_pairMap, min1L_eq_pairMap,
    reGapL_eq_pairMap, reGapL_eq_pairMap, pairMap_pairMap, pairMap_pairMap,
    pairMap_pairMap, pairMap_pairMap]
  rfl

theorem f5_pointwise (t u : Tok) (g : Nat) :
    f5 t (some u) (min (f5 t (some u) g) 1) = f5 t (some u) g := by
  cases t <;> cases u <;>
    simp [f5, agapF, isEqT, isComT, isLpT, isRpT] <;> omega

/-- Collapsing, trimming and re-running the five passes leaves the gap
list of a pass output unchanged. -/
theorem pgapL_idem : ∀ l : List (Tok × Nat), lastZ l = l →
    pairMap (fun t u g => f5 t u
      (match u with
        | none => (0 : Nat)
        | some _ => min (f5 t u g) 1)) l = pairMap f5 l
  | [], _ => rfl
  | [(t, g)], hz => by
    have hg : g = 0 := by
      have h2 := hz
      simp [lastZ] at h2
      exact h2.symm
    subst hg
    rfl
  | (t, g) :: (u, g2) :: l, hz => by
    have e1 : lastZ ((t, g) :: (u, g2) :: l) =
        (t, g) :: lastZ ((u, g2) :: l) := rfl
    rw [e1] at hz
    have hz2 : lastZ ((u, g2) :: l) = (u, g2) :: l :=
      (List.cons.inj hz).2
    have ih := pgapL_idem ((u, g2) :: l) hz2
    rw [pairMap_cons2, pairMap_cons2, ih]
    have e2 : (match some u with
        | none => (0 : Nat)
        | some _ => min (f5 t (some u) g) 1) = min (f5 t (some u) g) 1 := rfl
    rw [e2, f5_pointwise t u g]

theorem reGap0_cons (A : Tok → Bool) (lam g0 : Nat) (t : Tok) (g : Nat)
    (l : List (Tok × Nat)) :
    reGap0 A lam g0 ((t, g) :: l) = if A t then lam else g0 := rfl

theorem reGapL_cons_head (A : Tok → Bool) (lam tau : Nat) (t : Tok)
    (g : Nat) (l : List (Tok × Nat)) :
    ∃ g' l', reGapL A lam tau ((t, g) :: l) = (t, g') :: l' := by
  cases l with
  | nil => exact ⟨_, _, rfl⟩
  | cons q l2 =>
    obtain ⟨u, g2⟩ := q
    exact ⟨_, _, rfl⟩

theorem min1L_cons (t : Tok) (g : Nat) (l : List (Tok × Nat)) :
    min1L ((t, g) :: l) = (t, min g 1) :: min1L l := rfl

/-- The leading gap after the five passes depends only on the first
token. -/
theorem pgap0_cons (g0 : Nat) (t : Tok) (g : Nat) (l : List (Tok × Nat)) :
    pgap0 g0 ((t, g) :: l) =
      (if isRpT t then 1 else
        if isLpT t then 1 else
          min (if isComT t then 0 else if isEqT t then 1 else g0) 1) := by
  unfold pgap0
  obtain ⟨ga, la, ea⟩ := reGapL_cons_head isEqT 1 1 t g l
  rw [ea]
  obtain ⟨gb, lb, eb⟩ := reGapL_cons_head isComT 0 1 t ga la
  rw [eb, min1L_cons]
  obtain ⟨gc, lc, ec⟩ := reGapL_cons_head isLpT 1 1 t (min gb 1) (min1L lb)
  rw [ec, reGap0_cons, reGap0_cons, reGap0_cons, reGap0_cons]

theorem ws5_imp_gs {c : Char} (h : ws5 c = true) : goIsSpace c = true := by
  unfold goIsSpace
  rw [h]
  rfl

/-- Characters of the whitespace/trim/lower prefix of the pipeline. -/
theorem mem_sigma (x : Cs) :
    ∀ c ∈ toLowerStr (trimStr (collapseWS x)),
      (∃ d ∈ x, c = goLower d) ∨ c = ' ' := by
  intro c hc
  obtain ⟨d, hd, e⟩ := List.mem_map.mp hc
  have hd2 : d ∈ collapseWS x := mem_trimStr _ d hd
  rcases mem_collapseWS x d hd2 with h | h
  · exact Or.inl ⟨d, h, e.symm⟩
  · rw [h] at e
    exact Or.inr e.symm

/-- Characters after the `=`, `,` and second collapse passes. -/
theorem mem_tail6 (x : Cs) :
    ∀ c ∈ collapseWS (replComma (replEq (toLowerStr (trimStr
        (collapseWS x))))),
      (∃ d ∈ x, c = goLower d) ∨ c = ' ' ∨ c = '=' ∨ c = ',' := by
  intro c hc
  rcases mem_collapseWS _ c hc with h | h
  · rcases mem_replAround ',' [',', ' '] _ c h with h2 | h2
    · rcases mem_replAround '=' [' ', '=', ' '] _ c h2 with h3 | h3
      · rcases mem_sigma x c h3 with h4 | h4
        · exact Or.inl h4
        · exact Or.inr (Or.inl h4)
      · rcases List.mem_cons.mp h3 with h4 | h4
        · exact Or.inr (Or.inl h4)
        · rcases List.mem_cons.mp h4 with h5 | h5
          · exact Or.inr (Or.inr (Or.inl h5))
          · rcases List.mem_cons.mp h5 with h6 | h6
            · exact Or.inr (Or.inl h6)
            · exact absurd h6 (List.not_mem_nil c)
    · rcases List.mem_cons.mp h2 with h4 | h4
      · exact Or.inr (Or.inr (Or.inr h4))
      · rcases List.mem_cons.mp h4 with h5 | h5
        · exact Or.inr (Or.inl h5)
        · exact absurd h5 (List.not_mem_nil c)
  · exact Or.inr (Or.inl h)

/-- On digit- and quote-free input, the digit and quote substitution
passes of `normalizeQuery` are the identity, leaving only the
whitespace/spacing pipeline. -/
theorem norm_eq_tail (x : Cs) (hd : ∀ c ∈ x, isDigitA c = false)
    (hq : ∀ c ∈ x, c ≠ '\'' ∧ c ≠ '"') :
    normalizeQuery x = replRpar (replLpar (collapseWS (replComma (replEq
      (toLowerStr (trimStr (collapseWS x))))))) := by
  have hY_d : ∀ c ∈ collapseWS (replComma (replEq (toLowerStr (trimStr
      (collapseWS x))))), isDigitA c = false := by
    intro c hc
    rcases mem_tail6 x c hc with ⟨d, hdm, e⟩ | h | h | h
    · rw [e, isDigitA_goLower]
      exact hd d hdm
    · rw [h]; rfl
    · rw [h]; rfl
    · rw [h]; rfl
  have hY_sq : ∀ c ∈ collapseWS (replComma (replEq (toLowerStr (trimStr
      (collapseWS x))))), c ≠ '\'' := by
    intro c hc
    rcases mem_tail6 x c hc with ⟨d, hdm, e⟩ | h | h | h
    · rw [e]
      intro he
      rw [(goLower_eq_q_iff (by decide) d).mp he] at hdm
      exact (hq '\'' hdm).1 rfl
    · rw [h]; decide
    · rw [h]; decide
    · rw [h]; decide
  have hY_dq : ∀ c ∈ collapseWS (replComma (replEq (toLowerStr (trimStr
      (collapseWS x))))), c ≠ '"' := by
    intro c hc
    rcases mem_tail6 x c hc with ⟨d, hdm, e⟩ | h | h | h
    · rw [e]
      intro he
      rw [(goLower_eq_q_iff (by decide) d).mp he] at hdm
      exact (hq '"' hdm).2 rfl
    · rw [h]; decide
    · rw [h]; decide
    · rw [h]; decide
  unfold normalizeQuery
  rw [replDigits_id hY_d, replQuote_id_of_nq hY_sq, replQuote_id_of_nq hY_dq]

theorem sigma_ws (x : Cs) :
    ∀ c ∈ toLowerStr (trimStr (collapseWS x)), ws5 c = true → c = ' ' := by
  intro c hc hw
  obtain ⟨d, hd, e⟩ := List.mem_map.mp hc
  rw [← e, ws5_goLower] at hw
  have hds : d = ' ' :=
    ws_collapseWS x d (mem_trimStr _ d hd) hw
  rw [← e, hds]
  rfl

theorem sigma_hd_gs (x : Cs) :
    hdNot goIsSpace (toLowerStr (trimStr (collapseWS x))) := by
  intro c hc
  rw [toLowerStr, List.head?_map] at hc
  cases he : (trimStr (collapseWS x)).head? with
  | none => rw [he] at hc; cases hc
  | some d =>
    rw [he] at hc
    have hd : goIsSpace d = false := hdNot_trimStr (collapseWS x) d he
    have hc2 : some (goLower d) = some c := hc
    rw [← Option.some.inj hc2, goIsSpace_goLower]
    exact hd

theorem sigma_last_gs (x : Cs) :
    hdNot goIsSpace (toLowerStr (trimStr (collapseWS x))).reverse := by
  intro c hc
  rw [toLowerStr, ← List.map_reverse, List.head?_map] at hc
  cases he : (trimStr (collapseWS x)).reverse.head? with
  | none => rw [he] at hc; cases hc
  | some d =>
    rw [he] at hc
    have hd : goIsSpace d = false := lastNot_trimStr (collapseWS x) d he
    have hc2 : some (goLower d) = some c := hc
    rw [← Option.some.inj hc2, goIsSpace_goLower]
    exact hd

theorem hdNot_ws5_of_gs {v : Cs} (h : hdNot goIsSpace v) : hdNot ws5 v := by
  intro c hc
  have := h c hc
  cases hw : ws5 c with
  | false => rfl
  | true => rw [ws5_imp_gs hw] at this; cases this

/-- The spacing tail of `normalizeQuery` on a flat gapped-token string. -/
theorem tail_flat (l : List (Tok × Nat)) (hl : ∀ p ∈ l, wordOK p.1)
    (g0 : Nat) :
    replRpar (replLpar (collapseWS (replComma (replEq (flat g0 l))))) =
      flat (pgap0 g0 l) (pgapL l) := by
  have hw1 : ∀ p ∈ reGapL isEqT 1 1 l, wordOK p.1 :=
    all_fst_of_map_fst (reGapL_map_fst isEqT 1 1 l) hl
  have hw2 : ∀ p ∈ reGapL isComT 0 1 (reGapL isEqT 1 1 l), wordOK p.1 :=
    all_fst_of_map_fst (reGapL_map_fst isComT 0 1 _) hw1
  have hw3 : ∀ p ∈ min1L (reGapL isComT 0 1 (reGapL isEqT 1 1 l)),
      wordOK p.1 :=
    all_fst_of_map_fst (min1L_map_fst _) hw2
  have hw4 : ∀ p ∈ reGapL isLpT 1 1 (min1L (reGapL isComT 0 1
      (reGapL isEqT 1 1 l))), wordOK p.1 :=
    all_fst_of_map_fst (reGapL_map_fst isLpT 1 1 _) hw3
  have e_eq : (([' ', '=', ' '] : Cs)) = sps 1 ++ '=' :: sps 1 := rfl
  have e_com : (([',', ' '] : Cs)) = sps 0 ++ ',' :: sps 1 := rfl
  have e_lp : (([' ', '(', ' '] : Cs)) = sps 1 ++ '(' :: sps 1 := rfl
  have e_rp : (([' ', ')', ' '] : Cs)) = sps 1 ++ ')' :: sps 1 := rfl
  have h1 := replAround_flat '=' 1 1 isEqT (by decide) l (stageOK_eq hl) g0
  have h2 := replAround_flat ',' 0 1 isComT (by decide) (reGapL isEqT 1 1 l)
    (stageOK_com hw1) (reGap0 isEqT 1 g0 l)
  have h3 := collapseWS_flat (reGapL isComT 0 1 (reGapL isEqT 1 1 l))
    (stageOK_ws hw2) (reGap0 isComT 0 (reGap0 isEqT 1 g0 l)
      (reGapL isEqT 1 1 l))
  have h4 := replAround_flat '(' 1 1 isLpT (by decide)
    (min1L (reGapL isComT 0 1 (reGapL isEqT 1 1 l))) (stageOK_lp hw3)
    (min (reGap0 isComT 0 (reGap0 isEqT 1 g0 l) (reGapL isEqT 1 1 l)) 1)
  have h5 := replAround_flat ')' 1 1 isRpT (by decide)
    (reGapL isLpT 1 1 (min1L (reGapL isComT 0 1 (reGapL isEqT 1 1 l))))
    (stageOK_rp hw4)
    (reGap0 isLpT 1 (min (reGap0 isComT 0 (reGap0 isEqT 1 g0 l)
      (reGapL isEqT 1 1 l)) 1)
      (min1L (reGapL isComT 0 1 (reGapL isEqT 1 1 l))))
  unfold replEq replComma replLpar replRpar
  rw [e_eq, e_com, e_lp, e_rp, h1, h2, h3, h4, h5]
  rfl

theorem pairMap_ext {f h : Tok → Option Tok → Nat → Nat}
    (he : ∀ t u g, f t u g = h t u g) : ∀ l, pairMap f l = pairMap h l := by
  have e : f = h := by
    funext t u g
    exact he t u g
  intro l
  rw [e]

theorem pgapL_map_fst (l : List (Tok × Nat)) :
    (pgapL l).map Prod.fst = l.map Prod.fst := by
  unfold pgapL
  rw [reGapL_map_fst, reGapL_map_fst, min1L_map_fst, reGapL_map_fst,
    reGapL_map_fst]

theorem lM_map_fst (l : List (Tok × Nat)) :
    (lastZ (min1L (pgapL l))).map Prod.fst = l.map Prod.fst := by
  rw [lastZ_map_fst, min1L_map_fst, pgapL_map_fst]

theorem pgapL_head (t : Tok) (g : Nat) (l : List (Tok × Nat)) :
    ∃ g' l', pgapL ((t, g) :: l) = (t, g') :: l' := by
  rw [pgapL_eq_pairMap]
  exact pairMap_cons_head f5 t g l

theorem lM_head (t : Tok) (g : Nat) (l : List (Tok × Nat)) :
    ∃ g' l', lastZ (min1L (pgapL ((t, g) :: l))) = (t, g') :: l' := by
  obtain ⟨g1, l1, e1⟩ := pgapL_head t g l
  rw [e1, min1L_cons]
  exact lastZ_cons_head t (min g1 1) (min1L l1)

theorem lastTok_cons_some : ∀ (l : List (Tok × Nat)) (t : Tok) (g : Nat),
    ∃ u, lastTok ((t, g) :: l) = some u
  | [], t, g => ⟨t, rfl⟩
  | (v, g2) :: l, t, g => by
    obtain ⟨u, hu⟩ := lastTok_cons_some l v g2
    refine ⟨u, ?_⟩
    have e : lastTok ((t, g) :: (v, g2) :: l) = lastTok ((v, g2) :: l) := rfl
    rw [e, hu]

/-- Re-running collapse, trim and the five spacing passes reproduces the
gap list of pass one. -/
theorem pgapL_pass2 (l : List (Tok × Nat)) (hz : lastZ l = l) :
    pgapL (lastZ (min1L (pgapL l))) = pgapL l := by
  have e1 : lastZ (min1L (pgapL l)) =
      pairMap (fun t u g =>
        match u with
        | none => (0 : Nat)
        | some _ => min (f5 t u g) 1) l := by
    rw [pgapL_eq_pairMap, min1L_eq_pairMap, lastZ_eq_pairMap,
      pairMap_pairMap, pairMap_pairMap]
  rw [e1, pgapL_eq_pairMap, pairMap_pairMap, pgapL_eq_pairMap l,
    ← pgapL_idem l hz]

/-- Pass two reproduces the leading gap of pass one. -/
theorem pgap0_pass2 (l : List (Tok × Nat)) :
    pgap0 0 (lastZ (min1L (pgapL l))) = pgap0 0 l := by
  cases l with
  | nil => rfl
  | cons p l2 =>
    obtain ⟨t, g⟩ := p
    obtain ⟨g', l', e⟩ := lM_head t g l2
    rw [e, pgap0_cons, pgap0_cons]

/-- `normalizeQuery` is idempotent on digit-free, quote-free input. -/
theorem normIdem (x : Cs) (hdx : ∀ c ∈ x, isDigitA c = false)
    (hqx : ∀ c ∈ x, c ≠ '\'' ∧ c ≠ '"') :
    normalizeQuery (normalizeQuery x) = normalizeQuery x := by
  have hws := sigma_ws x
  have hh : hdNot ws5 (toLowerStr (trimStr (collapseWS x))) :=
    hdNot_ws5_of_gs (sigma_hd_gs x)
  have hlast : hdNot ws5 (toLowerStr (trimStr (collapseWS x))).reverse :=
    hdNot_ws5_of_gs (sigma_last_gs x)
  obtain ⟨l, eσ, hz, hwOK⟩ := flat_decomp _ hws hh hlast
  have e1 : normalizeQuery x = flat (pgap0 0 l) (pgapL l) := by
    rw [norm_eq_tail x hdx hqx, eσ, tail_flat l hwOK 0]
  have hwOK2 : ∀ p ∈ pgapL l, wordOK p.1 :=
    all_fst_of_map_fst (pgapL_map_fst l) hwOK
  have hmemT : ∀ (g0' : Nat) (L : List (Tok × Nat)),
      L.map Prod.fst = l.map Prod.fst → ∀ c ∈ flat g0' L,
        c ∈ toLowerStr (trimStr (collapseWS x)) ∨ c = ' ' := by
    intro g0' L hLm c hc
    rw [flat] at hc
    rcases List.mem_append.mp hc with h | h
    · exact Or.inr (sps_all_sp c h)
    · rcases mem_flatL L c h with h2 | ⟨p, hp, hpc⟩
      · exact Or.inr h2
      · have hm : p.1 ∈ L.map Prod.fst := List.mem_map_of_mem Prod.fst hp
        rw [hLm] at hm
        obtain ⟨q, hq2, eq2⟩ := List.mem_map.mp hm
        have hcm : c ∈ flatL l :=
          mem_flatL_of_body l q hq2 c (by rw [eq2]; exact hpc)
        rw [← flat_zero, ← eσ] at hcm
        exact Or.inl hcm
  have hymem := hmemT (pgap0 0 l) (pgapL l) (pgapL_map_fst l)
  have hy_d : ∀ c ∈ flat (pgap0 0 l) (pgapL l), isDigitA c = false := by
    intro c hc
    rcases hymem c hc with h | h
    · rcases mem_sigma x c h with ⟨d, hdm, e⟩ | h2
      · rw [e, isDigitA_goLower]
        exact hdx d hdm
      · rw [h2]; rfl
    · rw [h]; rfl
  have hy_q : ∀ c ∈ flat (pgap0 0 l) (pgapL l), c ≠ '\'' ∧ c ≠ '"' := by
    intro c hc
    rcases hymem c hc with h | h
    · rcases mem_sigma x c h with ⟨d, hdm, e⟩ | h2
      · constructor
        · rw [e]
          intro he
          rw [(goLower_eq_q_iff (by decide) d).mp he] at hdm
          exact (hqx '\'' hdm).1 rfl
        · rw [e]
          intro he
          rw [(goLower_eq_q_iff (by decide) d).mp he] at hdm
          exact (hqx '"' hdm).2 rfl
      · rw [h2]
        exact ⟨by decide, by decide⟩
    · rw [h]
      exact ⟨by decide, by decide⟩
  have hy_low : ∀ c ∈ flat 0 (lastZ (min1L (pgapL l))), goLower c = c := by
    intro c hc
    rcases hmemT 0 (lastZ (min1L (pgapL l))) (lM_map_fst l) c hc with h | h
    · rcases mem_sigma x c h with ⟨d, hdm, e⟩ | h2
      · rw [e, goLower_goLower]
      · rw [h2]; rfl
    · rw [h]; rfl
  have e3 : collapseWS (flat (pgap0 0 l) (pgapL l)) =
      flat (min (pgap0 0 l) 1) (min1L (pgapL l)) :=
    collapseWS_flat (pgapL l) (stageOK_ws hwOK2) (pgap0 0 l)
  have hwOK3 : ∀ p ∈ lastZ (min1L (pgapL l)), wordOK p.1 :=
    all_fst_of_map_fst (lM_map_fst l) hwOK
  cases l with
  | nil =>
    rw [e1]
    rfl
  | cons p l2 =>
    obtain ⟨t, g⟩ := p
    have hbt : tbody t ≠ [] :=
      (stageOK_ws hwOK (t, g) (List.mem_cons_self _ _)).1
    obtain ⟨gM, lM2, eM⟩ := lM_head t g l2
    have h1 : hdNot goIsSpace (flatL (lastZ (min1L (pgapL
        ((t, g) :: l2))))) := by
      intro c hc
      rw [eM, head?_flatL gM lM2 hbt] at hc
      apply sigma_hd_gs x c
      rw [eσ, flat_zero, head?_flatL g l2 hbt]
      exact hc
    obtain ⟨tL, htL⟩ := lastTok_cons_some l2 t g
    have hbodies : ∀ p ∈ (t, g) :: l2, tbody p.1 ≠ [] :=
      fun p hp => (stageOK_ws hwOK p hp).1
    have hbodiesM : ∀ p ∈ min1L (pgapL ((t, g) :: l2)), tbody p.1 ≠ [] := by
      intro p hp
      have hm : p.1 ∈ (min1L (pgapL ((t, g) :: l2))).map Prod.fst :=
        List.mem_map_of_mem Prod.fst hp
      rw [min1L_map_fst, pgapL_map_fst] at hm
      obtain ⟨q, hq2, eq2⟩ := List.mem_map.mp hm
      rw [← eq2]
      exact hbodies q hq2
    have htLM : lastTok (min1L (pgapL ((t, g) :: l2))) = some tL := by
      have hmf : (min1L (pgapL ((t, g) :: l2))).map Prod.fst =
          ((t, g) :: l2).map Prod.fst := by
        rw [min1L_map_fst, pgapL_map_fst]
      rw [lastTok_eq_of_map_fst hmf]
      exact htL
    have hσlast : (toLowerStr (trimStr (collapseWS x))).getLast? =
        (tbody tL).getLast? := by
      rw [eσ, flat_zero, ← hz]
      exact getLast?_flatL ((t, g) :: l2) hbodies tL htL
    have h2 : hdNot goIsSpace (flatL (lastZ (min1L (pgapL
        ((t, g) :: l2))))).reverse := by
      intro c hc
      rw [List.head?_reverse,
        getLast?_flatL (min1L (pgapL ((t, g) :: l2))) hbodiesM tL htLM]
        at hc
      apply sigma_last_gs x c
      rw [List.head?_reverse, hσlast]
      exact hc
    have e4 : trimStr (flat (min (pgap0 0 ((t, g) :: l2)) 1)
        (min1L (pgapL ((t, g) :: l2)))) =
        flat 0 (lastZ (min1L (pgapL ((t, g) :: l2)))) :=
      trimStr_flat _ _ h1 h2
    have e5 : toLowerStr (flat 0 (lastZ (min1L (pgapL ((t, g) :: l2))))) =
        flat 0 (lastZ (min1L (pgapL ((t, g) :: l2)))) :=
      toLowerStr_id hy_low
    rw [e1, norm_eq_tail _ hy_d hy_q, e3, e4, e5,
      tail_flat (lastZ (min1L (pgapL ((t, g) :: l2)))) hwOK3 0,
      pgap0_pass2, pgapL_pass2 _ hz]

/-- C4 counterexample: the digit pass emits an upper-case `N` (and the
quote passes an upper-case `S`), which the lower-casing step of a second
run rewrites, so normalized output is not always a fixed point. -/
theorem claim_C4_counterexample :
    normalizeQuery (normalizeQuery ("5".toList)) ≠
        normalizeQuery ("5".toList) ∧
      normalizeQuery (normalizeQuery ("'a'".toList)) ≠
        normalizeQuery ("'a'".toList) := by
  constructor
  · decide
  · decide

/-- C4 (amended): `canonicalize` (`normalizeQuery`) is idempotent on every
raw statement string that contains no decimal digit and no single- or
double-quote character; on such input no `N`/`S` token is introduced and
the spacing passes reproduce their own output. -/
theorem claim_C4 (x : Cs) (hdx : ∀ c ∈ x, isDigitA c = false)
    (hqx : ∀ c ∈ x, c ≠ '\'' ∧ c ≠ '"') :
    normalizeQuery (normalizeQuery x) = normalizeQuery x :=
  normIdem x hdx hqx

theorem claim_C4_witness :
    (∀ c ∈ ("SELECT a,  b = c FROM t WHERE (x)  ;".toList),
        isDigitA c = false) ∧
      (∀ c ∈ ("SELECT a,  b = c FROM t WHERE (x)  ;".toList),
        c ≠ '\'' ∧ c ≠ '"') ∧
      normalizeQuery (normalizeQuery
          ("SELECT a,  b = c FROM t WHERE (x)  ;".toList)) =
        normalizeQuery ("SELECT a,  b = c FROM t WHERE (x)  ;".toList) :=
  ⟨by decide, by decide,
    claim_C4 ("SELECT a,  b = c FROM t WHERE (x)  ;".toList)
      (by decide) (by decide)⟩

end DQF
